import Mathlib

/-!
# pfs0_create: a shallow embedding of `main.cpp` and its layout properties

The tool packs the regular files of one directory into a PFS0 container:
a 16-byte header, one 24-byte descriptor per file, the table of
NUL-terminated base names, and the file contents back to back.

Conventions of the embedding

* a `char` is a `Byte`; a `std::string` and a file content are `List Byte`;
* `uint32_t`, `uint64_t` and `size_t` values are natural numbers reduced
  modulo `2 ^ 32` resp. `2 ^ 64` wherever the C++ arithmetic can wrap
  (the tool is built for 64-bit hosts, so `size_t` has 64 bits);
* the structs are written through `reinterpret_cast<const char*>`, so what
  reaches the file is their memory image; the host is little-endian and
  both structs are free of implicit padding (4+4+4+4 and 8+8+4+4 bytes);
* an input stream is a record of its file bytes, its get position and its
  `eofbit`/`failbit`; a stream whose open failed starts with `failbit` set.
  Device errors after a successful open are outside the model, and so are
  write errors on the output stream;
* the only loop that may fail to terminate, the one of `FastAppend`, takes
  a bound on its number of iterations and yields `none` beyond it;
* `main` takes the output stream as the bytes written to it. The definitions
  whose names end in `_fs` follow the same lines of the source with the output
  file in view: the stream of line 83 is opened on a path of the file system,
  which may fail, and which empties the file, also under an input stream that
  is already open on it. When the output file can be opened and is none of
  the sources, `main_fs` and `main` agree (`main_fs_fresh`).
-/

namespace Pfs0Create

/-! ## Machine integers and bytes -/

/-- One `char` of a `std::string` or of a file. -/
abbrev Byte := Fin 256

/-- Conversion to `uint32_t`. -/
def uint32_t (n : Nat) : Nat := n % 2 ^ 32

/-- Conversion to `uint64_t`. -/
def uint64_t (n : Nat) : Nat := n % 2 ^ 64

/-- Conversion to `size_t` (64 bits). -/
def size_t (n : Nat) : Nat := n % 2 ^ 64

/-- Conversion of a signed value (a `std::streampos`) to `size_t`. -/
def size_t_of_int (z : Int) : Nat := (z % 2 ^ 64).toNat

/-- Little-endian memory image of an unsigned integer occupying `w` bytes. -/
def LE : Nat → Nat → List Byte
  | 0, _ => []
  | w + 1, v => (Fin.ofNat (v % 256) : Byte) :: LE w (v / 256)

/-- The value stored in a little-endian byte sequence. -/
def unLE : List Byte → Nat
  | [] => 0
  | b :: bs => b.val + 256 * unLE bs

/-- The bytes of an ASCII string literal of the source. -/
def ascii (s : String) : List Byte := s.toList.map (fun c => (Fin.ofNat c.toNat : Byte))

/-! ## The two structs -/

/-- The struct `PFS0Header` (16 bytes). -/
structure PFS0Header where
  magic : Nat
  file_count : Nat
  string_table_sz : Nat
  padding : Nat
  deriving DecidableEq, Repr

/-- The struct `FileHeader` (24 bytes). -/
structure FileHeader where
  file_offset : Nat
  file_sz : Nat
  string_table_offset : Nat
  padding : Nat
  deriving DecidableEq, Repr

/-- Memory image of a `PFS0Header`, `sizeof(PFS0Header)` = 16 bytes. -/
def PFS0Header.image (h : PFS0Header) : List Byte :=
  LE 4 h.magic ++ LE 4 h.file_count ++ LE 4 h.string_table_sz ++ LE 4 h.padding

/-- Memory image of a `FileHeader`, `sizeof(FileHeader)` = 24 bytes. -/
def FileHeader.image (h : FileHeader) : List Byte :=
  LE 8 h.file_offset ++ LE 8 h.file_sz ++ LE 4 h.string_table_offset ++ LE 4 h.padding

/-! ## `GetFilename` -/

/-- The value `std::string::npos`, that is `size_t(-1)`. -/
def npos : Nat := 2 ^ 64 - 1

/-- Index of the last element satisfying `p`, if there is one. -/
def rfind (p : Byte → Bool) : List Byte → Option Nat
  | [] => none
  | c :: rest =>
    match rfind p rest with
    | some i => some (i + 1)
    | none => if p c then some 0 else none

/-- The call `str.find_last_of(chars)`: the index of the last character of
`str` that occurs in `chars`, or `npos` when there is none. -/
def find_last_of (str chars : List Byte) : Nat :=
  (rfind (fun c => chars.contains c) str).getD npos

/-- The call `str.substr(pos)` for `pos <= str.size()`: the characters from
index `pos` to the end. -/
def substr (str : List Byte) (pos : Nat) : List Byte := str.drop pos

/-- The two separator characters of the literal `"/\\"`: slash and backslash. -/
def separators : List Byte := [0x2f, 0x5c]

/-- The function `GetFilename`: `file_path.substr(file_path.find_last_of("/\\") + 1)`,
the addition being one of `size_t`, so that `npos + 1` is `0`. -/
def GetFilename (file_path : List Byte) : List Byte :=
  substr file_path (size_t (find_last_of file_path separators + 1))

/-! ## `MakeMagic` -/

/-- The 32-bit two's complement pattern of an `int`. -/
def int_bits (x : Int) : Nat := (x % 2 ^ 32).toNat

/-- The `int` with a given 32-bit two's complement pattern. -/
def int_of_bits (n : Nat) : Int :=
  if n % 2 ^ 32 < 2 ^ 31 then ((n % 2 ^ 32 : Nat) : Int) else ((n % 2 ^ 32 : Nat) : Int) - 2 ^ 32

/-- Left shift of an `int`: the product with `2 ^ k`, kept to 32 bits. -/
def int_shl (x : Int) (k : Nat) : Int := int_of_bits (int_bits x * 2 ^ k)

/-- Bitwise or of two `int`s. -/
def int_or (x y : Int) : Int := int_of_bits (int_bits x ||| int_bits y)

/-- Integral promotion of a `uint8_t` to `int`. -/
def promote (b : Byte) : Int := (b.val : Int)

/-- The function `MakeMagic`: `(d << 24) | (c << 16) | (b << 8) | a` computed
on the promoted `int`s and converted to the `uint32_t` return type. -/
def MakeMagic (a b c d : Byte) : Nat :=
  int_bits
    (int_or (int_or (int_or (int_shl (promote d) 24) (int_shl (promote c) 16))
      (int_shl (promote b) 8)) (promote a))

/-! ## Streams -/

/-- The observable state of a `std::ifstream`: the bytes of the file it was
opened on, the get position, and the state flags. `badbit` is never raised
in this model, so `failbit` alone decides `fail()`. -/
structure ifstream where
  file : List Byte
  pos : Nat
  eofbit : Bool
  failbit : Bool
  deriving DecidableEq, Repr

/-- The constructor `std::ifstream(path, std::ios::binary)`; `content` is what
the file system holds under the path, `none` when the file cannot be opened,
in which case the constructor sets `failbit`. -/
def ifstream_open (content : Option (List Byte)) : ifstream :=
  match content with
  | some bytes => { file := bytes, pos := 0, eofbit := false, failbit := false }
  | none => { file := [], pos := 0, eofbit := false, failbit := true }

/-- The member `eof()`. -/
def ifstream.eof (s : ifstream) : Bool := s.eofbit

/-- The member `fail()`. -/
def ifstream.fail (s : ifstream) : Bool := s.failbit

/-- The member `good()`: no state flag is set. -/
def ifstream.good (s : ifstream) : Bool := !s.eofbit && !s.failbit

/-- The enumeration `std::ios_base::seekdir`. -/
inductive seekdir where
  | beg
  | cur
  | end_
  deriving DecidableEq, Repr

/-- The member `seekg(off, dir)`: clears `eofbit`, then, unless the stream has
failed, repositions the get pointer; a position before the start of the file
is refused and sets `failbit`. -/
def ifstream.seekg (s : ifstream) (off : Int) (dir : seekdir) : ifstream :=
  let s1 := { s with eofbit := false }
  if s1.fail then s1
  else
    let target : Int :=
      match dir with
      | seekdir.beg => off
      | seekdir.cur => (s1.pos : Int) + off
      | seekdir.end_ => (s1.file.length : Int) + off
    if 0 ≤ target then { s1 with pos := target.toNat } else { s1 with failbit := true }

/-- The member `tellg()`: the get position, or `-1` when the stream is not
usable (in which case the sentry also sets `failbit`). -/
def ifstream.tellg (s : ifstream) : ifstream × Int :=
  if s.good then (s, (s.pos : Int)) else ({ s with failbit := true }, -1)

/-- The member `read(buf, n)` followed by `gcount()`: on a good stream the next
`n` characters are stored at the start of the buffer; when fewer than `n` are
left, those are stored and `eofbit` and `failbit` are set. On a stream that is
not good nothing is extracted and `failbit` is set. The result is the stream,
the buffer and the count of characters extracted. -/
def ifstream.read (s : ifstream) (buf : List Byte) (n : Nat) : ifstream × List Byte × Nat :=
  if s.good then
    let avail := s.file.drop s.pos
    if n ≤ avail.length then
      ({ s with pos := s.pos + n }, avail.take n ++ buf.drop n, n)
    else
      ({ s with pos := s.pos + avail.length, eofbit := true, failbit := true },
        avail ++ buf.drop avail.length, avail.length)
  else ({ s with failbit := true }, buf, 0)

/-- The output stream `std::ofstream`: the bytes written to the file so far. -/
structure ofstream where
  bytes : List Byte
  deriving DecidableEq, Repr

/-- The member `write(s, n)`: appends the first `n` characters found at `s`. -/
def ofstream.write (dst : ofstream) (s : List Byte) (n : Nat) : ofstream :=
  { bytes := dst.bytes ++ s.take n }

/-! ## `FastAppend` -/

/-- The constant `buffer_size` of `FastAppend`. -/
def buffer_size : Nat := 1000000

/-- The state of the loop of `FastAppend`: both streams and the buffer. -/
structure CopyState where
  dst : ofstream
  src : ifstream
  memory_buffer : List Byte
  deriving DecidableEq, Repr

/-- One execution of the loop body of `FastAppend`: a `read` of `buffer_size`
characters into the buffer and a `write` of the `gcount()` characters read. -/
def FastAppend_body (st : CopyState) : CopyState :=
  let r := st.src.read st.memory_buffer buffer_size
  let bytes_read := size_t r.2.2
  { dst := st.dst.write r.2.1 bytes_read, src := r.1, memory_buffer := r.2.1 }

/-- The loop `while (!src.eof()) body`, run for at most `fuel` iterations;
`none` when the loop has not been left by then. -/
def FastAppend_loop : Nat → CopyState → Option CopyState
  | 0, st => if st.src.eof then some st else none
  | fuel + 1, st => if st.src.eof then some st else FastAppend_loop fuel (FastAppend_body st)

/-- The function `FastAppend(dst, src)`: the loop started on a zero-filled
buffer; the result is the final state of the two streams. -/
def FastAppend (fuel : Nat) (dst : ofstream) (src : ifstream) : Option (ofstream × ifstream) :=
  (FastAppend_loop fuel
    { dst := dst, src := src, memory_buffer := List.replicate buffer_size 0 }).map
    (fun st => (st.dst, st.src))

/-! ## The file system seen by `main` -/

/-- The enumeration `fs::file_type`. -/
inductive file_type where
  | none
  | not_found
  | regular
  | directory
  | symlink
  | block
  | character
  | fifo
  | socket
  | unknown
  deriving DecidableEq, Repr

/-- What `main` uses of a `fs::directory_entry`: `path().string()`,
`status().type()`, and the bytes an input stream opened on the path reads
(`none` when the open fails). -/
structure directory_entry where
  path : List Byte
  type : file_type
  content : Option (List Byte)
  deriving DecidableEq, Repr

/-- The surroundings of one run: the status of a path, the entries a
`fs::directory_iterator` yields for a path, in the order it yields them, and
the milliseconds between the two readings of the system clock. -/
structure Environment where
  status : List Byte → file_type
  directory_iterator : List Byte → List directory_entry
  elapsed_ms : Int

/-- The function `fs::exists(p)`: the status is known and is not `not_found`. -/
def fs_exists (env : Environment) (p : List Byte) : Bool :=
  env.status p != file_type.none && env.status p != file_type.not_found

/-! ## The passes of `main` -/

/-- An element of `file_handles`: the open stream and the clean file name. -/
abbrev handle := ifstream × List Byte

/-- The lambda of the first `for_each` (lines 72 to 82), acting on the captured
`file_handles` and `header`. -/
def grab (st : List handle × PFS0Header) (file : directory_entry) : List handle × PFS0Header :=
  if file.type = file_type.regular then
    let file_str := file.path
    let clean_file_str := GetFilename file_str
    (st.1 ++ [(ifstream_open file.content, clean_file_str)],
      { st.2 with
        string_table_sz :=
          uint32_t (st.2.string_table_sz + uint32_t (size_t (clean_file_str.length + 1)))
        file_count := uint32_t (st.2.file_count + 1) })
  else st

/-- The variables captured by the lambda of the second `for_each`. -/
structure TableState where
  nsp_fp : ofstream
  file_offset : Nat
  string_table : List (List Byte)
  string_table_sz : Nat
  deriving DecidableEq, Repr

/-- The lambda of the second `for_each` (lines 94 to 111): it measures one
source, writes its `FileHeader`, and returns the updated captures together
with the entry, whose stream it has repositioned. -/
def describe (st : TableState) (entry : handle) : TableState × handle :=
  let file := entry.1
  let filename := entry.2
  let string_table := st.string_table ++ [filename ++ [0]]
  let file := file.seekg 0 seekdir.end_
  let told := file.tellg
  let file := told.1
  let file_length := size_t_of_int told.2
  let file_header : FileHeader :=
    { file_offset := uint64_t st.file_offset
      file_sz := uint64_t file_length
      string_table_offset := uint32_t st.string_table_sz
      padding := 0 }
  let nsp_fp := st.nsp_fp.write file_header.image 24
  let string_table_sz := size_t (st.string_table_sz + size_t (filename.length + 1))
  let file_offset := size_t (st.file_offset + file_length)
  let file := file.seekg 0 seekdir.beg
  ({ nsp_fp := nsp_fp, file_offset := file_offset, string_table := string_table,
     string_table_sz := string_table_sz }, (file, filename))

/-- The second `for_each` over `file_handles`: `describe` applied to the
entries in order, each entry being updated in place. -/
def describe_all : TableState → List handle → TableState × List handle
  | st, [] => (st, [])
  | st, entry :: rest =>
    let r := describe st entry
    let rs := describe_all r.1 rest
    (rs.1, r.2 :: rs.2)

/-- The third `for_each` (lines 114 and 115): every element of `string_table`
is written with its full length, the terminator included. -/
def write_string_table (nsp_fp : ofstream) (string_table : List (List Byte)) : ofstream :=
  string_table.foldl (fun fp str => fp.write str str.length) nsp_fp

/-- What the copy pass works on: the output stream, the text sent to
`std::cout`, and the entries already visited. -/
structure CopyPass where
  nsp_fp : ofstream
  cout : List Byte
  file_handles : List handle
  deriving DecidableEq, Repr

/-- The constant `indentation_level`. -/
def indentation_level : Nat := 6

/-- The lambda of the last `for_each` (lines 123 to 134): progress text, then
`FastAppend` of the source to the output, then `done`. -/
def append_entry (fuel : Nat) (st : CopyPass) (entry : handle) : Option CopyPass :=
  let file := entry.1
  let filename := entry.2
  let cout := st.cout ++ List.replicate indentation_level 0x20
  let cout := cout ++ filename ++ ascii " ..."
  match FastAppend fuel st.nsp_fp file with
  | none => none
  | some r =>
    some { nsp_fp := r.1, cout := cout ++ ascii "done\n",
           file_handles := st.file_handles ++ [(r.2, filename)] }

/-- The last `for_each` over `file_handles`. -/
def append_all (fuel : Nat) : CopyPass → List handle → Option CopyPass
  | st, [] => some st
  | st, entry :: rest =>
    match append_entry fuel st entry with
    | none => none
    | some st1 => append_all fuel st1 rest

/-! ## `main` -/

/-- What a run that returns leaves behind: the value returned by `main`, the
output stream (`none` when `nsp_fp` was never constructed, so that the output
file was neither created nor opened), the final state of `file_handles`, and
the text sent to `std::cout` and `std::cerr`. -/
structure Run where
  status : Int
  nsp_fp : Option ofstream
  file_handles : List handle
  cout : List Byte
  cerr : List Byte
  deriving DecidableEq, Repr

/-- The state of `main` when it reaches line 117, before the copy pass:
header, descriptors and string table have been written. -/
structure Planned where
  header : PFS0Header
  nsp_fp : ofstream
  file_handles : List handle
  cout : List Byte
  deriving DecidableEq, Repr

/-- Lines 63 to 117 of `main`: enumeration of `input_path`, construction of
the output stream, and the writes of header, descriptors and string table. -/
def plan (env : Environment) (input_path : List Byte) : Planned :=
  let header : PFS0Header :=
    { magic := MakeMagic 0x50 0x46 0x53 0x30, file_count := 0, string_table_sz := 0,
      padding := 0 }
  let file_handles : List handle := []
  let dir_iterator := env.directory_iterator input_path
  let cout := ascii "> PFS0 Header Generation\n"
  let grabbed := dir_iterator.foldl grab (file_handles, header)
  let file_handles := grabbed.1
  let header := grabbed.2
  let nsp_fp : ofstream := { bytes := [] }
  let nsp_fp := nsp_fp.write header.image 16
  let cout := cout ++ ascii "> Building string table\n"
  let described :=
    describe_all { nsp_fp := nsp_fp, file_offset := 0, string_table := [], string_table_sz := 0 }
      file_handles
  let nsp_fp := write_string_table described.1.nsp_fp described.1.string_table
  let cout := cout ++ ascii "> Adding file entries:\n"
  { header := header, nsp_fp := nsp_fp, file_handles := described.2, cout := cout }

/-- The function `main`, `argv` holding the `argc` arguments; `fuel` bounds the
iterations of each `FastAppend` loop, and the result is `none` when one of
them has not finished within the bound. -/
def main (fuel : Nat) (argv : List (List Byte)) (env : Environment) : Option Run :=
  let argc := argv.length
  if argc < 3 then
    some { status := 0, nsp_fp := none, file_handles := [], cout := [],
           cerr := argv.getD 0 [] ++ ascii " <input dir> <output file>\n" }
  else
    let input_path := argv.getD 1 []
    let output_file := argv.getD 2 []
    if !fs_exists env input_path then
      some { status := 0, nsp_fp := none, file_handles := [], cout := [],
             cerr := ascii "File path \"" ++ input_path ++ ascii "\" does not exist!\n" }
    else
      let dir_perms := env.status input_path
      if dir_perms ≠ file_type.directory then
        some { status := 0, nsp_fp := none, file_handles := [], cout := [],
               cerr := ascii "\"" ++ input_path ++ ascii "\" is not a directory!\n" }
      else
        let planned := plan env input_path
        match append_all fuel
            { nsp_fp := planned.nsp_fp, cout := planned.cout, file_handles := [] }
            planned.file_handles with
        | none => none
        | some copied =>
          let cout := copied.cout ++ ascii "PFS0 file \"" ++ output_file ++ ascii "\" is now built\n"
          let cout := cout ++ ascii "Took " ++ ascii (toString env.elapsed_ms) ++ ascii "ms\n"
          some { status := 0, nsp_fp := some copied.nsp_fp, file_handles := copied.file_handles,
                 cout := cout, cerr := [] }

/-! ## Vocabulary of the statements -/

/-- The directory entry of a regular file, given as its path and the content
its input stream opens on. -/
def regular_file (f : List Byte × List Byte) : directory_entry :=
  { path := f.1, type := file_type.regular, content := some f.2 }

/-- The run gets past the three checks of lines 45 to 61 (enough arguments,
the input path exists and is a directory) and its directory iterator yields
`entries`. -/
def Builds (argv : List (List Byte)) (env : Environment) (entries : List directory_entry) :
    Prop :=
  3 ≤ argv.length ∧ env.status (argv.getD 1 []) = file_type.directory ∧
    env.directory_iterator (argv.getD 1 []) = entries

/-- The length that `seekg(0, end)` followed by `tellg()` reports for a freshly
constructed stream, as a `size_t`: the length of the content, or `size_t(-1)`
when the open failed. -/
def measured (content : Option (List Byte)) : Nat :=
  match content with
  | some bytes => bytes.length
  | none => 2 ^ 64 - 1

/-- The total size of the terminated base names of a list of files. -/
def names_size (files : List (List Byte × List Byte)) : Nat :=
  (files.map (fun f => (GetFilename f.1).length + 1)).sum

/-- The total size of the contents of a list of files. -/
def contents_size (files : List (List Byte × List Byte)) : Nat :=
  (files.map (fun f => f.2.length)).sum

/-- The header of the format table: magic, file count, string table size and
a zero word, four bytes each. -/
def header_section (files : List (List Byte × List Byte)) : List Byte :=
  LE 4 (MakeMagic 0x50 0x46 0x53 0x30) ++ LE 4 files.length ++ LE 4 (names_size files) ++ LE 4 0

/-- The descriptor the format table asks for the file `f` at position `i`. -/
def descriptor_of (files : List (List Byte × List Byte)) (i : Nat)
    (f : List Byte × List Byte) : List Byte :=
  LE 8 (contents_size (files.take i)) ++ LE 8 f.2.length ++ LE 4 (names_size (files.take i))
    ++ LE 4 0

/-- The descriptor table: one descriptor per file, in order. -/
def descriptor_section (files : List (List Byte × List Byte)) : List Byte :=
  files.enum.flatMap (fun p => descriptor_of files p.1 p.2)

/-- The string table: every base name followed by one zero byte, in order. -/
def string_section (files : List (List Byte × List Byte)) : List Byte :=
  files.flatMap (fun f => GetFilename f.1 ++ [0])

/-- The content region: the contents back to back, in order. -/
def content_section (files : List (List Byte × List Byte)) : List Byte :=
  files.flatMap (fun f => f.2)

/-- The container the format table describes for a list of files. -/
def archive (files : List (List Byte × List Byte)) : List Byte :=
  header_section files ++ descriptor_section files ++ string_section files
    ++ content_section files

/-! ## Sample runs -/

/-- The command line `pfs0_create in out.pfs0`. -/
def sample_argv : List (List Byte) := [ascii "pfs0_create", ascii "in", ascii "out.pfs0"]

/-- Two files, `b.bin` of three bytes and `a.txt` of two, as the directory
iterator reports them for the directory `in`. -/
def sample_files : List (List Byte × List Byte) :=
  [(ascii "in/b.bin", [0x01, 0x02, 0x03]), (ascii "in/a.txt", [0x41, 0x42])]

/-- A file system in which `in` is a directory holding the two sample files. -/
def sample_env : Environment :=
  { status := fun p => if p = ascii "in" then file_type.directory else file_type.not_found
    directory_iterator := fun _ => sample_files.map regular_file
    elapsed_ms := 3 }

/-- The container expected for the two sample files, byte by byte. -/
def sample_archive : List Byte :=
  [0x50, 0x46, 0x53, 0x30, 2, 0, 0, 0, 12, 0, 0, 0, 0, 0, 0, 0,
   0, 0, 0, 0, 0, 0, 0, 0, 3, 0, 0, 0, 0, 0, 0, 0, 0, 0, 0, 0, 0, 0, 0, 0,
   3, 0, 0, 0, 0, 0, 0, 0, 2, 0, 0, 0, 0, 0, 0, 0, 6, 0, 0, 0, 0, 0, 0, 0,
   0x62, 0x2e, 0x62, 0x69, 0x6e, 0, 0x61, 0x2e, 0x74, 0x78, 0x74, 0,
   0x01, 0x02, 0x03, 0x41, 0x42]

/-- A file system in which `in` is a directory whose iterator yields `entries`. -/
def listing_env (entries : List directory_entry) : Environment :=
  { status := fun p => if p = ascii "in" then file_type.directory else file_type.not_found
    directory_iterator := fun _ => entries
    elapsed_ms := 3 }

/-- The entry of a regular file `in/a` on which an input stream cannot be
opened. -/
def unreadable_entry : directory_entry :=
  { path := ascii "in/a", type := file_type.regular, content := none }

/-- A file system in which every path names a regular file holding the
sample files (which `main` must not look at, since the path is no directory). -/
def plain_file_env : Environment :=
  { status := fun _ => file_type.regular
    directory_iterator := fun _ => sample_files.map regular_file
    elapsed_ms := 3 }

/-- The command line `./pfs0_create in other.nsp`: the same input directory
as `sample_argv`, another output file. -/
def other_argv : List (List Byte) := [ascii "./pfs0_create", ascii "in", ascii "other.nsp"]

/-- The file system of `sample_env` seen by a run that takes longer and whose
directory iterator also reports a sub-directory. -/
def other_env : Environment :=
  { status := fun p => if p = ascii "in" then file_type.directory else file_type.not_found
    directory_iterator := fun _ =>
      { path := ascii "in/sub", type := file_type.directory, content := none }
        :: sample_files.map regular_file
    elapsed_ms := 4711 }

/-! ## The output file among the files of the run

The definitions above take the output stream as a list of bytes written and
a source as the bytes it held when opened. The ones below follow the same
lines of the source with the file system in view: the output stream is opened
on the path `argv[2]`, which may fail, and which truncates the file when it
succeeds, also when one of the input streams is already open on that file. -/

/-- The file system as a run that opens its output file meets it. `env` is as
before, the `content` of an entry being what its file holds when the input
stream is opened on it (lines 76 and 77), at which time the output stream does
not exist yet. `ofstream_opens p` tells whether an output stream can be opened
on the path `p`; `same_file p q` whether the paths `p` and `q` name one file;
`flushed n` how many of the first `n` bytes handed to the output stream have
reached its file, the others being still in the buffer of the stream. -/
structure FileSystem where
  env : Environment
  ofstream_opens : List Byte → Bool
  same_file : List Byte → List Byte → Bool
  flushed : Nat → Nat

/-- A `std::ofstream` with its state: the bytes it has accepted, and `failbit`. -/
structure ofstream_fs where
  stream : ofstream
  failbit : Bool
  deriving DecidableEq, Repr

/-- The constructor `std::ofstream(path, std::ios::binary)`: the file is opened
in the default mode, which empties it; when it cannot be opened the file is
left alone and `failbit` is set. -/
def ofstream_open (fs : FileSystem) (path : List Byte) : ofstream_fs :=
  { stream := { bytes := [] }, failbit := !fs.ofstream_opens path }

/-- The member `write(s, n)` of a stream with its state: nothing is written
once `failbit` is set. -/
def ofstream_fs.write (dst : ofstream_fs) (s : List Byte) (n : Nat) : ofstream_fs :=
  if dst.failbit then dst else { dst with stream := dst.stream.write s n }

/-- What the file of the output stream holds at a moment of the run: the bytes
that the stream has flushed. -/
def on_disk (fs : FileSystem) (nsp_fp : ofstream_fs) : List Byte :=
  nsp_fp.stream.bytes.take (fs.flushed nsp_fp.stream.bytes.length)

/-- A `std::ifstream` together with the path it was opened on. -/
structure ifstream_fs where
  stream : ifstream
  path : List Byte
  deriving DecidableEq, Repr

/-- The input stream as it finds its file at a moment of the run: the file is
as it was when the stream was opened, unless the output stream has been opened
on the same file, which then holds what the output stream has flushed. -/
def ifstream_fs.now (fs : FileSystem) (output_file : List Byte) (nsp_fp : ofstream_fs)
    (src : ifstream_fs) : ifstream :=
  if !nsp_fp.failbit && fs.same_file src.path output_file then
    { src.stream with file := on_disk fs nsp_fp }
  else src.stream

/-- The state of the loop of `FastAppend`, the streams being those of the file
system. -/
structure CopyState_fs where
  dst : ofstream_fs
  src : ifstream_fs
  memory_buffer : List Byte
  deriving DecidableEq, Repr

/-- One execution of the loop body of `FastAppend` (lines 37 to 39): the `read`
meets the file as it is at that moment. -/
def FastAppend_body_fs (fs : FileSystem) (output_file : List Byte) (st : CopyState_fs) :
    CopyState_fs :=
  let r := (st.src.now fs output_file st.dst).read st.memory_buffer buffer_size
  let bytes_read := size_t r.2.2
  { dst := st.dst.write r.2.1 bytes_read, src := { st.src with stream := r.1 },
    memory_buffer := r.2.1 }

/-- The loop `while (!src.eof()) body`, run for at most `fuel` iterations;
`none` when the loop has not been left by then. -/
def FastAppend_loop_fs (fs : FileSystem) (output_file : List Byte) :
    Nat → CopyState_fs → Option CopyState_fs
  | 0, st => if st.src.stream.eof then some st else none
  | fuel + 1, st =>
    if st.src.stream.eof then some st
    else FastAppend_loop_fs fs output_file fuel (FastAppend_body_fs fs output_file st)

/-- The function `FastAppend(dst, src)` on the streams of the file system. -/
def FastAppend_fs (fs : FileSystem) (output_file : List Byte) (fuel : Nat) (dst : ofstream_fs)
    (src : ifstream_fs) : Option (ofstream_fs × ifstream_fs) :=
  (FastAppend_loop_fs fs output_file fuel
    { dst := dst, src := src, memory_buffer := List.replicate buffer_size 0 }).map
    (fun st => (st.dst, st.src))

/-- An element of `file_handles`, the stream being one of the file system. -/
abbrev handle_fs := ifstream_fs × List Byte

/-- The lambda of the first `for_each` (lines 72 to 82); the stream is opened
on `file_str`. -/
def grab_fs (st : List handle_fs × PFS0Header) (file : directory_entry) :
    List handle_fs × PFS0Header :=
  if file.type = file_type.regular then
    let file_str := file.path
    let clean_file_str := GetFilename file_str
    (st.1 ++ [({ stream := ifstream_open file.content, path := file_str }, clean_file_str)],
      { st.2 with
        string_table_sz :=
          uint32_t (st.2.string_table_sz + uint32_t (size_t (clean_file_str.length + 1)))
        file_count := uint32_t (st.2.file_count + 1) })
  else st

/-- The variables captured by the lambda of the second `for_each`. -/
structure TableState_fs where
  nsp_fp : ofstream_fs
  file_offset : Nat
  string_table : List (List Byte)
  string_table_sz : Nat
  deriving DecidableEq, Repr

/-- The lambda of the second `for_each` (lines 94 to 111); `seekg(0, end)`
meets the file as it is at that moment. -/
def describe_fs (fs : FileSystem) (output_file : List Byte) (st : TableState_fs)
    (entry : handle_fs) : TableState_fs × handle_fs :=
  let file := entry.1
  let filename := entry.2
  let string_table := st.string_table ++ [filename ++ [0]]
  let stream := (file.now fs output_file st.nsp_fp).seekg 0 seekdir.end_
  let told := stream.tellg
  let stream := told.1
  let file_length := size_t_of_int told.2
  let file_header : FileHeader :=
    { file_offset := uint64_t st.file_offset
      file_sz := uint64_t file_length
      string_table_offset := uint32_t st.string_table_sz
      padding := 0 }
  let nsp_fp := st.nsp_fp.write file_header.image 24
  let string_table_sz := size_t (st.string_table_sz + size_t (filename.length + 1))
  let file_offset := size_t (st.file_offset + file_length)
  let stream := stream.seekg 0 seekdir.beg
  ({ nsp_fp := nsp_fp, file_offset := file_offset, string_table := string_table,
     string_table_sz := string_table_sz }, ({ file with stream := stream }, filename))

/-- The second `for_each` over `file_handles`. -/
def describe_all_fs (fs : FileSystem) (output_file : List Byte) :
    TableState_fs → List handle_fs → TableState_fs × List handle_fs
  | st, [] => (st, [])
  | st, entry :: rest =>
    let r := describe_fs fs output_file st entry
    let rs := describe_all_fs fs output_file r.1 rest
    (rs.1, r.2 :: rs.2)

/-- The third `for_each` (lines 114 and 115). -/
def write_string_table_fs (nsp_fp : ofstream_fs) (string_table : List (List Byte)) :
    ofstream_fs :=
  string_table.foldl (fun fp str => fp.write str str.length) nsp_fp

/-- What the copy pass works on. -/
structure CopyPass_fs where
  nsp_fp : ofstream_fs
  cout : List Byte
  file_handles : List handle_fs
  deriving DecidableEq, Repr

/-- The lambda of the last `for_each` (lines 123 to 134). -/
def append_entry_fs (fs : FileSystem) (output_file : List Byte) (fuel : Nat)
    (st : CopyPass_fs) (entry : handle_fs) : Option CopyPass_fs :=
  let file := entry.1
  let filename := entry.2
  let cout := st.cout ++ List.replicate indentation_level 0x20
  let cout := cout ++ filename ++ ascii " ..."
  match FastAppend_fs fs output_file fuel st.nsp_fp file with
  | none => none
  | some r =>
    some { nsp_fp := r.1, cout := cout ++ ascii "done\n",
           file_handles := st.file_handles ++ [(r.2, filename)] }

/-- The last `for_each` over `file_handles`. -/
def append_all_fs (fs : FileSystem) (output_file : List Byte) (fuel : Nat) :
    CopyPass_fs → List handle_fs → Option CopyPass_fs
  | st, [] => some st
  | st, entry :: rest =>
    match append_entry_fs fs output_file fuel st entry with
    | none => none
    | some st1 => append_all_fs fs output_file fuel st1 rest

/-- What a run that returns leaves behind, the streams being those of the file
system; `nsp_fp` is `none` when the output stream was never constructed. -/
structure Run_fs where
  status : Int
  nsp_fp : Option ofstream_fs
  file_handles : List handle_fs
  cout : List Byte
  cerr : List Byte
  deriving DecidableEq, Repr

/-- The state of `main` when it reaches line 117. -/
structure Planned_fs where
  header : PFS0Header
  nsp_fp : ofstream_fs
  file_handles : List handle_fs
  cout : List Byte
  deriving DecidableEq, Repr

/-- Lines 63 to 117 of `main`: the input streams are opened during the
enumeration, the output stream is opened on `output_file` after it (line 83),
and header, descriptors and string table are written. -/
def plan_fs (fs : FileSystem) (input_path output_file : List Byte) : Planned_fs :=
  let header : PFS0Header :=
    { magic := MakeMagic 0x50 0x46 0x53 0x30, file_count := 0, string_table_sz := 0,
      padding := 0 }
  let file_handles : List handle_fs := []
  let dir_iterator := fs.env.directory_iterator input_path
  let cout := ascii "> PFS0 Header Generation\n"
  let grabbed := dir_iterator.foldl grab_fs (file_handles, header)
  let file_handles := grabbed.1
  let header := grabbed.2
  let nsp_fp := ofstream_open fs output_file
  let nsp_fp := nsp_fp.write header.image 16
  let cout := cout ++ ascii "> Building string table\n"
  let described :=
    describe_all_fs fs output_file
      { nsp_fp := nsp_fp, file_offset := 0, string_table := [], string_table_sz := 0 }
      file_handles
  let nsp_fp := write_string_table_fs described.1.nsp_fp described.1.string_table
  let cout := cout ++ ascii "> Adding file entries:\n"
  { header := header, nsp_fp := nsp_fp, file_handles := described.2, cout := cout }

/-- The function `main` on a file system; `fuel` bounds the iterations of each
`FastAppend` loop, and the result is `none` when one of them has not finished
within the bound. -/
def main_fs (fuel : Nat) (argv : List (List Byte)) (fs : FileSystem) : Option Run_fs :=
  let argc := argv.length
  if argc < 3 then
    some { status := 0, nsp_fp := none, file_handles := [], cout := [],
           cerr := argv.getD 0 [] ++ ascii " <input dir> <output file>\n" }
  else
    let input_path := argv.getD 1 []
    let output_file := argv.getD 2 []
    if !fs_exists fs.env input_path then
      some { status := 0, nsp_fp := none, file_handles := [], cout := [],
             cerr := ascii "File path \"" ++ input_path ++ ascii "\" does not exist!\n" }
    else
      let dir_perms := fs.env.status input_path
      if dir_perms ≠ file_type.directory then
        some { status := 0, nsp_fp := none, file_handles := [], cout := [],
               cerr := ascii "\"" ++ input_path ++ ascii "\" is not a directory!\n" }
      else
        let planned := plan_fs fs input_path output_file
        match append_all_fs fs output_file fuel
            { nsp_fp := planned.nsp_fp, cout := planned.cout, file_handles := [] }
            planned.file_handles with
        | none => none
        | some copied =>
          let cout := copied.cout ++ ascii "PFS0 file \"" ++ output_file ++ ascii "\" is now built\n"
          let cout :=
            cout ++ ascii "Took " ++ ascii (toString fs.env.elapsed_ms) ++ ascii "ms\n"
          some { status := 0, nsp_fp := some copied.nsp_fp, file_handles := copied.file_handles,
                 cout := cout, cerr := [] }

/-- The stream and the name of an element of `file_handles`, without the path
the stream was opened on. -/
def handle_fs_plain (h : handle_fs) : handle := (h.1.stream, h.2)

/-- A run on a file system seen as a run of `main`: of the output stream the
bytes it accepted, of the input streams their states. -/
def Run_fs.plain (run : Run_fs) : Run :=
  { status := run.status, nsp_fp := run.nsp_fp.map (fun fp => fp.stream),
    file_handles := run.file_handles.map handle_fs_plain, cout := run.cout, cerr := run.cerr }

/-- The output stream of `main` as a stream that was opened on its file. -/
def ofstream.opened (d : ofstream) : ofstream_fs := { stream := d, failbit := false }

/-- A state of the loop of `FastAppend` as a state on a file system, the source
being open on the path `p` and the output stream having been opened. -/
def CopyState.opened (p : List Byte) (st : CopyState) : CopyState_fs :=
  { dst := st.dst.opened, src := { stream := st.src, path := p },
    memory_buffer := st.memory_buffer }

/-- The captures of the second `for_each` with an output stream that was
opened. -/
def TableState.opened (st : TableState) : TableState_fs :=
  { nsp_fp := st.nsp_fp.opened, file_offset := st.file_offset, string_table := st.string_table,
    string_table_sz := st.string_table_sz }

/-- The state of the copy pass on a file system seen as one of `main`. -/
def CopyPass_fs.plain (st : CopyPass_fs) : CopyPass :=
  { nsp_fp := st.nsp_fp.stream, cout := st.cout,
    file_handles := st.file_handles.map handle_fs_plain }

/-- A file system that holds `sample_env`: two paths name the same file when
they are equal, the directory `in` cannot be opened for writing while every
other path can, and an output as short as the ones of the samples stays in
the buffer of the output stream until the stream is closed. -/
def sample_fs : FileSystem :=
  { env := sample_env
    ofstream_opens := fun p => decide (p ≠ ascii "in")
    same_file := fun p q => decide (p = q)
    flushed := fun _ => 0 }

/-- A file system that holds `other_env`, in which every byte handed to the
output stream reaches the file at once. -/
def other_fs : FileSystem :=
  { env := other_env
    ofstream_opens := fun p => decide (p ≠ ascii "in")
    same_file := fun p q => decide (p = q)
    flushed := fun n => n }

/-- The command line `pfs0_create in in/b.bin`: the output file is the first
of the two sample files. -/
def overwriting_argv : List (List Byte) := [ascii "pfs0_create", ascii "in", ascii "in/b.bin"]

/-- The command line `pfs0_create in in`: the output path is the input
directory, on which no output stream can be opened. -/
def unwritable_argv : List (List Byte) := [ascii "pfs0_create", ascii "in", ascii "in"]

/-- The 78 bytes written by `pfs0_create in in/b.bin` on the sample files:
`b.bin` is recorded with size 0 and contributes no content. -/
def overwriting_archive : List Byte :=
  [0x50, 0x46, 0x53, 0x30, 2, 0, 0, 0, 12, 0, 0, 0, 0, 0, 0, 0,
   0, 0, 0, 0, 0, 0, 0, 0, 0, 0, 0, 0, 0, 0, 0, 0, 0, 0, 0, 0, 0, 0, 0, 0,
   0, 0, 0, 0, 0, 0, 0, 0, 2, 0, 0, 0, 0, 0, 0, 0, 6, 0, 0, 0, 0, 0, 0, 0,
   0x62, 0x2e, 0x62, 0x69, 0x6e, 0, 0x61, 0x2e, 0x74, 0x78, 0x74, 0,
   0x41, 0x42]

/-! ## Little-endian images -/

theorem LE_length (w v : Nat) : (LE w v).length = w := by
  induction w generalizing v with
  | zero => rfl
  | succ w ih => simp [LE, ih]

theorem val_ofNat_byte (n : Nat) : (Fin.ofNat n : Byte).val = n % 256 := rfl

theorem unLE_LE (w v : Nat) : unLE (LE w v) = v % 256 ^ w := by
  induction w generalizing v with
  | zero => simp [LE, unLE, Nat.mod_one]
  | succ w ih =>
    simp only [LE, unLE, ih, val_ofNat_byte]
    rw [pow_succ, Nat.mul_comm (256 ^ w) 256, Nat.mod_mul, Nat.mod_mod]

theorem unLE_LE_of_lt (w v : Nat) (h : v < 256 ^ w) : unLE (LE w v) = v := by
  rw [unLE_LE, Nat.mod_eq_of_lt h]

theorem LE_mod (w v : Nat) : LE w (v % 256 ^ w) = LE w v := by
  induction w generalizing v with
  | zero => rfl
  | succ w ih =>
    simp only [LE]
    have h1 : v % 256 ^ (w + 1) % 256 = v % 256 := by
      rw [pow_succ, Nat.mul_comm]
      exact Nat.mod_mul_right_mod v 256 (256 ^ w)
    have h2 : v % 256 ^ (w + 1) / 256 = v / 256 % 256 ^ w := by
      rw [pow_succ, Nat.mul_comm, Nat.mod_mul_right_div_self]
    rw [h1, h2, ih]

/-! ## `MakeMagic` -/

theorem int_bits_int_of_bits (n : Nat) : int_bits (int_of_bits n) = n % 2 ^ 32 := by
  unfold int_bits int_of_bits
  split <;> omega

theorem int_bits_promote (a : Byte) : int_bits (promote a) = a.val := by
  have h := a.isLt
  unfold int_bits promote
  omega

theorem MakeMagic_bits (a b c d : Nat) (ha : a < 256) (hb : b < 256) (hc : c < 256)
    (hd : d < 256) :
    ((((d * 2 ^ 24) % 2 ^ 32 ||| (c * 2 ^ 16) % 2 ^ 32) % 2 ^ 32 ||| (b * 2 ^ 8) % 2 ^ 32)
      % 2 ^ 32 ||| a) % 2 ^ 32 = a + 256 * b + 65536 * c + 16777216 * d := by
  have e1 : (d * 2 ^ 24) % 2 ^ 32 = 2 ^ 24 * d := by omega
  have e2 : (c * 2 ^ 16) % 2 ^ 32 = c * 2 ^ 16 := by omega
  have e3 : (b * 2 ^ 8) % 2 ^ 32 = b * 2 ^ 8 := by omega
  have o1 : 2 ^ 24 * d ||| c * 2 ^ 16 = 2 ^ 24 * d + c * 2 ^ 16 :=
    (Nat.mul_add_lt_is_or (by omega) d).symm
  have r1 : (2 ^ 24 * d + c * 2 ^ 16) % 2 ^ 32 = 2 ^ 16 * (2 ^ 8 * d + c) := by omega
  have o2 : 2 ^ 16 * (2 ^ 8 * d + c) ||| b * 2 ^ 8 = 2 ^ 16 * (2 ^ 8 * d + c) + b * 2 ^ 8 :=
    (Nat.mul_add_lt_is_or (by omega) _).symm
  have r2 : (2 ^ 16 * (2 ^ 8 * d + c) + b * 2 ^ 8) % 2 ^ 32
      = 2 ^ 8 * (2 ^ 16 * d + 2 ^ 8 * c + b) := by omega
  have o3 : 2 ^ 8 * (2 ^ 16 * d + 2 ^ 8 * c + b) ||| a
      = 2 ^ 8 * (2 ^ 16 * d + 2 ^ 8 * c + b) + a :=
    (Nat.mul_add_lt_is_or (by omega) _).symm
  rw [e1, e2, e3, o1, r1, o2, r2, o3]
  omega

theorem MakeMagic_value (a b c d : Byte) :
    MakeMagic a b c d = a.val + 256 * b.val + 65536 * c.val + 16777216 * d.val := by
  unfold MakeMagic int_or int_shl
  simp only [int_bits_int_of_bits, int_bits_promote]
  exact MakeMagic_bits a.val b.val c.val d.val (a.isLt) (b.isLt)
    (c.isLt) (d.isLt)

theorem ofNat_val_byte (a : Byte) : (Fin.ofNat a.val : Byte) = a :=
  Fin.ext (Nat.mod_eq_of_lt a.isLt)

theorem LE_MakeMagic (a b c d : Byte) : LE 4 (MakeMagic a b c d) = [a, b, c, d] := by
  have ha := a.isLt
  have hb := b.isLt
  have hc := c.isLt
  have hd := d.isLt
  rw [MakeMagic_value]
  simp only [LE]
  have h0 : (a.val + 256 * b.val + 65536 * c.val + 16777216 * d.val) % 256
      = a.val := by omega
  have h1 : (a.val + 256 * b.val + 65536 * c.val + 16777216 * d.val) / 256 % 256
      = b.val := by omega
  have h2 : (a.val + 256 * b.val + 65536 * c.val + 16777216 * d.val) / 256 / 256 % 256
      = c.val := by omega
  have h3 : (a.val + 256 * b.val + 65536 * c.val + 16777216 * d.val) / 256 / 256 / 256
      % 256 = d.val := by omega
  rw [h0, h1, h2, h3]
  simp only [ofNat_val_byte]

/-! ## `GetFilename` -/

theorem rfind_none {p : Byte → Bool} {l : List Byte} (h : rfind p l = none) :
    ∀ c ∈ l, p c = false := by
  induction l with
  | nil => simp
  | cons a l ih =>
    simp only [rfind] at h
    cases hr : rfind p l with
    | some i => simp [hr] at h
    | none =>
      simp only [hr] at h
      cases hpa : p a with
      | true => simp [hpa] at h
      | false =>
        intro c hc
        rcases List.mem_cons.mp hc with rfl | hc
        · exact hpa
        · exact ih hr c hc

theorem rfind_some {p : Byte → Bool} {l : List Byte} {i : Nat} (h : rfind p l = some i) :
    ∃ pre c post, l = pre ++ c :: post ∧ pre.length = i ∧ p c = true ∧
      ∀ x ∈ post, p x = false := by
  induction l generalizing i with
  | nil => simp [rfind] at h
  | cons a l ih =>
    simp only [rfind] at h
    cases hr : rfind p l with
    | some j =>
      simp only [hr, Option.some.injEq] at h
      obtain ⟨pre, c, post, hl, hlen, hc, hpost⟩ := ih hr
      exact ⟨a :: pre, c, post, by simp [hl], by simp [hlen, h], hc, hpost⟩
    | none =>
      simp only [hr] at h
      cases hpa : p a with
      | false => simp [hpa] at h
      | true =>
        simp only [hpa, if_true, Option.some.injEq] at h
        exact ⟨[], a, l, rfl, by simp [← h], hpa, rfind_none hr⟩

theorem contains_separators (c : Byte) :
    separators.contains c = true ↔ (c = 0x2f ∨ c = 0x5c) := by
  simp [separators]

theorem contains_separators_false (c : Byte) :
    separators.contains c = false ↔ (c ≠ 0x2f ∧ c ≠ 0x5c) := by
  simp [separators]

/-- When the path has no separator, `find_last_of` yields `npos` and the
whole path is returned. -/
theorem GetFilename_of_rfind_none {p : List Byte}
    (h : rfind (fun c => separators.contains c) p = none) : GetFilename p = p := by
  unfold GetFilename find_last_of
  rw [h]
  rfl

/-- When the last separator sits at index `pre.length`, what follows it is
returned. -/
theorem GetFilename_of_split {pre post : List Byte} {c : Byte}
    (hlen : (pre ++ c :: post).length < 2 ^ 64)
    (h : rfind (fun c => separators.contains c) (pre ++ c :: post) = some pre.length) :
    GetFilename (pre ++ c :: post) = post := by
  have hl : pre.length + 1 < 2 ^ 64 := by
    simp only [List.length_append, List.length_cons] at hlen
    omega
  simp only [GetFilename, find_last_of, h, Option.getD_some, size_t, substr]
  rw [Nat.mod_eq_of_lt hl]
  have : pre ++ c :: post = (pre ++ [c]) ++ post := by simp
  rw [this]
  have h2 : pre.length + 1 = (pre ++ [c]).length := by simp
  rw [h2, List.drop_left]

/-- The shape of the result of `GetFilename` on a path shorter than `2 ^ 64`:
either the path has no separator and is returned whole, or it is split
after its last separator. -/
theorem GetFilename_cases (p : List Byte) (hp : p.length < 2 ^ 64) :
    ((∀ c ∈ p, c ≠ 0x2f ∧ c ≠ 0x5c) ∧ GetFilename p = p) ∨
    (∃ pre c, p = pre ++ c :: GetFilename p ∧ (c = 0x2f ∨ c = 0x5c) ∧
      ∀ x ∈ GetFilename p, x ≠ 0x2f ∧ x ≠ 0x5c) := by
  cases hr : rfind (fun c => separators.contains c) p with
  | none =>
    left
    refine ⟨fun c hc => ?_, GetFilename_of_rfind_none hr⟩
    exact (contains_separators_false c).mp (rfind_none hr c hc)
  | some i =>
    right
    obtain ⟨pre, c, post, hl, hlen, hc, hpost⟩ := rfind_some hr
    subst hl
    subst hlen
    rw [GetFilename_of_split hp hr]
    exact ⟨pre, c, rfl, (contains_separators c).mp hc,
      fun x hx => (contains_separators_false x).mp (hpost x hx)⟩

/-! ## `FastAppend` -/

theorem take_append_of_length {α : Type} (l r : List α) (n : Nat) (h : l.length = n) :
    (l ++ r).take n = l := by
  subst h
  exact List.take_left _ _

theorem FastAppend_loop_of_eof (fuel : Nat) (st : CopyState) (h : st.src.eofbit = true) :
    FastAppend_loop fuel st = some st := by
  cases fuel <;> simp [FastAppend_loop, ifstream.eof, h]

/-- On a stream without flags that has `file.length - pos` characters left,
the loop ends within `(file.length - pos) / buffer_size + 1` iterations, having
appended exactly those characters and left the stream at end of file. -/
theorem FastAppend_loop_good (fuel : Nat) (file : List Byte) :
    ∀ (pos : Nat) (dst : ofstream) (buf : List Byte), pos ≤ file.length →
      (file.length - pos) / buffer_size < fuel →
      ∃ buf1, FastAppend_loop fuel
          { dst := dst, src := { file := file, pos := pos, eofbit := false, failbit := false },
            memory_buffer := buf }
        = some { dst := { bytes := dst.bytes ++ file.drop pos },
                 src := { file := file, pos := file.length, eofbit := true, failbit := true },
                 memory_buffer := buf1 } := by
  induction fuel with
  | zero => intro pos dst buf _ h; exact absurd h (Nat.not_lt_zero _)
  | succ fuel ih =>
    intro pos dst buf hpos hfuel
    have hlen : (file.drop pos).length = file.length - pos := List.length_drop pos file
    by_cases hfull : buffer_size ≤ file.length - pos
    · have hstep : FastAppend_body
          { dst := dst, src := { file := file, pos := pos, eofbit := false, failbit := false },
            memory_buffer := buf }
          = { dst := { bytes := dst.bytes ++ (file.drop pos).take buffer_size },
              src := { file := file, pos := pos + buffer_size, eofbit := false,
                       failbit := false },
              memory_buffer := (file.drop pos).take buffer_size ++ buf.drop buffer_size } := by
        have hsz : size_t buffer_size = buffer_size := by decide
        have htl : ((file.drop pos).take buffer_size).length = buffer_size := by
          rw [List.length_take, hlen]; omega
        have htake : (List.take buffer_size (List.drop pos file)
            ++ List.drop buffer_size buf).take buffer_size
            = List.take buffer_size (List.drop pos file) := by
          exact take_append_of_length _ _ _ htl
        simp only [FastAppend_body, ifstream.read, ifstream.good, Bool.not_false,
          Bool.and_self, if_true, hlen, hfull, hsz, ofstream.write, htake]
      have hpos1 : pos + buffer_size ≤ file.length := by omega
      have hfuel1 : (file.length - (pos + buffer_size)) / buffer_size < fuel := by
        unfold buffer_size at *
        omega
      obtain ⟨buf1, h1⟩ := ih (pos + buffer_size)
        { bytes := dst.bytes ++ (file.drop pos).take buffer_size }
        ((file.drop pos).take buffer_size ++ buf.drop buffer_size) hpos1 hfuel1
      refine ⟨buf1, ?_⟩
      simp only [FastAppend_loop, ifstream.eof, Bool.false_eq_true, if_false, hstep, h1]
      have : (file.drop pos).take buffer_size ++ file.drop (pos + buffer_size) = file.drop pos := by
        rw [← List.drop_drop]
        exact List.take_append_drop _ _
      simp only [List.append_assoc, this]
    · have hlt : file.length - pos < buffer_size := by omega
      have hstep : FastAppend_body
          { dst := dst, src := { file := file, pos := pos, eofbit := false, failbit := false },
            memory_buffer := buf }
          = { dst := { bytes := dst.bytes ++ file.drop pos },
              src := { file := file, pos := file.length, eofbit := true, failbit := true },
              memory_buffer := file.drop pos ++ buf.drop (file.length - pos) } := by
        have hsz : size_t (file.length - pos) = file.length - pos := by
          unfold size_t
          unfold buffer_size at hlt
          omega
        have htake : (List.drop pos file ++ List.drop (file.length - pos) buf).take
            (file.length - pos) = List.drop pos file := by
          exact take_append_of_length _ _ _ hlen
        have hp : pos + (file.length - pos) = file.length := by omega
        simp only [FastAppend_body, ifstream.read, ifstream.good, Bool.not_false,
          Bool.and_self, if_true, hlen, hfull, if_false, hsz, ofstream.write, htake, hp]
      refine ⟨file.drop pos ++ buf.drop (file.length - pos), ?_⟩
      simp only [FastAppend_loop, ifstream.eof, Bool.false_eq_true, if_false, hstep]
      exact FastAppend_loop_of_eof fuel _ rfl

/-- The loop body leaves a failed stream without `eofbit` as it found it and
writes nothing. -/
theorem FastAppend_body_failed (st : CopyState) (hfail : st.src.failbit = true) :
    FastAppend_body st = st := by
  obtain ⟨dst, src, buf⟩ := st
  obtain ⟨file, pos, e, f⟩ := src
  simp only at hfail
  subst hfail
  simp [FastAppend_body, ifstream.read, ifstream.good, ofstream.write, size_t]

/-- On a failed stream without `eofbit` the loop never ends. -/
theorem FastAppend_loop_failed (fuel : Nat) (st : CopyState) (heof : st.src.eofbit = false)
    (hfail : st.src.failbit = true) : FastAppend_loop fuel st = none := by
  induction fuel with
  | zero => simp [FastAppend_loop, ifstream.eof, heof]
  | succ fuel ih =>
    simp only [FastAppend_loop, ifstream.eof, heof, Bool.false_eq_true, if_false]
    rw [FastAppend_body_failed st hfail]
    exact ih

theorem FastAppend_readable (fuel : Nat) (dst : ofstream) (content : List Byte)
    (hfuel : content.length / buffer_size < fuel) :
    FastAppend fuel dst (ifstream_open (some content))
      = some ({ bytes := dst.bytes ++ content },
          { file := content, pos := content.length, eofbit := true, failbit := true }) := by
  obtain ⟨buf1, h⟩ := FastAppend_loop_good fuel content 0 dst (List.replicate buffer_size 0)
    (Nat.zero_le _) (by simpa using hfuel)
  simp only [FastAppend, ifstream_open, h, Option.map_some', List.drop_zero]

theorem FastAppend_unreadable (fuel : Nat) (dst : ofstream) :
    FastAppend fuel dst (ifstream_open none) = none := by
  simp only [FastAppend, ifstream_open]
  rw [FastAppend_loop_failed fuel _ rfl rfl]
  rfl

/-! ## The passes of `main` -/

theorem LE8_congr {a b : Nat} (h : a % 2 ^ 64 = b % 2 ^ 64) : LE 8 a = LE 8 b := by
  have ha := LE_mod 8 a
  have hb := LE_mod 8 b
  have e : (256 : Nat) ^ 8 = 2 ^ 64 := by norm_num
  rw [e] at ha hb
  rw [← ha, ← hb, h]

theorem LE4_congr {a b : Nat} (h : a % 2 ^ 32 = b % 2 ^ 32) : LE 4 a = LE 4 b := by
  have ha := LE_mod 4 a
  have hb := LE_mod 4 b
  have e : (256 : Nat) ^ 4 = 2 ^ 32 := by norm_num
  rw [e] at ha hb
  rw [← ha, ← hb, h]

theorem PFS0Header_image_length (h : PFS0Header) : h.image.length = 16 := by
  simp [PFS0Header.image, LE_length]

theorem FileHeader_image_length (h : FileHeader) : h.image.length = 24 := by
  simp [FileHeader.image, LE_length]

/-- The first pass keeps the regular entries, in order, and counts them and
the bytes of their names modulo `2 ^ 32`. -/
theorem foldl_grab (entries : List directory_entry) :
    ∀ (hs : List handle) (hdr : PFS0Header),
      (entries.foldl grab (hs, hdr)).1
          = hs ++ (entries.filter (fun e => decide (e.type = file_type.regular))).map
              (fun e => (ifstream_open e.content, GetFilename e.path)) ∧
      (entries.foldl grab (hs, hdr)).2.magic = hdr.magic ∧
      (entries.foldl grab (hs, hdr)).2.padding = hdr.padding ∧
      (entries.foldl grab (hs, hdr)).2.file_count % 2 ^ 32
          = (hdr.file_count
              + (entries.filter (fun e => decide (e.type = file_type.regular))).length)
            % 2 ^ 32 ∧
      (entries.foldl grab (hs, hdr)).2.string_table_sz % 2 ^ 32
          = (hdr.string_table_sz
              + ((entries.filter (fun e => decide (e.type = file_type.regular))).map
                  (fun e => (GetFilename e.path).length + 1)).sum) % 2 ^ 32 := by
  induction entries with
  | nil => intro hs hdr; simp
  | cons e es ih =>
    intro hs hdr
    by_cases hreg : e.type = file_type.regular
    · have hg : grab (hs, hdr) e
          = (hs ++ [(ifstream_open e.content, GetFilename e.path)],
              { hdr with
                string_table_sz :=
                  uint32_t (hdr.string_table_sz
                    + uint32_t (size_t ((GetFilename e.path).length + 1)))
                file_count := uint32_t (hdr.file_count + 1) }) := by
        simp [grab, hreg]
      obtain ⟨h1, h2, h3, h4, h5⟩ := ih (hs ++ [(ifstream_open e.content, GetFilename e.path)])
        { hdr with
          string_table_sz :=
            uint32_t (hdr.string_table_sz + uint32_t (size_t ((GetFilename e.path).length + 1)))
          file_count := uint32_t (hdr.file_count + 1) }
      simp only [List.foldl_cons, hg, List.filter_cons, hreg, decide_True, if_true,
        List.map_cons, List.length_cons, List.sum_cons]
      refine ⟨?_, h2, h3, ?_, ?_⟩
      · rw [h1]; simp
      · rw [h4]; simp only [uint32_t]; omega
      · rw [h5]; simp only [uint32_t, size_t]; omega
    · have hg : grab (hs, hdr) e = (hs, hdr) := by simp [grab, hreg]
      simp only [List.foldl_cons, hg, List.filter_cons, hreg, decide_False]
      exact ih hs hdr

theorem size_t_of_int_natCast (n : Nat) : size_t_of_int (n : Int) = n % 2 ^ 64 := by
  unfold size_t_of_int
  omega

/-- What `describe` does on a freshly constructed stream: it appends the
descriptor and leaves the stream as it found it. -/
theorem describe_fresh (st : TableState) (c : Option (List Byte)) (name : List Byte) :
    describe st (ifstream_open c, name)
      = ({ nsp_fp :=
             { bytes := st.nsp_fp.bytes
                 ++ (LE 8 st.file_offset ++ LE 8 (measured c) ++ LE 4 st.string_table_sz
                      ++ LE 4 0) }
           file_offset := (st.file_offset + measured c % 2 ^ 64) % 2 ^ 64
           string_table := st.string_table ++ [name ++ [0]]
           string_table_sz := (st.string_table_sz + (name.length + 1) % 2 ^ 64) % 2 ^ 64 },
          (ifstream_open c, name)) := by
  have himg : ∀ h : FileHeader, h.image.take 24 = h.image := fun h =>
    List.take_of_length_le (le_of_eq (FileHeader_image_length h))
  have e8 : ∀ v, LE 8 (uint64_t v) = LE 8 v := fun v =>
    LE8_congr (by simp [uint64_t])
  have e4 : ∀ v, LE 4 (uint32_t v) = LE 4 v := fun v =>
    LE4_congr (by simp [uint32_t])
  cases c with
  | none =>
    have hm : size_t_of_int (-1) = 2 ^ 64 - 1 := by decide
    simp only [describe, ifstream_open, ifstream.seekg, ifstream.fail, if_true, ifstream.tellg,
      ifstream.good, Bool.not_false, Bool.not_true, Bool.and_false, Bool.false_eq_true,
      if_false, hm, ofstream.write, himg, measured, size_t]
    simp only [FileHeader.image, e8, e4]
    have : (2 ^ 64 - 1) % 2 ^ 64 = 2 ^ 64 - 1 := by decide
    rw [this]
  | some b =>
    have hpos : (0 : Int) ≤ (b.length : Int) + 0 := by omega
    have hz : (0 : Int) ≤ 0 := le_refl _
    have htn : ((b.length : Int) + 0).toNat = b.length := by omega
    simp only [describe, ifstream_open, ifstream.seekg, ifstream.fail, Bool.false_eq_true,
      if_false, hpos, hz, if_true, htn, Int.toNat_zero, ifstream.tellg, ifstream.good,
      Bool.not_false, Bool.and_self, size_t_of_int_natCast, ofstream.write, himg, measured,
      size_t]
    simp only [FileHeader.image, e8, e4]
    have : LE 8 (b.length % 2 ^ 64) = LE 8 b.length := LE8_congr (by simp)
    rw [this]

/-- The second pass on freshly constructed streams: the descriptors it
appends hold the running sums of the measured lengths and of the name
lengths, the string table gains one terminated name per entry, and the
streams are left as they were. The list `pre` stands for the entries
handled before `st` was reached. -/
theorem describe_all_fresh {α : Type} (c : α → Option (List Byte)) (n : α → List Byte)
    (xs : List α) :
    ∀ (pre : List α) (st : TableState),
      st.file_offset % 2 ^ 64 = (pre.map (fun x => measured (c x))).sum % 2 ^ 64 →
      st.string_table_sz % 2 ^ 64 = (pre.map (fun x => (n x).length + 1)).sum % 2 ^ 64 →
      (describe_all st (xs.map (fun x => (ifstream_open (c x), n x)))).1.nsp_fp.bytes
        = st.nsp_fp.bytes ++ (List.enumFrom pre.length xs).flatMap (fun p =>
            LE 8 (((pre ++ xs).take p.1).map (fun x => measured (c x))).sum
              ++ LE 8 (measured (c p.2))
              ++ LE 4 (((pre ++ xs).take p.1).map (fun x => (n x).length + 1)).sum
              ++ LE 4 0) ∧
      (describe_all st (xs.map (fun x => (ifstream_open (c x), n x)))).1.string_table
        = st.string_table ++ xs.map (fun x => n x ++ [0]) ∧
      (describe_all st (xs.map (fun x => (ifstream_open (c x), n x)))).2
        = xs.map (fun x => (ifstream_open (c x), n x)) := by
  induction xs with
  | nil => intro pre st _ _; simp [describe_all]
  | cons x xs ih =>
    intro pre st hoff hstr
    have hoff1 : (st.file_offset + measured (c x) % 2 ^ 64) % 2 ^ 64 % 2 ^ 64
        = ((pre ++ [x]).map (fun x => measured (c x))).sum % 2 ^ 64 := by
      simp only [List.map_append, List.sum_append, List.map_cons, List.map_nil, List.sum_cons,
        List.sum_nil]
      omega
    have hstr1 : (st.string_table_sz + ((n x).length + 1) % 2 ^ 64) % 2 ^ 64 % 2 ^ 64
        = ((pre ++ [x]).map (fun x => (n x).length + 1)).sum % 2 ^ 64 := by
      simp only [List.map_append, List.sum_append, List.map_cons, List.map_nil, List.sum_cons,
        List.sum_nil]
      omega
    obtain ⟨h1, h2, h3⟩ := ih (pre ++ [x]) (describe st (ifstream_open (c x), n x)).1
      (by rw [describe_fresh]; exact hoff1) (by rw [describe_fresh]; exact hstr1)
    have hstr32 : st.string_table_sz % 2 ^ 32
        = (pre.map (fun x => (n x).length + 1)).sum % 2 ^ 32 := by omega
    have happ : pre ++ [x] ++ xs = pre ++ x :: xs := by simp
    have hlen : (pre ++ [x]).length = pre.length + 1 := by simp
    rw [happ, hlen] at h1
    simp only [List.map_cons, describe_all]
    refine ⟨?_, ?_, ?_⟩
    · rw [h1, describe_fresh]
      simp only [List.enumFrom_cons, List.flatMap_cons, List.take_left, List.append_assoc,
        LE8_congr hoff, LE4_congr hstr32]
    · rw [h2, describe_fresh]
      simp
    · rw [h3, describe_fresh]

theorem write_string_table_bytes (table : List (List Byte)) :
    ∀ nsp_fp : ofstream,
      (write_string_table nsp_fp table).bytes = nsp_fp.bytes ++ table.flatten := by
  induction table with
  | nil => intro nsp_fp; simp [write_string_table]
  | cons str rest ih =>
    intro nsp_fp
    have := ih (nsp_fp.write str str.length)
    simp only [write_string_table, List.foldl_cons] at this ⊢
    rw [this]
    simp [ofstream.write]

/-- The copy pass on readable, freshly positioned streams: with enough
iterations allowed it returns, having appended every content in order and
left every stream at end of file. -/
theorem append_all_readable {α : Type} (b : α → List Byte) (n : α → List Byte) (fuel : Nat)
    (xs : List α) :
    ∀ (st : CopyPass), (∀ x ∈ xs, (b x).length / buffer_size < fuel) →
      ∃ r, append_all fuel st (xs.map (fun x => (ifstream_open (some (b x)), n x))) = some r ∧
        r.nsp_fp.bytes = st.nsp_fp.bytes ++ xs.flatMap b ∧
        r.file_handles = st.file_handles ++ xs.map (fun x =>
          (({ file := b x, pos := (b x).length, eofbit := true, failbit := true } : ifstream),
            n x)) := by
  induction xs with
  | nil => intro st _; exact ⟨st, by simp [append_all]⟩
  | cons x xs ih =>
    intro st hfuel
    have hx := hfuel x (List.mem_cons_self _ _)
    have hstep := FastAppend_readable fuel st.nsp_fp (b x) hx
    obtain ⟨r, hr, hb, hh⟩ := ih
      { nsp_fp := { bytes := st.nsp_fp.bytes ++ b x }
        cout := st.cout ++ List.replicate indentation_level 0x20 ++ n x ++ ascii " ..."
          ++ ascii "done\n"
        file_handles := st.file_handles
          ++ [({ file := b x, pos := (b x).length, eofbit := true, failbit := true }, n x)] }
      (fun y hy => hfuel y (List.mem_cons_of_mem _ hy))
    refine ⟨r, ?_, ?_, ?_⟩
    · simp only [List.map_cons, append_all, append_entry, hstep]
      exact hr
    · rw [hb]; simp
    · rw [hh]; simp

/-- The copy pass does not return when one of the streams failed to open. -/
theorem append_all_unreadable (fuel : Nat) (hs : List handle) :
    ∀ (st : CopyPass), (∃ h ∈ hs, h.1 = ifstream_open none) →
      (∀ h ∈ hs, ∃ c, h.1 = ifstream_open c) → append_all fuel st hs = none := by
  induction hs with
  | nil => intro st h; simp at h
  | cons h hs ih =>
    intro st hex hall
    obtain ⟨c, hc⟩ := hall h (List.mem_cons_self _ _)
    obtain ⟨s, nm⟩ := h
    simp only at hc
    subst hc
    cases c with
    | none => simp [append_all, append_entry, FastAppend_unreadable]
    | some bytes =>
      have hex1 : ∃ h ∈ hs, h.1 = ifstream_open none := by
        obtain ⟨h0, hmem, h0e⟩ := hex
        rcases List.mem_cons.mp hmem with rfl | hmem
        · simp [ifstream_open] at h0e
        · exact ⟨h0, hmem, h0e⟩
      have hall1 : ∀ h ∈ hs, ∃ c, h.1 = ifstream_open c :=
        fun h hh => hall h (List.mem_cons_of_mem _ hh)
      simp only [append_all]
      cases hstep : append_entry fuel st (ifstream_open (some bytes), nm) with
      | none => rfl
      | some st1 => exact ih st1 hex1 hall1

/-! ## `main` -/

/-- What lines 63 to 117 write, for a directory whose regular entries are
described by `xs`: the header, the descriptors and the string table; the
streams are handed to the copy pass as they were constructed. -/
theorem plan_layout {α : Type} (c : α → Option (List Byte)) (n : α → List Byte) (xs : List α)
    (env : Environment) (input_path : List Byte)
    (hxs : ((env.directory_iterator input_path).filter
        (fun e => decide (e.type = file_type.regular))).map
          (fun e => (e.content, GetFilename e.path)) = xs.map (fun x => (c x, n x))) :
    (plan env input_path).nsp_fp.bytes
      = LE 4 (MakeMagic 0x50 0x46 0x53 0x30) ++ LE 4 xs.length
          ++ LE 4 (xs.map (fun x => (n x).length + 1)).sum ++ LE 4 0
        ++ xs.enum.flatMap (fun p =>
            LE 8 ((xs.take p.1).map (fun x => measured (c x))).sum
              ++ LE 8 (measured (c p.2))
              ++ LE 4 ((xs.take p.1).map (fun x => (n x).length + 1)).sum
              ++ LE 4 0)
        ++ xs.flatMap (fun x => n x ++ [0]) ∧
    (plan env input_path).file_handles = xs.map (fun x => (ifstream_open (c x), n x)) := by
  obtain ⟨g1, g2, g3, g4, g5⟩ := foldl_grab (env.directory_iterator input_path) []
    { magic := MakeMagic 0x50 0x46 0x53 0x30, file_count := 0, string_table_sz := 0,
      padding := 0 }
  have hhandles : ((env.directory_iterator input_path).filter
      (fun e => decide (e.type = file_type.regular))).map
        (fun e => (ifstream_open e.content, GetFilename e.path))
      = xs.map (fun x => (ifstream_open (c x), n x)) := by
    have := congrArg (List.map (fun p : Option (List Byte) × List Byte =>
      (ifstream_open p.1, p.2))) hxs
    simpa [List.map_map, Function.comp_def] using this
  have hlen : ((env.directory_iterator input_path).filter
      (fun e => decide (e.type = file_type.regular))).length = xs.length := by
    have := congrArg List.length hxs
    simpa using this
  have hsum : (((env.directory_iterator input_path).filter
      (fun e => decide (e.type = file_type.regular))).map
        (fun e => (GetFilename e.path).length + 1)).sum
      = (xs.map (fun x => (n x).length + 1)).sum := by
    have := congrArg (fun l : List (Option (List Byte) × List Byte) =>
      (l.map (fun p => p.2.length + 1)).sum) hxs
    simpa [List.map_map, Function.comp_def] using this
  rw [hhandles] at g1
  rw [hlen] at g4
  rw [hsum] at g5
  simp only [List.nil_append, Nat.zero_add] at g1 g4 g5
  have himg : ∀ h : PFS0Header, h.image.take 16 = h.image := fun h =>
    List.take_of_length_le (le_of_eq (PFS0Header_image_length h))
  have hw : ({ bytes := [] } : ofstream).write
      ((env.directory_iterator input_path).foldl grab
        ([], { magic := MakeMagic 0x50 0x46 0x53 0x30, file_count := 0,
               string_table_sz := 0, padding := 0 })).2.image 16
      = { bytes := (LE 4 (MakeMagic 0x50 0x46 0x53 0x30) ++ LE 4 xs.length
            ++ LE 4 (xs.map (fun x => (n x).length + 1)).sum ++ LE 4 0) } := by
    simp only [ofstream.write, himg, List.nil_append]
    simp only [PFS0Header.image, g2, g3, LE4_congr g4, LE4_congr g5]
  obtain ⟨d1, d2, d3⟩ := describe_all_fresh c n xs []
    { nsp_fp := { bytes := (LE 4 (MakeMagic 0x50 0x46 0x53 0x30) ++ LE 4 xs.length
            ++ LE 4 (xs.map (fun x => (n x).length + 1)).sum ++ LE 4 0) },
      file_offset := 0, string_table := [], string_table_sz := 0 } (by simp) (by simp)
  simp only [List.nil_append, List.length_nil] at d1 d2 d3
  refine ⟨?_, ?_⟩
  · simp only [plan, g1, hw, write_string_table_bytes, d1, d2, List.enum]
    simp only [List.flatMap, List.append_assoc]
  · simp only [plan, g1, hw, d3]

/-- A run that passes the checks and finds only readable streams after
planning returns, once enough loop iterations are allowed, with the contents
appended to what the plan wrote. -/
theorem main_of_plan {α : Type} (b : α → List Byte) (n : α → List Byte) (xs : List α)
    (fuel : Nat) (argv : List (List Byte)) (env : Environment)
    (hargc : 3 ≤ argv.length) (hdir : env.status (argv.getD 1 []) = file_type.directory)
    (hh : (plan env (argv.getD 1 [])).file_handles
      = xs.map (fun x => (ifstream_open (some (b x)), n x)))
    (hfuel : ∀ x ∈ xs, (b x).length / buffer_size < fuel) :
    ∃ run, main fuel argv env = some run ∧ run.status = 0 ∧
      run.nsp_fp = some { bytes := (plan env (argv.getD 1 [])).nsp_fp.bytes ++ xs.flatMap b } ∧
      run.file_handles = xs.map (fun x =>
        (({ file := b x, pos := (b x).length, eofbit := true, failbit := true } : ifstream),
          n x)) := by
  obtain ⟨r, hr, hb, hf⟩ := append_all_readable b n fuel xs
    { nsp_fp := (plan env (argv.getD 1 [])).nsp_fp, cout := (plan env (argv.getD 1 [])).cout,
      file_handles := [] } hfuel
  have hlt : ¬ argv.length < 3 := by omega
  have hex : fs_exists env (argv.getD 1 []) = true := by
    simp only [fs_exists, hdir]
    rfl
  have key : ∃ run, main fuel argv env = some run ∧ run.status = 0 ∧
      run.nsp_fp = some r.nsp_fp ∧ run.file_handles = r.file_handles := by
    simp only [main, hlt, if_false, hex, Bool.not_true, Bool.false_eq_true, hdir, ne_eq,
      not_true_eq_false, hh, hr]
    exact ⟨_, rfl, rfl, rfl, rfl⟩
  obtain ⟨run, k1, k2, k3, k4⟩ := key
  refine ⟨run, k1, k2, ?_, ?_⟩
  · rw [k3]
    congr 1
    cases hrn : r.nsp_fp with
    | mk bytes => rw [hrn] at hb; simp only at hb; rw [hb]
  · rw [k4, hf]; simp

/-- A run that passes the checks and finds a stream that failed to open
after planning never returns. -/
theorem main_of_plan_unreadable (fuel : Nat) (argv : List (List Byte)) (env : Environment)
    (hargc : 3 ≤ argv.length) (hdir : env.status (argv.getD 1 []) = file_type.directory)
    (hex : ∃ h ∈ (plan env (argv.getD 1 [])).file_handles, h.1 = ifstream_open none)
    (hall : ∀ h ∈ (plan env (argv.getD 1 [])).file_handles, ∃ c, h.1 = ifstream_open c) :
    main fuel argv env = none := by
  have hlt : ¬ argv.length < 3 := by omega
  have hexs : fs_exists env (argv.getD 1 []) = true := by
    simp only [fs_exists, hdir]
    rfl
  simp only [main, hlt, if_false, hexs, Bool.not_true, Bool.false_eq_true, hdir, ne_eq,
    not_true_eq_false, append_all_unreadable fuel _ _ hex hall]

theorem regular_files_filter (files : List (List Byte × List Byte)) :
    ((files.map regular_file).filter (fun e => decide (e.type = file_type.regular))).map
      (fun e => (e.content, GetFilename e.path))
      = files.map (fun f => (some f.2, GetFilename f.1)) := by
  induction files with
  | nil => rfl
  | cons f fs ih => simp [regular_file, List.filter_cons] at ih ⊢; exact ih

/-- The bytes of the whole container for a directory of readable regular
files, together with the normal return of `main`. -/
theorem main_files (fuel : Nat) (argv : List (List Byte)) (env : Environment)
    (files : List (List Byte × List Byte)) (hrun : Builds argv env (files.map regular_file))
    (hfuel : ∀ f ∈ files, f.2.length / buffer_size < fuel) :
    ∃ run, main fuel argv env = some run ∧ run.status = 0 ∧
      run.nsp_fp = some { bytes :=
        (LE 4 (MakeMagic 0x50 0x46 0x53 0x30) ++ LE 4 files.length
          ++ LE 4 (files.map (fun f => (GetFilename f.1).length + 1)).sum ++ LE 4 0
        ++ files.enum.flatMap (fun p =>
            LE 8 ((files.take p.1).map (fun f => f.2.length)).sum
              ++ LE 8 p.2.2.length
              ++ LE 4 ((files.take p.1).map (fun f => (GetFilename f.1).length + 1)).sum
              ++ LE 4 0)
        ++ files.flatMap (fun f => GetFilename f.1 ++ [0])
        ++ files.flatMap (fun f => f.2)) } := by
  obtain ⟨hargc, hdir, hent⟩ := hrun
  have hxs := regular_files_filter files
  rw [← hent] at hxs
  obtain ⟨p1, p2⟩ := plan_layout (fun f : List Byte × List Byte => some f.2)
    (fun f => GetFilename f.1) files env (argv.getD 1 []) hxs
  obtain ⟨run, h1, h2, h3, _⟩ := main_of_plan (fun f : List Byte × List Byte => f.2)
    (fun f => GetFilename f.1) files fuel argv env hargc hdir p2 hfuel
  refine ⟨run, h1, h2, ?_⟩
  rw [h3, p1]
  simp only [measured]

/-! ## The sections of the container -/

theorem main_files_archive (fuel : Nat) (argv : List (List Byte)) (env : Environment)
    (files : List (List Byte × List Byte)) (hrun : Builds argv env (files.map regular_file))
    (hfuel : ∀ f ∈ files, f.2.length / buffer_size < fuel) :
    (main fuel argv env).map (fun run => (run.status, run.nsp_fp))
      = some (0, some { bytes := archive files }) := by
  obtain ⟨run, h1, h2, h3⟩ := main_files fuel argv env files hrun hfuel
  rw [h1, Option.map_some', h2, h3]
  rfl

theorem slice {α : Type} (A B C : List α) (a b : Nat) (hA : A.length = a) (hB : B.length = b) :
    ((A ++ (B ++ C)).drop a).take b = B := by
  subst hA hB
  rw [List.drop_left, List.take_left]

theorem flatMap_split {β : Type} (f : β → List Byte) (l : List β) (i : Nat)
    (hi : i < l.length) :
    l.flatMap f = (l.take i).flatMap f ++ (f l[i] ++ (l.drop (i + 1)).flatMap f) := by
  have h : l = l.take i ++ l[i] :: l.drop (i + 1) := by
    rw [List.getElem_cons_drop, List.take_append_drop]
  conv_lhs => rw [h]
  rw [List.flatMap_append, List.flatMap_cons]

theorem flatMap_length_const {β : Type} (f : β → List Byte) (k : Nat)
    (hk : ∀ b, (f b).length = k) (l : List β) : (l.flatMap f).length = k * l.length := by
  induction l with
  | nil => simp
  | cons b l ih => rw [List.flatMap_cons, List.length_append, ih, hk, List.length_cons]; ring

theorem header_section_length (files : List (List Byte × List Byte)) :
    (header_section files).length = 16 := by
  simp [header_section, LE_length]

theorem descriptor_of_length (files : List (List Byte × List Byte)) (i : Nat)
    (f : List Byte × List Byte) : (descriptor_of files i f).length = 24 := by
  simp [descriptor_of, LE_length]

theorem descriptor_section_length (files : List (List Byte × List Byte)) :
    (descriptor_section files).length = 24 * files.length := by
  have h := flatMap_length_const
    (fun p : Nat × (List Byte × List Byte) => descriptor_of files p.1 p.2) 24
    (fun p => descriptor_of_length files p.1 p.2) files.enum
  have hl : files.enum.length = files.length := by simp [List.enum]
  rw [hl] at h
  exact h

theorem string_section_length (files : List (List Byte × List Byte)) :
    (string_section files).length = names_size files := by
  unfold string_section names_size
  induction files with
  | nil => rfl
  | cons f fs ih =>
    rw [List.flatMap_cons, List.length_append, ih]
    simp only [List.length_append, List.length_singleton, List.map_cons, List.sum_cons]

theorem content_section_length (files : List (List Byte × List Byte)) :
    (content_section files).length = contents_size files := by
  unfold content_section contents_size
  induction files with
  | nil => rfl
  | cons f fs ih =>
    rw [List.flatMap_cons, List.length_append, ih]
    simp only [List.map_cons, List.sum_cons]

theorem archive_length (files : List (List Byte × List Byte)) :
    (archive files).length = 16 + 24 * files.length + names_size files + contents_size files := by
  simp only [archive, List.length_append, header_section_length, descriptor_section_length,
    string_section_length, content_section_length]

/-- The descriptor table split around its `i`-th descriptor. -/
theorem descriptor_section_split (files : List (List Byte × List Byte)) (i : Nat)
    (hi : i < files.length) :
    ∃ D1 D2, D1.length = 24 * i ∧
      descriptor_section files = D1 ++ (descriptor_of files i files[i] ++ D2) := by
  have hi1 : i < files.enum.length := by simpa [List.enum] using hi
  refine ⟨(files.enum.take i).flatMap (fun p => descriptor_of files p.1 p.2),
    (files.enum.drop (i + 1)).flatMap (fun p => descriptor_of files p.1 p.2), ?_, ?_⟩
  · have h := flatMap_length_const
      (fun p : Nat × (List Byte × List Byte) => descriptor_of files p.1 p.2) 24
      (fun p => descriptor_of_length files p.1 p.2) (files.enum.take i)
    have hl : (files.enum.take i).length = i := by
      rw [List.length_take]
      exact Nat.min_eq_left (Nat.le_of_lt hi1)
    rw [hl] at h
    exact h
  · unfold descriptor_section
    rw [flatMap_split _ files.enum i hi1, List.getElem_enum]

/-- The two counters read back from the header. -/
theorem archive_header_fields (files : List (List Byte × List Byte)) :
    ((archive files).drop 4).take 4 = LE 4 files.length ∧
    ((archive files).drop 8).take 4 = LE 4 (names_size files) := by
  constructor
  · have : archive files = LE 4 (MakeMagic 0x50 0x46 0x53 0x30) ++ (LE 4 files.length
        ++ (LE 4 (names_size files) ++ LE 4 0 ++ descriptor_section files
          ++ string_section files ++ content_section files)) := by
      simp only [archive, header_section, List.append_assoc]
    rw [this]
    exact slice _ _ _ 4 4 (LE_length _ _) (LE_length _ _)
  · have : archive files = (LE 4 (MakeMagic 0x50 0x46 0x53 0x30) ++ LE 4 files.length)
        ++ (LE 4 (names_size files) ++ (LE 4 0 ++ descriptor_section files
          ++ string_section files ++ content_section files)) := by
      simp only [archive, header_section, List.append_assoc]
    rw [this]
    exact slice _ _ _ 8 4 (by simp only [List.length_append, LE_length]) (LE_length _ _)

/-- The three fields of the `i`-th descriptor read back from the container. -/
theorem archive_descriptor_fields (files : List (List Byte × List Byte)) (i : Nat)
    (hi : i < files.length) :
    ((archive files).drop (16 + 24 * i)).take 8 = LE 8 (contents_size (files.take i)) ∧
    ((archive files).drop (16 + 24 * i + 8)).take 8 = LE 8 files[i].2.length ∧
    ((archive files).drop (16 + 24 * i + 16)).take 4 = LE 4 (names_size (files.take i)) ∧
    ((archive files).drop (16 + 24 * i + 20)).take 4 = LE 4 0 := by
  obtain ⟨D1, D2, hD1, hD⟩ := descriptor_section_split files i hi
  have hH := header_section_length files
  refine ⟨?_, ?_, ?_, ?_⟩
  · have : archive files = (header_section files ++ D1)
        ++ (LE 8 (contents_size (files.take i)) ++ (LE 8 files[i].2.length
          ++ LE 4 (names_size (files.take i)) ++ LE 4 0 ++ D2 ++ string_section files
          ++ content_section files)) := by
      simp only [archive, hD, descriptor_of, List.append_assoc]
    rw [this]
    exact slice _ _ _ _ 8 (by simp only [List.length_append, hH, hD1]) (LE_length _ _)
  · have : archive files = (header_section files ++ D1 ++ LE 8 (contents_size (files.take i)))
        ++ (LE 8 files[i].2.length
          ++ (LE 4 (names_size (files.take i)) ++ LE 4 0 ++ D2 ++ string_section files
          ++ content_section files)) := by
      simp only [archive, hD, descriptor_of, List.append_assoc]
    rw [this]
    exact slice _ _ _ _ 8 (by simp only [List.length_append, hH, hD1, LE_length]) (LE_length _ _)
  · have : archive files = (header_section files ++ D1 ++ LE 8 (contents_size (files.take i))
          ++ LE 8 files[i].2.length)
        ++ (LE 4 (names_size (files.take i)) ++ (LE 4 0 ++ D2 ++ string_section files
          ++ content_section files)) := by
      simp only [archive, hD, descriptor_of, List.append_assoc]
    rw [this]
    exact slice _ _ _ _ 4 (by simp only [List.length_append, hH, hD1, LE_length]) (LE_length _ _)
  · have : archive files = (header_section files ++ D1 ++ LE 8 (contents_size (files.take i))
          ++ LE 8 files[i].2.length ++ LE 4 (names_size (files.take i)))
        ++ (LE 4 0 ++ (D2 ++ string_section files ++ content_section files)) := by
      simp only [archive, hD, descriptor_of, List.append_assoc]
    rw [this]
    exact slice _ _ _ _ 4 (by simp only [List.length_append, hH, hD1, LE_length]) (LE_length _ _)

/-- The string table and the content region cut out of the container. -/
theorem archive_tail (files : List (List Byte × List Byte)) :
    (archive files).drop (16 + 24 * files.length) = string_section files ++ content_section files ∧
    (archive files).drop (16 + 24 * files.length + names_size files) = content_section files := by
  constructor
  · have : archive files = (header_section files ++ descriptor_section files)
        ++ (string_section files ++ content_section files) := by
      simp only [archive, List.append_assoc]
    rw [this]
    have hl : (header_section files ++ descriptor_section files).length
        = 16 + 24 * files.length := by
      simp only [List.length_append, header_section_length, descriptor_section_length]
    rw [← hl, List.drop_left]
  · have : archive files = (header_section files ++ descriptor_section files
        ++ string_section files) ++ content_section files := by
      simp only [archive, List.append_assoc]
    rw [this]
    have hl : (header_section files ++ descriptor_section files ++ string_section files).length
        = 16 + 24 * files.length + names_size files := by
      simp only [List.length_append, header_section_length, descriptor_section_length,
        string_section_length]
    rw [← hl, List.drop_left]

/-! ## The claims -/

theorem unLE_LE4 (v : Nat) (h : v < 2 ^ 32) : unLE (LE 4 v) = v :=
  unLE_LE_of_lt 4 v (by
    have e : (256 : Nat) ^ 4 = 2 ^ 32 := by norm_num
    rw [e]
    exact h)

theorem unLE_LE8 (v : Nat) (h : v < 2 ^ 64) : unLE (LE 8 v) = v :=
  unLE_LE_of_lt 8 v (by
    have e : (256 : Nat) ^ 8 = 2 ^ 64 := by norm_num
    rw [e]
    exact h)

theorem sample_builds : Builds sample_argv sample_env (sample_files.map regular_file) :=
  ⟨by decide, by decide, rfl⟩

theorem sample_fuel : ∀ f ∈ sample_files, f.2.length / buffer_size < 1 := by decide

/-- C1: for every ordered list of regular readable files the bytes written to
the output are the header `LE32(magic) ++ LE32(N) ++ LE32(string_table_size) ++
LE32(0)`, then per file in input order `LE64(file_offset_i) ++ LE64(file_size_i)
++ LE32(string_table_offset_i) ++ LE32(0)` with the offsets being the sums over
the files before `i`, then per file the base name and one zero byte, then per
file the content, and nothing else; `main` returns 0. `LE w` keeps the low `w`
bytes of a number, which is the number itself when the sums fit the field
widths. -/
theorem C1_archive_layout (fuel : Nat) (argv : List (List Byte)) (env : Environment)
    (files : List (List Byte × List Byte))
    (hrun : Builds argv env (files.map regular_file))
    (hcount : files.length < 2 ^ 32)
    (hnames : (files.map (fun f => (GetFilename f.1).length + 1)).sum < 2 ^ 32)
    (hsizes : (files.map (fun f => f.2.length)).sum < 2 ^ 64)
    (hfuel : ∀ f ∈ files, f.2.length / buffer_size < fuel) :
    (main fuel argv env).map (fun run => (run.status, run.nsp_fp))
      = some (0, some { bytes :=
          (LE 4 (MakeMagic 0x50 0x46 0x53 0x30) ++ LE 4 files.length
            ++ LE 4 (files.map (fun f => (GetFilename f.1).length + 1)).sum ++ LE 4 0
          ++ files.enum.flatMap (fun p =>
              LE 8 ((files.take p.1).map (fun f => f.2.length)).sum
                ++ LE 8 p.2.2.length
                ++ LE 4 ((files.take p.1).map (fun f => (GetFilename f.1).length + 1)).sum
                ++ LE 4 0)
          ++ files.flatMap (fun f => GetFilename f.1 ++ [0])
          ++ files.flatMap (fun f => f.2)) }) ∧
    unLE (LE 4 files.length) = files.length ∧
    unLE (LE 4 (files.map (fun f => (GetFilename f.1).length + 1)).sum)
      = (files.map (fun f => (GetFilename f.1).length + 1)).sum ∧
    unLE (LE 8 (files.map (fun f => f.2.length)).sum) = (files.map (fun f => f.2.length)).sum := by
  refine ⟨main_files_archive fuel argv env files hrun hfuel, ?_, ?_, ?_⟩
  · exact unLE_LE4 _ hcount
  · exact unLE_LE4 _ hnames
  · exact unLE_LE8 _ hsizes

/-- Witness of C1: the two files `b.bin` = 01 02 03 and `a.txt` = 41 42, in
that order, give file count 2, string table size 12, descriptors (0, 3, 0) and
(3, 2, 6), the string table `b.bin\0a.txt\0` and the content 01 02 03 41 42. -/
theorem C1_archive_layout_witness :
    Builds sample_argv sample_env (sample_files.map regular_file) ∧
    (main 1 sample_argv sample_env).map (fun run => (run.status, run.nsp_fp))
      = some (0, some { bytes := sample_archive }) :=
  ⟨sample_builds,
    (C1_archive_layout 1 sample_argv sample_env sample_files sample_builds (by decide)
      (by decide) (by decide) sample_fuel).1.trans (by decide)⟩

/-- The two counters of the header stay below `2 ^ 32` during the first pass. -/
theorem foldl_grab_lt (entries : List directory_entry) :
    ∀ (hs : List handle) (hdr : PFS0Header), hdr.file_count < 2 ^ 32 →
      hdr.string_table_sz < 2 ^ 32 →
      (entries.foldl grab (hs, hdr)).2.file_count < 2 ^ 32 ∧
      (entries.foldl grab (hs, hdr)).2.string_table_sz < 2 ^ 32 := by
  induction entries with
  | nil => intro hs hdr h1 h2; exact ⟨h1, h2⟩
  | cons e es ih =>
    intro hs hdr h1 h2
    rw [List.foldl_cons]
    by_cases hreg : e.type = file_type.regular
    · have hg : grab (hs, hdr) e
          = (hs ++ [(ifstream_open e.content, GetFilename e.path)],
              { hdr with
                string_table_sz :=
                  uint32_t (hdr.string_table_sz
                    + uint32_t (size_t ((GetFilename e.path).length + 1)))
                file_count := uint32_t (hdr.file_count + 1) }) := by
        simp [grab, hreg]
      rw [hg]
      exact ih _ _ (Nat.mod_lt _ (by norm_num)) (Nat.mod_lt _ (by norm_num))
    · have hg : grab (hs, hdr) e = (hs, hdr) := by simp [grab, hreg]
      rw [hg]
      exact ih hs hdr h1 h2

/-- The header `main` holds after the enumeration of readable regular files,
when the names fit the 32-bit counter. -/
theorem plan_header_files (env : Environment) (input_path : List Byte)
    (files : List (List Byte × List Byte))
    (hent : env.directory_iterator input_path = files.map regular_file)
    (hnames : names_size files < 2 ^ 32) :
    (plan env input_path).header
      = { magic := MakeMagic 0x50 0x46 0x53 0x30, file_count := files.length,
          string_table_sz := names_size files, padding := 0 } := by
  obtain ⟨_, g2, g3, g4, g5⟩ := foldl_grab (env.directory_iterator input_path) []
    { magic := MakeMagic 0x50 0x46 0x53 0x30, file_count := 0, string_table_sz := 0,
      padding := 0 }
  obtain ⟨b1, b2⟩ := foldl_grab_lt (env.directory_iterator input_path) []
    { magic := MakeMagic 0x50 0x46 0x53 0x30, file_count := 0, string_table_sz := 0,
      padding := 0 } (by norm_num) (by norm_num)
  have hxs := regular_files_filter files
  rw [← hent] at hxs
  have hlen : ((env.directory_iterator input_path).filter
      (fun e => decide (e.type = file_type.regular))).length = files.length := by
    have := congrArg List.length hxs
    simpa using this
  have hsum : (((env.directory_iterator input_path).filter
      (fun e => decide (e.type = file_type.regular))).map
        (fun e => (GetFilename e.path).length + 1)).sum = names_size files := by
    have := congrArg (fun l : List (Option (List Byte) × List Byte) =>
      (l.map (fun p => p.2.length + 1)).sum) hxs
    simpa [List.map_map, Function.comp_def, names_size] using this
  rw [hlen] at g4
  rw [hsum] at g5
  have hN : files.length < 2 ^ 32 := by
    have : files.length ≤ names_size files := by
      unfold names_size
      clear hent hxs hlen hsum g4 g5 hnames
      induction files with
      | nil => simp
      | cons f fs ih => simp only [List.map_cons, List.sum_cons, List.length_cons]; omega
    omega
  simp only [Nat.zero_add] at g4 g5
  rw [Nat.mod_eq_of_lt b1, Nat.mod_eq_of_lt hN] at g4
  rw [Nat.mod_eq_of_lt b2, Nat.mod_eq_of_lt hnames] at g5
  show ((env.directory_iterator input_path).foldl grab _).2 = _
  cases hh : ((env.directory_iterator input_path).foldl grab
    ([], { magic := MakeMagic 0x50 0x46 0x53 0x30, file_count := 0, string_table_sz := 0,
           padding := 0 })).2 with
  | mk m fc sts pad =>
    rw [hh] at g2 g3 g4 g5
    simp only at g2 g3 g4 g5
    rw [g2, g3, g4, g5]

/-- C2: for every ordered list of readable regular files (any number, names
may repeat) whose terminated base names total less than `2 ^ 32` bytes, the
header accumulated during the enumeration has `file_count` = N and
`string_table_sz` = the sum of (name length + 1); these are the values found
in the first 16 bytes of the output, the N descriptors of 24 bytes follow, the
string table the later pass emits occupies exactly `string_table_sz` bytes
after them, and the contents start right behind it. -/
theorem C2_header_counts (fuel : Nat) (argv : List (List Byte)) (env : Environment)
    (files : List (List Byte × List Byte))
    (hrun : Builds argv env (files.map regular_file))
    (hnames : (files.map (fun f => (GetFilename f.1).length + 1)).sum < 2 ^ 32)
    (hfuel : ∀ f ∈ files, f.2.length / buffer_size < fuel) :
    ∃ out, (main fuel argv env).map (fun run => run.nsp_fp) = some (some { bytes := out }) ∧
      (plan env (argv.getD 1 [])).header.file_count = files.length ∧
      (plan env (argv.getD 1 [])).header.string_table_sz
        = (files.map (fun f => (GetFilename f.1).length + 1)).sum ∧
      out.take 16 = (plan env (argv.getD 1 [])).header.image ∧
      unLE ((out.drop 4).take 4) = files.length ∧
      unLE ((out.drop 8).take 4) = (files.map (fun f => (GetFilename f.1).length + 1)).sum ∧
      (out.drop 16).take (24 * files.length)
        = files.enum.flatMap (fun p => descriptor_of files p.1 p.2) ∧
      (out.drop (16 + 24 * files.length)).take
          (plan env (argv.getD 1 [])).header.string_table_sz
        = files.flatMap (fun f => GetFilename f.1 ++ [0]) ∧
      out.drop (16 + 24 * files.length + (plan env (argv.getD 1 [])).header.string_table_sz)
        = files.flatMap (fun f => f.2) := by
  have hmain := main_files_archive fuel argv env files hrun hfuel
  have hhdr := plan_header_files env (argv.getD 1 []) files hrun.2.2 hnames
  have hN : files.length < 2 ^ 32 := by
    have : files.length ≤ (files.map (fun f => (GetFilename f.1).length + 1)).sum := by
      clear hrun hfuel hmain hhdr hnames
      induction files with
      | nil => simp
      | cons f fs ih => simp only [List.map_cons, List.sum_cons, List.length_cons]; omega
    omega
  obtain ⟨f1, f2⟩ := archive_header_fields files
  obtain ⟨t1, t2⟩ := archive_tail files
  refine ⟨archive files, ?_, ?_, ?_, ?_, ?_, ?_, ?_, ?_, ?_⟩
  · rw [Option.map_eq_some'] at hmain ⊢
    obtain ⟨run, h1, h2⟩ := hmain
    exact ⟨run, h1, (Prod.mk.inj h2).2⟩
  · rw [hhdr]
  · rw [hhdr]; rfl
  · rw [hhdr]
    have : archive files = header_section files ++ (descriptor_section files
        ++ string_section files ++ content_section files) := by
      simp only [archive, List.append_assoc]
    rw [this, ← header_section_length files, List.take_left]
    rfl
  · rw [f1]; exact unLE_LE4 _ hN
  · rw [f2]; exact unLE_LE4 _ hnames
  · have : archive files = header_section files ++ (descriptor_section files
        ++ (string_section files ++ content_section files)) := by
      simp only [archive, List.append_assoc]
    rw [this]
    exact slice _ _ _ 16 _ (header_section_length files) (descriptor_section_length files)
  · rw [hhdr, t1]
    show (string_section files ++ content_section files).take (names_size files) = _
    rw [← string_section_length files, List.take_left]
    rfl
  · rw [hhdr, t2]
    rfl

/-- Witness of C2: the two sample files give `file_count` 2 and a string
table of 12 bytes. -/
theorem C2_header_counts_witness :
    Builds sample_argv sample_env (sample_files.map regular_file) ∧
    ∃ out, (main 1 sample_argv sample_env).map (fun run => run.nsp_fp)
        = some (some { bytes := out }) ∧
      (plan sample_env (sample_argv.getD 1 [])).header.file_count = 2 ∧
      (plan sample_env (sample_argv.getD 1 [])).header.string_table_sz = 12 ∧
      unLE ((out.drop 4).take 4) = 2 ∧ unLE ((out.drop 8).take 4) = 12 :=
  ⟨sample_builds,
    match C2_header_counts 1 sample_argv sample_env sample_files sample_builds (by decide)
      sample_fuel with
    | ⟨out, h, h1, h2, _, h4, h5, _⟩ => ⟨out, h, h1, h2, h4, h5⟩⟩

theorem main_files_out (fuel : Nat) (argv : List (List Byte)) (env : Environment)
    (files : List (List Byte × List Byte)) (hrun : Builds argv env (files.map regular_file))
    (hfuel : ∀ f ∈ files, f.2.length / buffer_size < fuel) :
    (main fuel argv env).map (fun run => run.nsp_fp) = some (some { bytes := archive files }) := by
  have hmain := main_files_archive fuel argv env files hrun hfuel
  rw [Option.map_eq_some'] at hmain ⊢
  obtain ⟨run, h1, h2⟩ := hmain
  exact ⟨run, h1, (Prod.mk.inj h2).2⟩

theorem sum_take_add_le {α : Type} (f : α → Nat) (l : List α) :
    ∀ (i : Nat) (hi : i < l.length),
      ((l.take i).map f).sum + f l[i] ≤ (l.map f).sum := by
  induction l with
  | nil => intro i hi; simp at hi
  | cons a l ih =>
    intro i hi
    cases i with
    | zero => simp
    | succ i =>
      have := ih i (by simpa using hi)
      simp only [List.take_succ_cons, List.map_cons, List.sum_cons, List.getElem_cons_succ]
      omega

theorem contents_size_take_le (files : List (List Byte × List Byte)) (i : Nat)
    (hi : i < files.length) :
    contents_size (files.take i) + files[i].2.length ≤ contents_size files := by
  have h := sum_take_add_le (fun f : List Byte × List Byte => f.2.length) files i hi
  unfold contents_size
  exact h

theorem names_size_take_le (files : List (List Byte × List Byte)) (i : Nat)
    (hi : i < files.length) :
    names_size (files.take i) + ((GetFilename files[i].1).length + 1) ≤ names_size files := by
  have h := sum_take_add_le (fun f : List Byte × List Byte => (GetFilename f.1).length + 1)
    files i hi
  unfold names_size
  exact h

/-- The string table split around the `i`-th name. -/
theorem string_section_split (files : List (List Byte × List Byte)) (i : Nat)
    (hi : i < files.length) :
    string_section files = string_section (files.take i)
      ++ ((GetFilename files[i].1 ++ [0]) ++ string_section (files.drop (i + 1))) :=
  flatMap_split (fun f : List Byte × List Byte => GetFilename f.1 ++ [0]) files i hi

/-- The content region split around the `i`-th content. -/
theorem content_section_split (files : List (List Byte × List Byte)) (i : Nat)
    (hi : i < files.length) :
    content_section files = content_section (files.take i)
      ++ (files[i].2 ++ content_section (files.drop (i + 1))) :=
  flatMap_split (fun f : List Byte × List Byte => f.2) files i hi

theorem takeWhile_terminated (name rest : List Byte) (h : ∀ c ∈ name, c ≠ 0) :
    (name ++ (0 :: rest)).takeWhile (fun c => c != 0) = name := by
  induction name with
  | nil => simp
  | cons a name ih =>
    have ha : (a != 0) = true := by simpa using h a (List.mem_cons_self _ _)
    have hrec := ih (fun c hc => h c (List.mem_cons_of_mem _ hc))
    rw [List.cons_append, List.takeWhile_cons, ha, if_pos rfl, hrec]

theorem rfind_eq_none {p : Byte → Bool} {l : List Byte} (h : ∀ c ∈ l, p c = false) :
    rfind p l = none := by
  induction l with
  | nil => rfl
  | cons a l ih =>
    have h1 := ih (fun c hc => h c (List.mem_cons_of_mem _ hc))
    have h2 := h a (List.mem_cons_self _ _)
    simp [rfind, h1, h2]

/-- The result of `GetFilename` is what is left of the path once a prefix
that is empty or ends with a separator has been removed, and it holds no
separator. -/
theorem GetFilename_basename (p : List Byte) (hp : p.length < 2 ^ 64) :
    (∃ pre, p = pre ++ GetFilename p ∧
      (pre = [] ∨ ∃ q s, pre = q ++ [s] ∧ (s = 0x2f ∨ s = 0x5c))) ∧
    (∀ c ∈ GetFilename p, c ≠ 0x2f ∧ c ≠ 0x5c) := by
  rcases GetFilename_cases p hp with ⟨hno, hG⟩ | ⟨pre, c, hsplit, hc, hno⟩
  · refine ⟨⟨[], by rw [hG]; rfl, Or.inl rfl⟩, ?_⟩
    rw [hG]
    exact hno
  · refine ⟨⟨pre ++ [c], ?_, Or.inr ⟨pre, c, rfl, hc⟩⟩, hno⟩
    conv_lhs => rw [hsplit]
    simp

/-- C3: for every ordered list of readable regular files whose sums fit the
field widths and every `i < N`, the `i`-th descriptor of the output (the 24
bytes at `16 + 24 * i`) holds `file_offset` = the sum of the content lengths
of the files before `i`, `file_size` = the length of the `i`-th content,
`string_table_offset` = the sum of (name length + 1) over the files before `i`,
and a zero reserved word; descriptor `i` belongs to file `i` of the input. -/
theorem C3_descriptor_fields (fuel : Nat) (argv : List (List Byte)) (env : Environment)
    (files : List (List Byte × List Byte))
    (hrun : Builds argv env (files.map regular_file))
    (hnames : (files.map (fun f => (GetFilename f.1).length + 1)).sum < 2 ^ 32)
    (hsizes : (files.map (fun f => f.2.length)).sum < 2 ^ 64)
    (hfuel : ∀ f ∈ files, f.2.length / buffer_size < fuel)
    (i : Nat) (hi : i < files.length) :
    ∃ out, (main fuel argv env).map (fun run => run.nsp_fp) = some (some { bytes := out }) ∧
      unLE ((out.drop (16 + 24 * i)).take 8) = ((files.take i).map (fun f => f.2.length)).sum ∧
      unLE ((out.drop (16 + 24 * i + 8)).take 8) = files[i].2.length ∧
      unLE ((out.drop (16 + 24 * i + 16)).take 4)
        = ((files.take i).map (fun f => (GetFilename f.1).length + 1)).sum ∧
      unLE ((out.drop (16 + 24 * i + 20)).take 4) = 0 := by
  obtain ⟨d1, d2, d3, d4⟩ := archive_descriptor_fields files i hi
  have hc := contents_size_take_le files i hi
  have hn := names_size_take_le files i hi
  have hnames1 : names_size files < 2 ^ 32 := hnames
  have hsizes1 : contents_size files < 2 ^ 64 := hsizes
  refine ⟨archive files, main_files_out fuel argv env files hrun hfuel, ?_, ?_, ?_, ?_⟩
  · rw [d1]; exact unLE_LE8 _ (by omega)
  · rw [d2]; exact unLE_LE8 _ (by omega)
  · rw [d3]; exact unLE_LE4 _ (by omega)
  · rw [d4]; exact unLE_LE4 _ (by norm_num)

/-- Witness of C3: the second descriptor of the sample container is (3, 2, 6). -/
theorem C3_descriptor_fields_witness :
    Builds sample_argv sample_env (sample_files.map regular_file) ∧
    ∃ out, (main 1 sample_argv sample_env).map (fun run => run.nsp_fp)
        = some (some { bytes := out }) ∧
      unLE ((out.drop (16 + 24 * 1)).take 8) = 3 ∧
      unLE ((out.drop (16 + 24 * 1 + 8)).take 8) = 2 ∧
      unLE ((out.drop (16 + 24 * 1 + 16)).take 4) = 6 ∧
      unLE ((out.drop (16 + 24 * 1 + 20)).take 4) = 0 :=
  ⟨sample_builds,
    C3_descriptor_fields 1 sample_argv sample_env sample_files sample_builds (by decide)
      (by decide) sample_fuel 1 (by decide)⟩

/-- C4: for every ordered list of readable regular files and every `i < N`,
reading `file_size_i` bytes of the output at position
`16 + 24 * N + string_table_size + file_offset_i`, the three values being read
back from the written header and `i`-th descriptor, yields the content of the
`i`-th file. The sums are within the widths of the fields that store them, as
the format requires: the terminated names total less than `2 ^ 32` bytes
(`string_table_size` has 4 bytes) and the contents less than `2 ^ 64` bytes
(`file_offset` has 8). -/
theorem C4_content_roundtrip (fuel : Nat) (argv : List (List Byte)) (env : Environment)
    (files : List (List Byte × List Byte))
    (hrun : Builds argv env (files.map regular_file))
    (hnames : (files.map (fun f => (GetFilename f.1).length + 1)).sum < 2 ^ 32)
    (hsizes : (files.map (fun f => f.2.length)).sum < 2 ^ 64)
    (hfuel : ∀ f ∈ files, f.2.length / buffer_size < fuel)
    (i : Nat) (hi : i < files.length) :
    ∃ out, (main fuel argv env).map (fun run => run.nsp_fp) = some (some { bytes := out }) ∧
      (out.drop (16 + 24 * files.length + unLE ((out.drop 8).take 4)
          + unLE ((out.drop (16 + 24 * i)).take 8))).take
        (unLE ((out.drop (16 + 24 * i + 8)).take 8)) = files[i].2 := by
  obtain ⟨d1, d2, _, _⟩ := archive_descriptor_fields files i hi
  obtain ⟨_, f2⟩ := archive_header_fields files
  obtain ⟨_, t2⟩ := archive_tail files
  have hc := contents_size_take_le files i hi
  have hnames1 : names_size files < 2 ^ 32 := hnames
  have hsizes1 : contents_size files < 2 ^ 64 := hsizes
  refine ⟨archive files, main_files_out fuel argv env files hrun hfuel, ?_⟩
  rw [d1, d2, f2, unLE_LE4 _ hnames1, unLE_LE8 _ (by omega), unLE_LE8 _ (by omega),
    ← List.drop_drop, t2, content_section_split files i hi]
  exact slice _ _ _ _ _ (content_section_length _) rfl

/-- Witness of C4: the second content of the sample container is read back as
41 42. -/
theorem C4_content_roundtrip_witness :
    Builds sample_argv sample_env (sample_files.map regular_file) ∧
    ∃ out, (main 1 sample_argv sample_env).map (fun run => run.nsp_fp)
        = some (some { bytes := out }) ∧
      (out.drop (16 + 24 * 2 + unLE ((out.drop 8).take 4)
          + unLE ((out.drop (16 + 24 * 1)).take 8))).take
        (unLE ((out.drop (16 + 24 * 1 + 8)).take 8)) = [0x41, 0x42] :=
  ⟨sample_builds,
    C4_content_roundtrip 1 sample_argv sample_env sample_files sample_builds (by decide)
      (by decide) sample_fuel 1 (by decide)⟩

/-! ### Runs on a given listing -/

theorem listing_builds (entries : List directory_entry) :
    Builds sample_argv (listing_env entries) entries :=
  ⟨by decide, rfl, rfl⟩

/-- C6: for every ordered list of readable regular files, the number of bytes
written to the output is `16 + 24 * N + string_table_size +` the sum of the
content lengths, `string_table_size` being the value stored in the written
header. The terminated names total less than `2 ^ 32` bytes, the width of the
field `string_table_size`, as the format requires. -/
theorem C6_total_length (fuel : Nat) (argv : List (List Byte)) (env : Environment)
    (files : List (List Byte × List Byte))
    (hrun : Builds argv env (files.map regular_file))
    (hnames : (files.map (fun f => (GetFilename f.1).length + 1)).sum < 2 ^ 32)
    (hfuel : ∀ f ∈ files, f.2.length / buffer_size < fuel) :
    ∃ out, (main fuel argv env).map (fun run => run.nsp_fp) = some (some { bytes := out }) ∧
      out.length = 16 + 24 * files.length + unLE ((out.drop 8).take 4)
        + (files.map (fun f => f.2.length)).sum := by
  obtain ⟨_, f2⟩ := archive_header_fields files
  have hnames1 : names_size files < 2 ^ 32 := hnames
  refine ⟨archive files, main_files_out fuel argv env files hrun hfuel, ?_⟩
  rw [f2, unLE_LE4 _ hnames1, archive_length]
  rfl

/-- Witness of C6: the sample container has 16 + 48 + 12 + 5 = 81 bytes. -/
theorem C6_total_length_witness :
    Builds sample_argv sample_env (sample_files.map regular_file) ∧
    ∃ out, (main 1 sample_argv sample_env).map (fun run => run.nsp_fp)
        = some (some { bytes := out }) ∧
      out.length = 16 + 24 * 2 + unLE ((out.drop 8).take 4) + 5 :=
  ⟨sample_builds,
    C6_total_length 1 sample_argv sample_env sample_files sample_builds (by decide) sample_fuel⟩

/-- C5: for every ordered list of readable regular files whose base names hold
no zero byte and whose string table is shorter than `2 ^ 32` bytes, and every
`i < N`, the bytes of the emitted string table from the `i`-th descriptor's
`string_table_offset` up to the next zero byte are `GetFilename` of the `i`-th
path; for a path shorter than `2 ^ 64` this is the path without a prefix that
is empty or ends with a separator, and it holds no separator itself. -/
theorem C5_name_roundtrip (fuel : Nat) (argv : List (List Byte)) (env : Environment)
    (files : List (List Byte × List Byte))
    (hrun : Builds argv env (files.map regular_file))
    (hnul : ∀ f ∈ files, ∀ c ∈ GetFilename f.1, c ≠ 0)
    (hnames : (files.map (fun f => (GetFilename f.1).length + 1)).sum < 2 ^ 32)
    (hfuel : ∀ f ∈ files, f.2.length / buffer_size < fuel)
    (i : Nat) (hi : i < files.length) :
    ∃ out, (main fuel argv env).map (fun run => run.nsp_fp) = some (some { bytes := out }) ∧
      (((out.drop (16 + 24 * files.length)).take (unLE ((out.drop 8).take 4))).drop
          (unLE ((out.drop (16 + 24 * i + 16)).take 4))).takeWhile (fun c => c != 0)
        = GetFilename files[i].1 ∧
      (files[i].1.length < 2 ^ 64 →
        (∃ pre, files[i].1 = pre ++ GetFilename files[i].1 ∧
          (pre = [] ∨ ∃ q s, pre = q ++ [s] ∧ (s = 0x2f ∨ s = 0x5c))) ∧
        (∀ c ∈ GetFilename files[i].1, c ≠ 0x2f ∧ c ≠ 0x5c)) := by
  obtain ⟨_, _, d3, _⟩ := archive_descriptor_fields files i hi
  obtain ⟨_, f2⟩ := archive_header_fields files
  obtain ⟨t1, _⟩ := archive_tail files
  have hn := names_size_take_le files i hi
  have hnames1 : names_size files < 2 ^ 32 := hnames
  refine ⟨archive files, main_files_out fuel argv env files hrun hfuel, ?_,
    fun hlen => GetFilename_basename _ hlen⟩
  rw [d3, f2, unLE_LE4 _ hnames1, unLE_LE4 _ (by omega), t1]
  have htake : (string_section files ++ content_section files).take (names_size files)
      = string_section files := by
    rw [← string_section_length files, List.take_left]
  rw [htake, string_section_split files i hi, ← string_section_length (files.take i),
    List.drop_left, List.append_assoc]
  exact takeWhile_terminated _ _ (hnul files[i] (List.getElem_mem _))

set_option maxRecDepth 8192 in
theorem sample_no_nul : ∀ f ∈ sample_files, ∀ c ∈ GetFilename f.1, c ≠ 0 := by decide

/-- Witness of C5: the name read at the second descriptor's offset of the
sample container is `a.txt`. -/
theorem C5_name_roundtrip_witness :
    Builds sample_argv sample_env (sample_files.map regular_file) ∧
    ∃ out, (main 1 sample_argv sample_env).map (fun run => run.nsp_fp)
        = some (some { bytes := out }) ∧
      (((out.drop (16 + 24 * 2)).take (unLE ((out.drop 8).take 4))).drop
          (unLE ((out.drop (16 + 24 * 1 + 16)).take 4))).takeWhile (fun c => c != 0)
        = ascii "a.txt" :=
  ⟨sample_builds,
    match C5_name_roundtrip 1 sample_argv sample_env sample_files sample_builds sample_no_nul
      (by decide) sample_fuel 1 (by decide) with
    | ⟨out, h1, h2, _⟩ => ⟨out, h1, h2.trans (by decide)⟩⟩

theorem rfind_append_last {p : Byte → Bool} (q : List Byte) (s : Byte) (hs : p s = true) :
    rfind p (q ++ [s]) = some q.length := by
  induction q with
  | nil => simp [rfind, hs]
  | cons a q ih => simp [rfind, ih]

/-- C7: for every path (a `std::string`, so shorter than `2 ^ 64`)
`GetFilename` returns the part after the last slash or backslash: the result
is a suffix of the path, it holds neither separator, the removed prefix is
empty or ends with a separator; a path without separator is returned whole,
and a path that ends with a separator gives the empty string. -/
theorem C7_GetFilename (p : List Byte) (hp : p.length < 2 ^ 64) :
    (∃ pre, p = pre ++ GetFilename p ∧
      (pre = [] ∨ ∃ q s, pre = q ++ [s] ∧ (s = 0x2f ∨ s = 0x5c))) ∧
    (∀ c ∈ GetFilename p, c ≠ 0x2f ∧ c ≠ 0x5c) ∧
    ((∀ c ∈ p, c ≠ 0x2f ∧ c ≠ 0x5c) → GetFilename p = p) ∧
    (∀ q s, p = q ++ [s] → (s = 0x2f ∨ s = 0x5c) → GetFilename p = []) := by
  obtain ⟨h1, h2⟩ := GetFilename_basename p hp
  refine ⟨h1, h2, ?_, ?_⟩
  · intro hno
    apply GetFilename_of_rfind_none
    apply rfind_eq_none
    intro c hc
    exact (contains_separators_false c).mpr (hno c hc)
  · intro q s hq hs
    subst hq
    have hr : rfind (fun c => separators.contains c) (q ++ [s]) = some q.length :=
      rfind_append_last q s ((contains_separators s).mpr hs)
    exact GetFilename_of_split hp hr

/-- Witness of C7: the path `in/a\bc` gives `bc`. -/
theorem C7_GetFilename_witness :
    ([0x69, 0x6e, 0x2f, 0x61, 0x5c, 0x62, 0x63] : List Byte).length < 2 ^ 64 ∧
    GetFilename [0x69, 0x6e, 0x2f, 0x61, 0x5c, 0x62, 0x63] = [0x62, 0x63] ∧
    (∀ c ∈ GetFilename [0x69, 0x6e, 0x2f, 0x61, 0x5c, 0x62, 0x63], c ≠ 0x2f ∧ c ≠ 0x5c) :=
  ⟨by decide, by decide,
    (C7_GetFilename [0x69, 0x6e, 0x2f, 0x61, 0x5c, 0x62, 0x63] (by decide)).2.1⟩

/-- C8: a run whose directory holds no regular file is not an error: for
every bound on the loop iterations `main` returns 0 and the output consists
of exactly 16 bytes, the magic `PFS0` followed by twelve zero bytes; there is
no descriptor, no string table byte and no content byte. -/
theorem C8_empty_directory (fuel : Nat) (argv : List (List Byte)) (env : Environment)
    (entries : List directory_entry) (hrun : Builds argv env entries)
    (hnone : ∀ e ∈ entries, e.type ≠ file_type.regular) :
    (main fuel argv env).map (fun run => (run.status, run.nsp_fp))
      = some (0, some { bytes :=
          [0x50, 0x46, 0x53, 0x30, 0, 0, 0, 0, 0, 0, 0, 0, 0, 0, 0, 0] }) := by
  obtain ⟨hargc, hdir, hent⟩ := hrun
  have hfilter : (env.directory_iterator (argv.getD 1 [])).filter
      (fun e => decide (e.type = file_type.regular)) = [] := by
    rw [hent, List.filter_eq_nil_iff]
    intro e he
    simpa using hnone e he
  obtain ⟨p1, p2⟩ := plan_layout (fun _ : Unit => (none : Option (List Byte)))
    (fun _ => ([] : List Byte)) [] env (argv.getD 1 []) (by rw [hfilter]; rfl)
  obtain ⟨run, h1, h2, h3, _⟩ := main_of_plan (fun _ : Unit => ([] : List Byte))
    (fun _ => ([] : List Byte)) [] fuel argv env hargc hdir p2 (by simp)
  rw [h1, Option.map_some', h2, h3, p1]
  decide

/-- Witness of C8: an empty directory gives the 16-byte header-only
container, whatever the bound on the loop iterations. -/
theorem C8_empty_directory_witness :
    Builds sample_argv (listing_env []) [] ∧
    (main 0 sample_argv (listing_env [])).map (fun run => (run.status, run.nsp_fp))
      = some (0, some { bytes :=
          [0x50, 0x46, 0x53, 0x30, 0, 0, 0, 0, 0, 0, 0, 0, 0, 0, 0, 0] }) :=
  ⟨listing_builds [],
    C8_empty_directory 0 sample_argv (listing_env []) [] (listing_builds []) (by simp)⟩

/-! ### What every run writes first -/

theorem FastAppend_loop_extends (fuel : Nat) :
    ∀ (st st1 : CopyState), FastAppend_loop fuel st = some st1 →
      ∃ suffix, st1.dst.bytes = st.dst.bytes ++ suffix := by
  induction fuel with
  | zero =>
    intro st st1 h
    by_cases he : st.src.eof = true
    · simp only [FastAppend_loop, he, if_true, Option.some.injEq] at h
      exact ⟨[], by rw [← h]; simp⟩
    · simp [FastAppend_loop, he] at h
  | succ fuel ih =>
    intro st st1 h
    by_cases he : st.src.eof = true
    · simp only [FastAppend_loop, he, if_true, Option.some.injEq] at h
      exact ⟨[], by rw [← h]; simp⟩
    · simp only [FastAppend_loop, he, Bool.false_eq_true, if_false] at h
      obtain ⟨suffix, hs⟩ := ih _ _ h
      refine ⟨(st.src.read st.memory_buffer buffer_size).2.1.take
        (size_t (st.src.read st.memory_buffer buffer_size).2.2) ++ suffix, ?_⟩
      rw [hs]
      simp [FastAppend_body, ofstream.write]

theorem append_all_extends (fuel : Nat) (hs : List handle) :
    ∀ (st r : CopyPass), append_all fuel st hs = some r →
      ∃ suffix, r.nsp_fp.bytes = st.nsp_fp.bytes ++ suffix := by
  induction hs with
  | nil =>
    intro st r h
    simp only [append_all, Option.some.injEq] at h
    exact ⟨[], by rw [← h]; simp⟩
  | cons entry rest ih =>
    intro st r h
    simp only [append_all] at h
    cases hstep : append_entry fuel st entry with
    | none => simp [hstep] at h
    | some st1 =>
      simp only [hstep] at h
      obtain ⟨suffix, hsuf⟩ := ih st1 r h
      simp only [append_entry] at hstep
      cases hfa : FastAppend fuel st.nsp_fp entry.1 with
      | none => simp [hfa] at hstep
      | some pair =>
        simp only [hfa, Option.some.injEq] at hstep
        simp only [FastAppend, Option.map_eq_some'] at hfa
        obtain ⟨cs, hcs, hpair⟩ := hfa
        obtain ⟨suffix1, hsuf1⟩ := FastAppend_loop_extends fuel _ _ hcs
        refine ⟨suffix1 ++ suffix, ?_⟩
        rw [hsuf, ← hstep, ← hpair]
        simp only at hsuf1 ⊢
        rw [hsuf1, List.append_assoc]

/-- A run that returns with an output stream has gone through the copy pass,
started on what the plan wrote. -/
theorem main_some_nsp_fp (fuel : Nat) (argv : List (List Byte)) (env : Environment) (run : Run)
    (fp : ofstream) (h : main fuel argv env = some run) (hfp : run.nsp_fp = some fp) :
    ∃ copied, append_all fuel
        { nsp_fp := (plan env (argv.getD 1 [])).nsp_fp, cout := (plan env (argv.getD 1 [])).cout,
          file_handles := [] } (plan env (argv.getD 1 [])).file_handles = some copied ∧
      fp = copied.nsp_fp := by
  unfold main at h
  simp only at h
  split at h
  · simp only [Option.some.injEq] at h
    rw [← h] at hfp
    simp at hfp
  · split at h
    · simp only [Option.some.injEq] at h
      rw [← h] at hfp
      simp at hfp
    · split at h
      · simp only [Option.some.injEq] at h
        rw [← h] at hfp
        simp at hfp
      · split at h
        · simp at h
        · rename_i copied hc
          simp only [Option.some.injEq] at h
          rw [← h] at hfp
          simp only [Option.some.injEq] at hfp
          exact ⟨copied, hc, hfp.symm⟩

/-- Whatever the directory holds, the plan starts the output with the
little-endian image of the magic. -/
theorem plan_starts_with_magic (env : Environment) (input_path : List Byte) :
    ∃ rest, (plan env input_path).nsp_fp.bytes = LE 4 (MakeMagic 0x50 0x46 0x53 0x30) ++ rest := by
  obtain ⟨p1, _⟩ := plan_layout (fun e : directory_entry => e.content)
    (fun e => GetFilename e.path)
    ((env.directory_iterator input_path).filter (fun e => decide (e.type = file_type.regular)))
    env input_path rfl
  rw [p1]
  simp only [List.append_assoc]
  exact ⟨_, rfl⟩

/-- C9: for all bytes `a`, `b`, `c`, `d` (those with `d >= 128` included) the
value of `MakeMagic(a, b, c, d)` is `a + 256 b + 65536 c + 16777216 d`, so its
four little-endian bytes are `a`, `b`, `c`, `d`; and the first four bytes of
the output of every run that returns with an output stream are `PFS0`. -/
theorem C9_magic :
    (∀ a b c d : Byte,
      MakeMagic a b c d = a.val + 256 * b.val + 65536 * c.val + 16777216 * d.val ∧
      LE 4 (MakeMagic a b c d) = [a, b, c, d]) ∧
    (∀ (fuel : Nat) (argv : List (List Byte)) (env : Environment) (run : Run) (fp : ofstream),
      main fuel argv env = some run → run.nsp_fp = some fp →
        fp.bytes.take 4 = [0x50, 0x46, 0x53, 0x30]) := by
  refine ⟨fun a b c d => ⟨MakeMagic_value a b c d, LE_MakeMagic a b c d⟩, ?_⟩
  intro fuel argv env run fp h hfp
  obtain ⟨copied, hc, hfpc⟩ := main_some_nsp_fp fuel argv env run fp h hfp
  obtain ⟨suffix, hs⟩ := append_all_extends fuel _ _ _ hc
  obtain ⟨rest, hr⟩ := plan_starts_with_magic env (argv.getD 1 [])
  rw [hfpc, hs]
  simp only
  rw [hr, List.append_assoc, LE_MakeMagic]
  rfl

/-- Witness of C9: the magic with a last byte above 127, and the first four
bytes of the sample container. -/
theorem C9_magic_witness :
    MakeMagic 0x50 0x46 0x53 0xb0 = 0xb0534650 ∧
    ∃ run fp, main 1 sample_argv sample_env = some run ∧ run.nsp_fp = some fp ∧
      fp.bytes.take 4 = [0x50, 0x46, 0x53, 0x30] :=
  ⟨(C9_magic.1 0x50 0x46 0x53 0xb0).1.trans (by decide),
    match main_files 1 sample_argv sample_env sample_files sample_builds sample_fuel with
    | ⟨run, h1, _, h3⟩ => ⟨run, _, h1, h3, C9_magic.2 1 _ _ run _ h1 h3⟩⟩

/-! ### A source that cannot be opened -/

theorem iterate_FastAppend_body_failed (k : Nat) (st : CopyState)
    (hfail : st.src.failbit = true) : Nat.iterate FastAppend_body k st = st := by
  induction k with
  | zero => rfl
  | succ k ih => rw [Function.iterate_succ_apply, FastAppend_body_failed st hfail, ih]

/-- A run that passes the checks never returns when one of the regular
entries cannot be opened. -/
theorem main_unreadable (fuel : Nat) (argv : List (List Byte)) (env : Environment)
    (entries : List directory_entry) (hrun : Builds argv env entries) (e : directory_entry)
    (he : e ∈ entries) (hreg : e.type = file_type.regular) (hfail : e.content = none) :
    main fuel argv env = none := by
  obtain ⟨hargc, hdir, hent⟩ := hrun
  obtain ⟨_, p2⟩ := plan_layout (fun e : directory_entry => e.content)
    (fun e => GetFilename e.path)
    ((env.directory_iterator (argv.getD 1 [])).filter
      (fun e => decide (e.type = file_type.regular)))
    env (argv.getD 1 []) rfl
  apply main_of_plan_unreadable fuel argv env hargc hdir
  · rw [p2]
    refine ⟨(ifstream_open e.content, GetFilename e.path), ?_, by rw [hfail]⟩
    apply List.mem_map.mpr
    refine ⟨e, ?_, rfl⟩
    rw [hent]
    exact List.mem_filter.mpr ⟨he, by simpa using hreg⟩
  · rw [p2]
    intro h hh
    obtain ⟨x, _, hx⟩ := List.mem_map.mp hh
    exact ⟨x.content, by rw [← hx]⟩

/-- C10, the run at which the code departs from the claim: the command line
`pfs0_create in out.pfs0` on a directory `in` whose only entry is a regular
file `in/a` that cannot be opened for reading. No stream state is ever tested,
so nothing stops the build. The descriptor pass records a size for the file:
before the copy pass the output holds the header and one descriptor whose
`file_size` is ff ff ff ff ff ff ff ff, the `-1` of `tellg()` converted to
`size_t`. The copy pass then enters the loop of `FastAppend` on the failed
stream, where `eof()` is false and every iteration leaves both streams and
the buffer as they were, so the loop is never left, and `main` returns for no
bound on the iterations: the run neither ends with an error nor returns. -/
theorem C10_unreadable_source_hangs :
    Builds sample_argv (listing_env [unreadable_entry]) [unreadable_entry] ∧
    (plan (listing_env [unreadable_entry]) (ascii "in")).nsp_fp.bytes
      = [0x50, 0x46, 0x53, 0x30, 1, 0, 0, 0, 2, 0, 0, 0, 0, 0, 0, 0,
         0, 0, 0, 0, 0, 0, 0, 0, 0xff, 0xff, 0xff, 0xff, 0xff, 0xff, 0xff, 0xff,
         0, 0, 0, 0, 0, 0, 0, 0, 0x61, 0] ∧
    (plan (listing_env [unreadable_entry]) (ascii "in")).file_handles.map (fun h => h.1)
      = [ifstream_open unreadable_entry.content] ∧
    (ifstream_open unreadable_entry.content).eof = false ∧
    (∀ k, Nat.iterate FastAppend_body k
        { dst := (plan (listing_env [unreadable_entry]) (ascii "in")).nsp_fp,
          src := ifstream_open unreadable_entry.content,
          memory_buffer := List.replicate buffer_size 0 }
      = { dst := (plan (listing_env [unreadable_entry]) (ascii "in")).nsp_fp,
          src := ifstream_open unreadable_entry.content,
          memory_buffer := List.replicate buffer_size 0 }) ∧
    (∀ fuel dst, FastAppend fuel dst (ifstream_open unreadable_entry.content) = none) ∧
    (∀ fuel, main fuel sample_argv (listing_env [unreadable_entry]) = none) := by
  refine ⟨listing_builds _, by decide, by decide, rfl, ?_, ?_, ?_⟩
  · intro k
    exact iterate_FastAppend_body_failed k _ rfl
  · intro fuel dst
    exact FastAppend_unreadable fuel dst
  · intro fuel
    exact main_unreadable fuel sample_argv _ [unreadable_entry] (listing_builds _)
      unreadable_entry (List.mem_singleton.mpr rfl) rfl rfl

/-! ### Rejected runs -/

/-- Every return of `main` carries the value 0. -/
theorem main_status (fuel : Nat) (argv : List (List Byte)) (env : Environment) (run : Run)
    (h : main fuel argv env = some run) : run.status = 0 := by
  unfold main at h
  simp only at h
  split at h
  · simp only [Option.some.injEq] at h
    rw [← h]
  · split at h
    · simp only [Option.some.injEq] at h
      rw [← h]
    · split at h
      · simp only [Option.some.injEq] at h
        rw [← h]
      · split at h
        · simp at h
        · simp only [Option.some.injEq] at h
          rw [← h]

/-- C11: with fewer than two command-line arguments, with an input path that
does not exist, or with an input path that is not a directory, `main` returns
0 for every bound on the loop iterations, the output stream is never
constructed (the output file is neither created, opened nor written), no
source is opened and nothing is sent to `std::cout`; 0 is also the value of
every other return of `main`, a successful build included. -/
theorem C11_rejected_runs (fuel : Nat) (argv : List (List Byte)) (env : Environment)
    (hrej : argv.length < 3 ∨ fs_exists env (argv.getD 1 []) = false ∨
      env.status (argv.getD 1 []) ≠ file_type.directory) :
    (∃ run, main fuel argv env = some run ∧ run.status = 0 ∧ run.nsp_fp = none ∧
      run.file_handles = [] ∧ run.cout = []) ∧
    (∀ (fuel1 : Nat) (argv1 : List (List Byte)) (env1 : Environment) (run1 : Run),
      main fuel1 argv1 env1 = some run1 → run1.status = 0) := by
  refine ⟨?_, fun fuel1 argv1 env1 run1 h => main_status fuel1 argv1 env1 run1 h⟩
  unfold main
  simp only
  by_cases h1 : argv.length < 3
  · rw [if_pos h1]
    exact ⟨_, rfl, rfl, rfl, rfl, rfl⟩
  · rw [if_neg h1]
    by_cases h2 : fs_exists env (argv.getD 1 []) = true
    · have h3 : env.status (argv.getD 1 []) ≠ file_type.directory := by
        rcases hrej with h | h | h
        · exact absurd h h1
        · rw [h2] at h; exact absurd h (by decide)
        · exact h
      simp only [h2, Bool.not_true, Bool.false_eq_true, if_false]
      rw [if_pos h3]
      exact ⟨_, rfl, rfl, rfl, rfl, rfl⟩
    · have h2f : fs_exists env (argv.getD 1 []) = false := by
        cases hfe : fs_exists env (argv.getD 1 []) with
        | true => exact absurd hfe h2
        | false => rfl
      simp only [h2f, Bool.not_false, if_true]
      exact ⟨_, rfl, rfl, rfl, rfl, rfl⟩

/-- Witness of C11: one run for each rejected situation, namely a single
argument, the missing path `nowhere`, and a path that names a regular file. -/
theorem C11_rejected_runs_witness :
    (∃ run, main 5 [ascii "pfs0_create", ascii "in"] sample_env = some run ∧ run.status = 0 ∧
      run.nsp_fp = none ∧ run.file_handles = [] ∧ run.cout = []) ∧
    (∃ run, main 5 [ascii "pfs0_create", ascii "nowhere", ascii "out.pfs0"] sample_env
        = some run ∧ run.status = 0 ∧ run.nsp_fp = none ∧ run.file_handles = [] ∧
      run.cout = []) ∧
    (∃ run, main 5 sample_argv plain_file_env = some run ∧ run.status = 0 ∧
      run.nsp_fp = none ∧ run.file_handles = [] ∧ run.cout = []) :=
  ⟨(C11_rejected_runs 5 [ascii "pfs0_create", ascii "in"] sample_env
      (Or.inl (by decide))).1,
    (C11_rejected_runs 5 [ascii "pfs0_create", ascii "nowhere", ascii "out.pfs0"] sample_env
      (Or.inr (Or.inl (by decide)))).1,
    (C11_rejected_runs 5 sample_argv plain_file_env (Or.inr (Or.inr (by decide)))).1⟩

/-! ### The iterations of `FastAppend` -/

/-- An iteration that finds at least `buffer_size` characters left copies a
full chunk and does not reach end of file. -/
theorem FastAppend_body_full (file : List Byte) (pos : Nat) (dst : ofstream) (buf : List Byte)
    (hfull : buffer_size ≤ file.length - pos) :
    FastAppend_body
        { dst := dst, src := { file := file, pos := pos, eofbit := false, failbit := false },
          memory_buffer := buf }
      = { dst := { bytes := dst.bytes ++ (file.drop pos).take buffer_size },
          src := { file := file, pos := pos + buffer_size, eofbit := false, failbit := false },
          memory_buffer := (file.drop pos).take buffer_size ++ buf.drop buffer_size } := by
  have hlen : (file.drop pos).length = file.length - pos := List.length_drop pos file
  have hsz : size_t buffer_size = buffer_size := by decide
  have htl : ((file.drop pos).take buffer_size).length = buffer_size := by
    rw [List.length_take, hlen]; omega
  have htake : (List.take buffer_size (List.drop pos file)
      ++ List.drop buffer_size buf).take buffer_size
      = List.take buffer_size (List.drop pos file) :=
    take_append_of_length _ _ _ htl
  simp only [FastAppend_body, ifstream.read, ifstream.good, Bool.not_false,
    Bool.and_self, if_true, hlen, hfull, hsz, ofstream.write, htake]

/-- An iteration that finds fewer than `buffer_size` characters left copies
them and sets `eofbit` (and `failbit`). -/
theorem FastAppend_body_last (file : List Byte) (pos : Nat) (dst : ofstream) (buf : List Byte)
    (hpos : pos ≤ file.length) (hlt : file.length - pos < buffer_size) :
    FastAppend_body
        { dst := dst, src := { file := file, pos := pos, eofbit := false, failbit := false },
          memory_buffer := buf }
      = { dst := { bytes := dst.bytes ++ file.drop pos },
          src := { file := file, pos := file.length, eofbit := true, failbit := true },
          memory_buffer := file.drop pos ++ buf.drop (file.length - pos) } := by
  have hlen : (file.drop pos).length = file.length - pos := List.length_drop pos file
  have hfull : ¬ buffer_size ≤ file.length - pos := by omega
  have hsz : size_t (file.length - pos) = file.length - pos := by
    unfold size_t
    unfold buffer_size at hlt
    omega
  have htake : (List.drop pos file ++ List.drop (file.length - pos) buf).take
      (file.length - pos) = List.drop pos file :=
    take_append_of_length _ _ _ hlen
  have hp : pos + (file.length - pos) = file.length := by omega
  simp only [FastAppend_body, ifstream.read, ifstream.good, Bool.not_false,
    Bool.and_self, if_true, hlen, hfull, if_false, hsz, ofstream.write, htake, hp]

/-- The state after `k` iterations, as long as `k` full chunks are available. -/
theorem iterate_FastAppend_body_full (file : List Byte) (pos : Nat) (dst : ofstream)
    (buf : List Byte) :
    ∀ k, k * buffer_size ≤ file.length - pos →
      ∃ buf1, Nat.iterate FastAppend_body k
          { dst := dst, src := { file := file, pos := pos, eofbit := false, failbit := false },
            memory_buffer := buf }
        = { dst := { bytes := dst.bytes ++ (file.drop pos).take (k * buffer_size) },
            src := { file := file, pos := pos + k * buffer_size, eofbit := false,
                     failbit := false },
            memory_buffer := buf1 } := by
  intro k
  induction k with
  | zero => intro _; exact ⟨buf, by simp⟩
  | succ k ih =>
    intro hk
    have hk0 : k * buffer_size ≤ file.length - pos := by
      rw [Nat.succ_mul] at hk; omega
    obtain ⟨buf1, h1⟩ := ih hk0
    have hfull : buffer_size ≤ file.length - (pos + k * buffer_size) := by
      rw [Nat.succ_mul] at hk; omega
    refine ⟨(file.drop (pos + k * buffer_size)).take buffer_size ++ buf1.drop buffer_size, ?_⟩
    rw [Function.iterate_succ_apply', h1, FastAppend_body_full file _ _ _ hfull]
    have e1 : (file.drop pos).take (k * buffer_size)
        ++ (file.drop (pos + k * buffer_size)).take buffer_size
        = (file.drop pos).take ((k + 1) * buffer_size) := by
      rw [Nat.succ_mul, List.take_add, List.drop_drop]
    have e2 : pos + k * buffer_size + buffer_size = pos + (k + 1) * buffer_size := by
      rw [Nat.succ_mul]; omega
    simp only [List.append_assoc, e1, e2]

/-- The loop run with `fuel` iterations allowed skips over `k` iterations that
start without `eofbit`. -/
theorem FastAppend_loop_iterate (k : Nat) :
    ∀ (fuel : Nat) (st : CopyState), k ≤ fuel →
      (∀ j, j < k → (Nat.iterate FastAppend_body j st).src.eof = false) →
      FastAppend_loop fuel st = FastAppend_loop (fuel - k) (Nat.iterate FastAppend_body k st) := by
  induction k with
  | zero => intro fuel st _ _; rfl
  | succ k ih =>
    intro fuel st hle hno
    cases fuel with
    | zero => omega
    | succ fuel =>
      have h0 : st.src.eof = false := hno 0 (Nat.succ_pos k)
      have hrec := ih fuel (FastAppend_body st) (by omega) (fun j hj => by
        have := hno (j + 1) (by omega)
        rwa [Function.iterate_succ_apply] at this)
      simp only [FastAppend_loop, h0, Bool.false_eq_true, if_false]
      rw [hrec, Function.iterate_succ_apply]
      congr 1
      omega

/-- C13: for every readable source of `n` bytes positioned at its start and
every destination, `FastAppend` returns once `n / 1000000 + 1` iterations are
allowed, the destination then holds its former bytes followed by exactly the
bytes of the source, in order, and the source is exhausted (position `n`,
`eofbit` set); this holds for every `n`, so for 0, for less than one buffer and
for exact multiples of the buffer size: the chunked copy is the plain copy. -/
theorem C13_FastAppend_copies (fuel : Nat) (dst : ofstream) (content : List Byte)
    (hfuel : content.length / buffer_size < fuel) :
    FastAppend fuel dst (ifstream_open (some content))
      = some ({ bytes := dst.bytes ++ content },
          { file := content, pos := content.length, eofbit := true, failbit := true }) :=
  FastAppend_readable fuel dst content hfuel

/-- Witness of C13: an empty source, a source of three bytes, and a source of
exactly one buffer of 1000000 bytes, which takes a second iteration that
copies nothing. -/
theorem C13_FastAppend_copies_witness :
    FastAppend 1 { bytes := [9] } (ifstream_open (some []))
      = some ({ bytes := [9] }, { file := [], pos := 0, eofbit := true, failbit := true }) ∧
    FastAppend 1 { bytes := [9] } (ifstream_open (some [1, 2, 3]))
      = some ({ bytes := [9, 1, 2, 3] },
          { file := [1, 2, 3], pos := 3, eofbit := true, failbit := true }) ∧
    FastAppend 2 { bytes := [9] } (ifstream_open (some (List.replicate 1000000 7)))
      = some ({ bytes := [9] ++ List.replicate 1000000 7 },
          { file := List.replicate 1000000 7, pos := (List.replicate 1000000 (7 : Byte)).length,
            eofbit := true, failbit := true }) :=
  ⟨C13_FastAppend_copies 1 { bytes := [9] } [] (by decide),
    C13_FastAppend_copies 1 { bytes := [9] } [1, 2, 3] (by decide),
    C13_FastAppend_copies 2 { bytes := [9] } (List.replicate 1000000 7)
      (by rw [List.length_replicate]; decide)⟩

/-- C16: on a source without state flags that has `n` bytes left, the loop of
`FastAppend` ends after exactly `n / 1000000 + 1` iterations: after each of the
first `n / 1000000` iterations the source has advanced by one more full chunk,
which has been appended to the destination, and `eof()` is still false; the
next iteration appends the remaining `n % 1000000` bytes and sets `eofbit`;
the loop returns that state exactly when more than `n / 1000000` iterations are
allowed. -/
theorem C16_loop_iterations (st : CopyState) (heof : st.src.eofbit = false)
    (hfail : st.src.failbit = false) (hpos : st.src.pos ≤ st.src.file.length) :
    (∀ k, k ≤ (st.src.file.length - st.src.pos) / buffer_size →
      (Nat.iterate FastAppend_body k st).src
        = { file := st.src.file, pos := st.src.pos + k * buffer_size, eofbit := false,
            failbit := false } ∧
      (Nat.iterate FastAppend_body k st).dst.bytes
        = st.dst.bytes ++ (st.src.file.drop st.src.pos).take (k * buffer_size)) ∧
    (Nat.iterate FastAppend_body ((st.src.file.length - st.src.pos) / buffer_size + 1) st).src
      = { file := st.src.file, pos := st.src.file.length, eofbit := true, failbit := true } ∧
    (Nat.iterate FastAppend_body ((st.src.file.length - st.src.pos) / buffer_size + 1) st).dst.bytes
      = (Nat.iterate FastAppend_body ((st.src.file.length - st.src.pos) / buffer_size)
            st).dst.bytes
          ++ st.src.file.drop
              (st.src.pos + (st.src.file.length - st.src.pos) / buffer_size * buffer_size) ∧
    (st.src.file.drop
        (st.src.pos + (st.src.file.length - st.src.pos) / buffer_size * buffer_size)).length
      = (st.src.file.length - st.src.pos) % buffer_size ∧
    (∀ fuel, FastAppend_loop fuel st
      = if (st.src.file.length - st.src.pos) / buffer_size < fuel then
          some (Nat.iterate FastAppend_body
            ((st.src.file.length - st.src.pos) / buffer_size + 1) st)
        else none) := by
  obtain ⟨dst, src, buf⟩ := st
  obtain ⟨file, pos, e, f⟩ := src
  simp only at heof hfail hpos ⊢
  subst heof hfail
  have hB : 0 < buffer_size := by decide
  have hdiv : (file.length - pos) / buffer_size * buffer_size ≤ file.length - pos :=
    Nat.div_mul_le_self _ _
  have hmod : file.length - pos - (file.length - pos) / buffer_size * buffer_size
      = (file.length - pos) % buffer_size := by
    have := Nat.div_add_mod (file.length - pos) buffer_size
    rw [Nat.mul_comm] at this
    omega
  have hmodlt : (file.length - pos) % buffer_size < buffer_size := Nat.mod_lt _ hB
  have hfullk : ∀ k, k ≤ (file.length - pos) / buffer_size →
      k * buffer_size ≤ file.length - pos := fun k hk =>
    le_trans (Nat.mul_le_mul_right _ hk) hdiv
  obtain ⟨bufn, hn⟩ := iterate_FastAppend_body_full file pos dst buf
    ((file.length - pos) / buffer_size) hdiv
  have hpos1 : pos + (file.length - pos) / buffer_size * buffer_size ≤ file.length := by omega
  have hlast := FastAppend_body_last file
    (pos + (file.length - pos) / buffer_size * buffer_size)
    { bytes := dst.bytes ++ (file.drop pos).take ((file.length - pos) / buffer_size
        * buffer_size) } bufn hpos1 (by omega)
  have hfin : Nat.iterate FastAppend_body ((file.length - pos) / buffer_size + 1)
      { dst := dst, src := { file := file, pos := pos, eofbit := false, failbit := false },
        memory_buffer := buf }
      = { dst := { bytes := dst.bytes ++ (file.drop pos).take ((file.length - pos) / buffer_size
              * buffer_size)
            ++ file.drop (pos + (file.length - pos) / buffer_size * buffer_size) },
          src := { file := file, pos := file.length, eofbit := true, failbit := true },
          memory_buffer := file.drop (pos + (file.length - pos) / buffer_size * buffer_size)
            ++ bufn.drop (file.length
              - (pos + (file.length - pos) / buffer_size * buffer_size)) } := by
    rw [Function.iterate_succ_apply', hn, hlast]
  refine ⟨?_, ?_, ?_, ?_, ?_⟩
  · intro k hk
    obtain ⟨bufk, hk1⟩ := iterate_FastAppend_body_full file pos dst buf k (hfullk k hk)
    rw [hk1]
    exact ⟨rfl, rfl⟩
  · rw [hfin]
  · rw [hfin, hn]
  · rw [List.length_drop]
    omega
  · intro fuel
    by_cases hf : (file.length - pos) / buffer_size < fuel
    · rw [if_pos hf]
      have hskip := FastAppend_loop_iterate ((file.length - pos) / buffer_size + 1) fuel
        { dst := dst, src := { file := file, pos := pos, eofbit := false, failbit := false },
          memory_buffer := buf } hf (fun j hj => by
          obtain ⟨bufj, hj1⟩ := iterate_FastAppend_body_full file pos dst buf j
            (hfullk j (by omega))
          rw [hj1]
          rfl)
      rw [hskip]
      exact FastAppend_loop_of_eof _ _ (by rw [hfin])
    · rw [if_neg hf]
      have hskip := FastAppend_loop_iterate fuel fuel
        { dst := dst, src := { file := file, pos := pos, eofbit := false, failbit := false },
          memory_buffer := buf } (le_refl _) (fun j hj => by
          obtain ⟨bufj, hj1⟩ := iterate_FastAppend_body_full file pos dst buf j
            (hfullk j (by omega))
          rw [hj1]
          rfl)
      rw [hskip, Nat.sub_self]
      obtain ⟨buff, hf1⟩ := iterate_FastAppend_body_full file pos dst buf fuel
        (hfullk fuel (by omega))
      rw [hf1]
      rfl

/-- Witness of C16: a source of three bytes is copied in one iteration, and
the loop has not ended when no iteration is allowed. -/
theorem C16_loop_iterations_witness :
    (ifstream_open (some [1, 2, 3])).pos ≤ (ifstream_open (some [1, 2, 3])).file.length ∧
    FastAppend_loop 0
        { dst := { bytes := [] }, src := ifstream_open (some [1, 2, 3]), memory_buffer := [] }
      = none ∧
    FastAppend_loop 1
        { dst := { bytes := [] }, src := ifstream_open (some [1, 2, 3]), memory_buffer := [] }
      = some (Nat.iterate FastAppend_body 1
          { dst := { bytes := [] }, src := ifstream_open (some [1, 2, 3]),
            memory_buffer := [] }) ∧
    (Nat.iterate FastAppend_body 1
        { dst := { bytes := [] }, src := ifstream_open (some [1, 2, 3]),
          memory_buffer := [] }).dst.bytes = [1, 2, 3] :=
  ⟨by decide,
    ((C16_loop_iterations
      { dst := { bytes := [] }, src := ifstream_open (some [1, 2, 3]), memory_buffer := [] }
      rfl rfl (by decide)).2.2.2.2 0).trans (if_neg (by decide)),
    ((C16_loop_iterations
      { dst := { bytes := [] }, src := ifstream_open (some [1, 2, 3]), memory_buffer := [] }
      rfl rfl (by decide)).2.2.2.2 1).trans (if_pos (by decide)),
    by decide⟩

/-! ### What the output depends on -/

/-- Allowing more iterations does not change the result of a loop that ends. -/
theorem FastAppend_loop_mono (fuel : Nat) :
    ∀ (fuel1 : Nat) (st r : CopyState), fuel ≤ fuel1 → FastAppend_loop fuel st = some r →
      FastAppend_loop fuel1 st = some r := by
  induction fuel with
  | zero =>
    intro fuel1 st r _ h
    by_cases he : st.src.eof = true
    · simp only [FastAppend_loop, he, if_true, Option.some.injEq] at h
      rw [← h]
      exact FastAppend_loop_of_eof fuel1 st he
    · simp [FastAppend_loop, he] at h
  | succ fuel ih =>
    intro fuel1 st r hle h
    by_cases he : st.src.eof = true
    · simp only [FastAppend_loop, he, if_true, Option.some.injEq] at h
      rw [← h]
      exact FastAppend_loop_of_eof fuel1 st he
    · cases fuel1 with
      | zero => omega
      | succ fuel1 =>
        simp only [FastAppend_loop, he, Bool.false_eq_true, if_false] at h ⊢
        exact ih fuel1 _ r (by omega) h

theorem FastAppend_mono (fuel fuel1 : Nat) (dst : ofstream) (src : ifstream)
    (r : ofstream × ifstream) (hle : fuel ≤ fuel1) (h : FastAppend fuel dst src = some r) :
    FastAppend fuel1 dst src = some r := by
  simp only [FastAppend, Option.map_eq_some'] at h ⊢
  obtain ⟨cs, hcs, hr⟩ := h
  exact ⟨cs, FastAppend_loop_mono fuel fuel1 _ cs hle hcs, hr⟩

/-- The copy pass started with more iterations allowed and another console
text returns as well, with the same output stream and the same streams. -/
theorem append_all_mono (fuel fuel1 : Nat) (hle : fuel ≤ fuel1) (hs : List handle) :
    ∀ (st st1 r : CopyPass), st1.nsp_fp = st.nsp_fp → st1.file_handles = st.file_handles →
      append_all fuel st hs = some r →
      ∃ r1, append_all fuel1 st1 hs = some r1 ∧ r1.nsp_fp = r.nsp_fp ∧
        r1.file_handles = r.file_handles := by
  induction hs with
  | nil =>
    intro st st1 r h1 h2 h
    simp only [append_all, Option.some.injEq] at h
    exact ⟨st1, rfl, by rw [h1, h], by rw [h2, h]⟩
  | cons entry rest ih =>
    intro st st1 r h1 h2 h
    simp only [append_all] at h
    cases hstep : append_entry fuel st entry with
    | none => simp [hstep] at h
    | some st2 =>
      simp only [hstep] at h
      simp only [append_entry] at hstep
      cases hfa : FastAppend fuel st.nsp_fp entry.1 with
      | none => simp [hfa] at hstep
      | some pair =>
        simp only [hfa, Option.some.injEq] at hstep
        have hfa1 := FastAppend_mono fuel fuel1 _ _ pair hle hfa
        obtain ⟨r1, hr1, hn, hf⟩ := ih st2
          { nsp_fp := pair.1,
            cout := st1.cout ++ List.replicate indentation_level 0x20 ++ entry.2
              ++ ascii " ..." ++ ascii "done\n",
            file_handles := st1.file_handles ++ [(pair.2, entry.2)] } r
          (by rw [← hstep]) (by rw [← hstep, h2]) h
        refine ⟨r1, ?_, hn, hf⟩
        simp only [append_all, append_entry, h1, hfa1]
        exact hr1

/-- In the build branch `main` is the copy pass applied to the plan. -/
theorem main_build_branch (fuel : Nat) (argv : List (List Byte)) (env : Environment)
    (hargc : 3 ≤ argv.length) (hdir : env.status (argv.getD 1 []) = file_type.directory) :
    (main fuel argv env).map (fun run => (run.status, run.nsp_fp, run.file_handles))
      = (append_all fuel
          { nsp_fp := (plan env (argv.getD 1 [])).nsp_fp,
            cout := (plan env (argv.getD 1 [])).cout, file_handles := [] }
          (plan env (argv.getD 1 [])).file_handles).map
        (fun copied => ((0 : Int), some copied.nsp_fp, copied.file_handles)) := by
  have hlt : ¬ argv.length < 3 := by omega
  have hex : fs_exists env (argv.getD 1 []) = true := by
    simp only [fs_exists, hdir]
    rfl
  simp only [main, hlt, if_false, hex, Bool.not_true, Bool.false_eq_true, hdir, ne_eq,
    not_true_eq_false]
  cases append_all fuel
      { nsp_fp := (plan env (argv.getD 1 [])).nsp_fp,
        cout := (plan env (argv.getD 1 [])).cout, file_handles := [] }
      (plan env (argv.getD 1 [])).file_handles with
  | none => rfl
  | some copied => rfl

theorem ofstream_ext (a b : ofstream) (h : a.bytes = b.bytes) : a = b := by
  cases a
  cases b
  simp only at h
  rw [h]

/-- Two runs in the build branch whose plans wrote the same bytes and hold the
same streams agree on whether they return within their bounds, as soon as
one bound is at least the other, and then on the output stream. -/
theorem main_agree (fuel fuel1 : Nat) (hle : fuel ≤ fuel1) (argv argv1 : List (List Byte))
    (env env1 : Environment)
    (hargc : 3 ≤ argv.length) (hdir : env.status (argv.getD 1 []) = file_type.directory)
    (hargc1 : 3 ≤ argv1.length)
    (hdir1 : env1.status (argv1.getD 1 []) = file_type.directory)
    (hb : (plan env1 (argv1.getD 1 [])).nsp_fp.bytes = (plan env (argv.getD 1 [])).nsp_fp.bytes)
    (hh : (plan env1 (argv1.getD 1 [])).file_handles = (plan env (argv.getD 1 [])).file_handles)
    (run : Run) (h : main fuel argv env = some run) :
    ∃ run1, main fuel1 argv1 env1 = some run1 ∧ run1.status = run.status ∧
      run1.nsp_fp = run.nsp_fp ∧ run1.file_handles = run.file_handles := by
  have hm := main_build_branch fuel argv env hargc hdir
  have hm1 := main_build_branch fuel1 argv1 env1 hargc1 hdir1
  rw [h, Option.map_some'] at hm
  cases hc : append_all fuel
      { nsp_fp := (plan env (argv.getD 1 [])).nsp_fp,
        cout := (plan env (argv.getD 1 [])).cout, file_handles := [] }
      (plan env (argv.getD 1 [])).file_handles with
  | none => rw [hc] at hm; simp at hm
  | some copied =>
    rw [hc, Option.map_some', Option.some.injEq] at hm
    obtain ⟨copied1, hc1, hn, hf⟩ := append_all_mono fuel fuel1 hle _
      { nsp_fp := (plan env (argv.getD 1 [])).nsp_fp,
        cout := (plan env (argv.getD 1 [])).cout, file_handles := [] }
      { nsp_fp := (plan env1 (argv1.getD 1 [])).nsp_fp,
        cout := (plan env1 (argv1.getD 1 [])).cout, file_handles := [] } copied
      (ofstream_ext _ _ hb) rfl hc
    rw [hh, hc1, Option.map_some'] at hm1
    cases hr1 : main fuel1 argv1 env1 with
    | none => rw [hr1] at hm1; simp at hm1
    | some run1 =>
      rw [hr1, Option.map_some', Option.some.injEq] at hm1
      have e1 := (Prod.mk.inj hm1)
      have e2 := (Prod.mk.inj e1.2)
      have f1 := (Prod.mk.inj hm)
      have f2 := (Prod.mk.inj f1.2)
      refine ⟨run1, rfl, ?_, ?_, ?_⟩
      · rw [e1.1, f1.1]
      · rw [e2.1, f2.1, hn]
      · rw [e2.2, f2.2, hf]

/-- The plans of two directories whose regular entries have the same paths
and the same readable contents wrote the same bytes and hold the same
streams. -/
theorem plan_agree (env env1 : Environment) (input_path input_path1 : List Byte)
    (hsame : ((env.directory_iterator input_path).filter
          (fun e => decide (e.type = file_type.regular))).map (fun e => (e.path, e.content))
      = ((env1.directory_iterator input_path1).filter
          (fun e => decide (e.type = file_type.regular))).map (fun e => (e.path, e.content))) :
    (plan env1 input_path1).nsp_fp.bytes = (plan env input_path).nsp_fp.bytes ∧
    (plan env1 input_path1).file_handles = (plan env input_path).file_handles := by
  have hx : ∀ (l : List directory_entry),
      l.map (fun e => (e.content, GetFilename e.path))
        = (l.map (fun e => (e.path, e.content))).map
            (fun x : List Byte × Option (List Byte) => (x.2, GetFilename x.1)) := by
    intro l
    rw [List.map_map]
    rfl
  obtain ⟨a1, a2⟩ := plan_layout (fun x : List Byte × Option (List Byte) => x.2)
    (fun x => GetFilename x.1)
    (((env.directory_iterator input_path).filter
      (fun e => decide (e.type = file_type.regular))).map (fun e => (e.path, e.content)))
    env input_path (hx _)
  obtain ⟨b1, b2⟩ := plan_layout (fun x : List Byte × Option (List Byte) => x.2)
    (fun x => GetFilename x.1)
    (((env.directory_iterator input_path).filter
      (fun e => decide (e.type = file_type.regular))).map (fun e => (e.path, e.content)))
    env1 input_path1 (by rw [hsame]; exact hx _)
  exact ⟨by rw [a1, b1], by rw [a2, b2]⟩

theorem other_builds :
    Builds other_argv other_env
      ({ path := ascii "in/sub", type := file_type.directory, content := none }
        :: sample_files.map regular_file) :=
  ⟨by decide, by decide, rfl⟩

/-! ### Entries that are not regular files -/

/-- The counter of the header after the enumeration: the number of regular
entries, reduced modulo `2 ^ 32`. -/
theorem plan_file_count (env : Environment) (input_path : List Byte) :
    (plan env input_path).header.file_count
      = ((env.directory_iterator input_path).filter
          (fun e => decide (e.type = file_type.regular))).length % 2 ^ 32 := by
  obtain ⟨_, _, _, g4, _⟩ := foldl_grab (env.directory_iterator input_path) []
    { magic := MakeMagic 0x50 0x46 0x53 0x30, file_count := 0, string_table_sz := 0,
      padding := 0 }
  obtain ⟨b1, _⟩ := foldl_grab_lt (env.directory_iterator input_path) []
    { magic := MakeMagic 0x50 0x46 0x53 0x30, file_count := 0, string_table_sz := 0,
      padding := 0 } (by norm_num) (by norm_num)
  simp only [Nat.zero_add] at g4
  rw [Nat.mod_eq_of_lt b1] at g4
  exact g4

/-- The counter found in bytes 4 to 7 of what the plan wrote, and of every
output that extends it. -/
theorem plan_file_count_field (env : Environment) (input_path : List Byte)
    (suffix : List Byte) :
    unLE ((((plan env input_path).nsp_fp.bytes ++ suffix).drop 4).take 4)
      = ((env.directory_iterator input_path).filter
          (fun e => decide (e.type = file_type.regular))).length % 2 ^ 32 := by
  obtain ⟨p1, _⟩ := plan_layout (fun e : directory_entry => e.content)
    (fun e => GetFilename e.path)
    ((env.directory_iterator input_path).filter (fun e => decide (e.type = file_type.regular)))
    env input_path rfl
  rw [p1]
  simp only [List.append_assoc]
  rw [slice _ _ _ 4 4 (LE_length _ _) (LE_length _ _), unLE_LE]
  norm_num

theorem filter_regular_idem (entries : List directory_entry) :
    (entries.filter (fun e => decide (e.type = file_type.regular))).filter
        (fun e => decide (e.type = file_type.regular))
      = entries.filter (fun e => decide (e.type = file_type.regular)) := by
  rw [List.filter_filter]
  simp

/-- A run on a listing and a run on the same listing without its entries
that are not regular files give the same result for the same bound. -/
theorem main_filter_regular (fuel : Nat) (argv1 argv2 : List (List Byte))
    (env1 env2 : Environment) (entries : List directory_entry)
    (hb1 : Builds argv1 env1 entries)
    (hb2 : Builds argv2 env2 (entries.filter (fun e => decide (e.type = file_type.regular)))) :
    (main fuel argv1 env1).map (fun run => (run.status, run.nsp_fp))
      = (main fuel argv2 env2).map (fun run => (run.status, run.nsp_fp)) := by
  obtain ⟨hargc1, hdir1, hent1⟩ := hb1
  obtain ⟨hargc2, hdir2, hent2⟩ := hb2
  have hsame : ((env1.directory_iterator (argv1.getD 1 [])).filter
        (fun e => decide (e.type = file_type.regular))).map (fun e => (e.path, e.content))
      = ((env2.directory_iterator (argv2.getD 1 [])).filter
        (fun e => decide (e.type = file_type.regular))).map (fun e => (e.path, e.content)) := by
    rw [hent1, hent2, filter_regular_idem]
  obtain ⟨pb, ph⟩ := plan_agree env1 env2 (argv1.getD 1 []) (argv2.getD 1 []) hsame
  cases h1 : main fuel argv1 env1 with
  | some run1 =>
    obtain ⟨run2, h2, hs, hn, _⟩ := main_agree fuel fuel (le_refl _) argv1 argv2 env1 env2
      hargc1 hdir1 hargc2 hdir2 pb ph run1 h1
    rw [h2, Option.map_some', Option.map_some', hs, hn]
  | none =>
    cases h2 : main fuel argv2 env2 with
    | none => rfl
    | some run2 =>
      obtain ⟨run1, h1a, _⟩ := main_agree fuel fuel (le_refl _) argv2 argv1 env2 env1
        hargc2 hdir2 hargc1 hdir1 pb.symm ph.symm run2 h2
      rw [h1] at h1a
      simp at h1a

/-- C14: entries that are not regular files contribute nothing. For every
listing and every bound on the loop iterations, the run on the listing and the
run on the listing without its non-regular entries end alike and with the same
output bytes; and for a number of regular entries that the four bytes of the
field can hold, `file_count` is that number, in the header held after the
enumeration and in bytes 4 to 7 of every output. Whatever the number, the
field holds it reduced modulo `2 ^ 32`. -/
theorem C14_nonregular_ignored (fuel : Nat) (argv1 argv2 : List (List Byte))
    (env1 env2 : Environment) (entries : List directory_entry)
    (hb1 : Builds argv1 env1 entries)
    (hb2 : Builds argv2 env2 (entries.filter (fun e => decide (e.type = file_type.regular)))) :
    (main fuel argv1 env1).map (fun run => (run.status, run.nsp_fp))
      = (main fuel argv2 env2).map (fun run => (run.status, run.nsp_fp)) ∧
    ((entries.filter (fun e => decide (e.type = file_type.regular))).length < 2 ^ 32 →
      (plan env1 (argv1.getD 1 [])).header.file_count
        = (entries.filter (fun e => decide (e.type = file_type.regular))).length ∧
      ∀ run fp, main fuel argv1 env1 = some run → run.nsp_fp = some fp →
        unLE ((fp.bytes.drop 4).take 4)
          = (entries.filter (fun e => decide (e.type = file_type.regular))).length) ∧
    (plan env1 (argv1.getD 1 [])).header.file_count
      = (entries.filter (fun e => decide (e.type = file_type.regular))).length % 2 ^ 32 ∧
    (∀ run fp, main fuel argv1 env1 = some run → run.nsp_fp = some fp →
      unLE ((fp.bytes.drop 4).take 4)
        = (entries.filter (fun e => decide (e.type = file_type.regular))).length % 2 ^ 32) := by
  have hcount := plan_file_count env1 (argv1.getD 1 [])
  rw [hb1.2.2] at hcount
  have hfield : ∀ run fp, main fuel argv1 env1 = some run → run.nsp_fp = some fp →
      unLE ((fp.bytes.drop 4).take 4)
        = (entries.filter (fun e => decide (e.type = file_type.regular))).length % 2 ^ 32 := by
    intro run fp h hfp
    obtain ⟨copied, hc, hfpc⟩ := main_some_nsp_fp fuel argv1 env1 run fp h hfp
    obtain ⟨suffix, hs⟩ := append_all_extends fuel _ _ _ hc
    have hf := plan_file_count_field env1 (argv1.getD 1 []) suffix
    rw [hb1.2.2] at hf
    rw [hfpc, hs]
    exact hf
  refine ⟨main_filter_regular fuel argv1 argv2 env1 env2 entries hb1 hb2, ?_, hcount, hfield⟩
  intro hlt
  refine ⟨by rw [hcount, Nat.mod_eq_of_lt hlt], ?_⟩
  intro run fp h hfp
  rw [hfield run fp h hfp, Nat.mod_eq_of_lt hlt]

/-- Witness of C14: the listing with a sub-directory and the two sample files
gives the sample container, as the listing of the two files alone does, and
its `file_count` is 2, in the header after the enumeration and in bytes 4 to 7
of the output. -/
theorem C14_nonregular_ignored_witness :
    Builds other_argv other_env
      ({ path := ascii "in/sub", type := file_type.directory, content := none }
        :: sample_files.map regular_file) ∧
    Builds sample_argv sample_env
      (({ path := ascii "in/sub", type := file_type.directory, content := none }
        :: sample_files.map regular_file).filter
          (fun e => decide (e.type = file_type.regular))) ∧
    (main 1 other_argv other_env).map (fun run => (run.status, run.nsp_fp))
      = some (0, some { bytes := sample_archive }) ∧
    (main 1 sample_argv sample_env).map (fun run => (run.status, run.nsp_fp))
      = some (0, some { bytes := sample_archive }) ∧
    (plan other_env (other_argv.getD 1 [])).header.file_count = 2 ∧
    unLE ((sample_archive.drop 4).take 4) = 2 :=
  ⟨other_builds, sample_builds,
    ((C14_nonregular_ignored 1 other_argv sample_argv other_env sample_env _ other_builds
      sample_builds).1.trans
        (main_files_archive 1 sample_argv sample_env sample_files sample_builds
          sample_fuel)).trans (by decide),
    (main_files_archive 1 sample_argv sample_env sample_files sample_builds sample_fuel).trans
      (by decide),
    ((C14_nonregular_ignored 1 other_argv sample_argv other_env sample_env _ other_builds
      sample_builds).2.1 (by decide)).1.trans (by decide),
    by decide⟩

/-! ### The streams before and after the copy pass -/

/-- The run on readable regular files, with the final state of its streams. -/
theorem main_files_handles (fuel : Nat) (argv : List (List Byte)) (env : Environment)
    (files : List (List Byte × List Byte)) (hrun : Builds argv env (files.map regular_file))
    (hfuel : ∀ f ∈ files, f.2.length / buffer_size < fuel) :
    (plan env (argv.getD 1 [])).file_handles
      = files.map (fun f => (ifstream_open (some f.2), GetFilename f.1)) ∧
    ∃ run, main fuel argv env = some run ∧ run.nsp_fp = some { bytes := archive files } ∧
      run.file_handles = files.map (fun f =>
        (({ file := f.2, pos := f.2.length, eofbit := true, failbit := true } : ifstream),
          GetFilename f.1)) := by
  obtain ⟨run, h1, _, h3⟩ := main_files fuel argv env files hrun hfuel
  obtain ⟨hargc, hdir, hent⟩ := hrun
  have hxs := regular_files_filter files
  rw [← hent] at hxs
  obtain ⟨_, p2⟩ := plan_layout (fun f : List Byte × List Byte => some f.2)
    (fun f => GetFilename f.1) files env (argv.getD 1 []) hxs
  obtain ⟨run1, k1, _, _, k4⟩ := main_of_plan (fun f : List Byte × List Byte => f.2)
    (fun f => GetFilename f.1) files fuel argv env hargc hdir p2 hfuel
  rw [h1, Option.some.injEq] at k1
  subst k1
  exact ⟨p2, run, h1, h3, k4⟩

/-- C15: the size-measuring pass does not consume a readable source: after
`describe` the stream of the `i`-th file is at position 0 with its content
unchanged and no state flag, in `describe` itself and in the streams `main`
holds before the copy pass; the copy pass then reads the stream from 0 to
its end, and the number of bytes it reads, the final position, is the
`file_size` recorded in the `i`-th descriptor. A file has fewer than `2 ^ 64`
bytes. -/
theorem C15_sources_not_consumed (fuel : Nat) (argv : List (List Byte)) (env : Environment)
    (files : List (List Byte × List Byte))
    (hrun : Builds argv env (files.map regular_file))
    (hfuel : ∀ f ∈ files, f.2.length / buffer_size < fuel)
    (i : Nat) (hi : i < files.length) (hlen : files[i].2.length < 2 ^ 64) :
    (∀ st : TableState,
      (describe st (ifstream_open (some files[i].2), GetFilename files[i].1)).2
        = (({ file := files[i].2, pos := 0, eofbit := false, failbit := false } : ifstream),
            GetFilename files[i].1)) ∧
    (plan env (argv.getD 1 [])).file_handles[i]?
      = some (({ file := files[i].2, pos := 0, eofbit := false, failbit := false } : ifstream),
          GetFilename files[i].1) ∧
    ∃ run out, main fuel argv env = some run ∧ run.nsp_fp = some { bytes := out } ∧
      run.file_handles[i]?
        = some (({ file := files[i].2, pos := files[i].2.length, eofbit := true,
                   failbit := true } : ifstream), GetFilename files[i].1) ∧
      unLE ((out.drop (16 + 24 * i + 8)).take 8) = files[i].2.length := by
  obtain ⟨hp, run, h1, h2, h3⟩ := main_files_handles fuel argv env files hrun hfuel
  obtain ⟨_, d2, _, _⟩ := archive_descriptor_fields files i hi
  refine ⟨?_, ?_, run, archive files, h1, h2, ?_, ?_⟩
  · intro st
    rw [describe_fresh]
    rfl
  · rw [hp, List.getElem?_map, List.getElem?_eq_getElem hi]
    rfl
  · rw [h3, List.getElem?_map, List.getElem?_eq_getElem hi]
    rfl
  · rw [d2]
    exact unLE_LE8 _ hlen

/-- Witness of C15: the second sample file, measured as 2 bytes, is at
position 0 before the copy pass and at position 2 after it. -/
theorem C15_sources_not_consumed_witness :
    Builds sample_argv sample_env (sample_files.map regular_file) ∧
    (plan sample_env (sample_argv.getD 1 [])).file_handles[1]?
      = some (({ file := [0x41, 0x42], pos := 0, eofbit := false, failbit := false } : ifstream),
          ascii "a.txt") ∧
    ∃ run out, main 1 sample_argv sample_env = some run ∧ run.nsp_fp = some { bytes := out } ∧
      run.file_handles[1]?
        = some (({ file := [0x41, 0x42], pos := 2, eofbit := true, failbit := true } : ifstream),
            ascii "a.txt") ∧
      unLE ((out.drop (16 + 24 * 1 + 8)).take 8) = 2 :=
  ⟨sample_builds,
    (C15_sources_not_consumed 1 sample_argv sample_env sample_files sample_builds sample_fuel 1
      (by decide) (by decide)).2.1.trans (by decide),
    match (C15_sources_not_consumed 1 sample_argv sample_env sample_files sample_builds
      sample_fuel 1 (by decide) (by decide)).2.2 with
    | ⟨run, out, h1, h2, h3, h4⟩ => ⟨run, out, h1, h2, h3.trans (by decide), h4⟩⟩

/-! ### Tiling -/

theorem sum_take_succ {α : Type} (f : α → Nat) (l : List α) :
    ∀ (i : Nat) (hi : i < l.length),
      ((l.take (i + 1)).map f).sum = ((l.take i).map f).sum + f l[i] := by
  induction l with
  | nil => intro i hi; simp at hi
  | cons a l ih =>
    intro i hi
    cases i with
    | zero => simp
    | succ i =>
      have := ih i (by simpa using hi)
      simp only [List.take_succ_cons, List.map_cons, List.sum_cons, List.getElem_cons_succ]
      omega

theorem contents_size_take_succ (files : List (List Byte × List Byte)) (i : Nat)
    (hi : i < files.length) :
    contents_size (files.take (i + 1)) = contents_size (files.take i) + files[i].2.length := by
  have h := sum_take_succ (fun f : List Byte × List Byte => f.2.length) files i hi
  unfold contents_size
  exact h

theorem names_size_take_succ (files : List (List Byte × List Byte)) (i : Nat)
    (hi : i < files.length) :
    names_size (files.take (i + 1))
      = names_size (files.take i) + ((GetFilename files[i].1).length + 1) := by
  have h := sum_take_succ (fun f : List Byte × List Byte => (GetFilename f.1).length + 1)
    files i hi
  unfold names_size
  exact h

/-- C17: for readable regular files within the field widths the descriptors
tile their regions: for every `i` with a successor, `file_offset_i +
file_size_i = file_offset_(i+1)` and `string_table_offset_i + len(name_i) + 1
= string_table_offset_(i+1)`; for the last `i`, `file_offset + file_size` is
the length of the content region and `string_table_offset + len(name) + 1` is
the header's `string_table_size`; hence for every `i` the content and the
terminated name end inside the content region and the string table. All
values are read back from the output. -/
theorem C17_tiling (fuel : Nat) (argv : List (List Byte)) (env : Environment)
    (files : List (List Byte × List Byte))
    (hrun : Builds argv env (files.map regular_file))
    (hnames : (files.map (fun f => (GetFilename f.1).length + 1)).sum < 2 ^ 32)
    (hsizes : (files.map (fun f => f.2.length)).sum < 2 ^ 64)
    (hfuel : ∀ f ∈ files, f.2.length / buffer_size < fuel) :
    ∃ out, (main fuel argv env).map (fun run => run.nsp_fp) = some (some { bytes := out }) ∧
      (∀ (i : Nat) (hi : i < files.length), i + 1 < files.length →
        unLE ((out.drop (16 + 24 * i)).take 8) + unLE ((out.drop (16 + 24 * i + 8)).take 8)
          = unLE ((out.drop (16 + 24 * (i + 1))).take 8) ∧
        unLE ((out.drop (16 + 24 * i + 16)).take 4) + (GetFilename files[i].1).length + 1
          = unLE ((out.drop (16 + 24 * (i + 1) + 16)).take 4)) ∧
      (∀ (i : Nat) (hi : i < files.length), i + 1 = files.length →
        unLE ((out.drop (16 + 24 * i)).take 8) + unLE ((out.drop (16 + 24 * i + 8)).take 8)
          = (out.drop (16 + 24 * files.length + unLE ((out.drop 8).take 4))).length ∧
        unLE ((out.drop (16 + 24 * i + 16)).take 4) + (GetFilename files[i].1).length + 1
          = unLE ((out.drop 8).take 4)) ∧
      (∀ (i : Nat) (hi : i < files.length),
        unLE ((out.drop (16 + 24 * i)).take 8) + unLE ((out.drop (16 + 24 * i + 8)).take 8)
          ≤ (out.drop (16 + 24 * files.length + unLE ((out.drop 8).take 4))).length ∧
        unLE ((out.drop (16 + 24 * i + 16)).take 4) + (GetFilename files[i].1).length + 1
          ≤ unLE ((out.drop 8).take 4)) := by
  have hnames1 : names_size files < 2 ^ 32 := hnames
  have hsizes1 : contents_size files < 2 ^ 64 := hsizes
  obtain ⟨_, f2⟩ := archive_header_fields files
  obtain ⟨_, t2⟩ := archive_tail files
  have hsts : unLE (((archive files).drop 8).take 4) = names_size files := by
    rw [f2]; exact unLE_LE4 _ hnames1
  have hregion : ((archive files).drop
      (16 + 24 * files.length + unLE (((archive files).drop 8).take 4))).length
      = contents_size files := by
    rw [hsts, t2, content_section_length]
  have hfield : ∀ (i : Nat) (hi : i < files.length),
      unLE (((archive files).drop (16 + 24 * i)).take 8) = contents_size (files.take i) ∧
      unLE (((archive files).drop (16 + 24 * i + 8)).take 8) = files[i].2.length ∧
      unLE (((archive files).drop (16 + 24 * i + 16)).take 4) = names_size (files.take i) := by
    intro i hi
    obtain ⟨d1, d2, d3, _⟩ := archive_descriptor_fields files i hi
    have hc := contents_size_take_le files i hi
    have hn := names_size_take_le files i hi
    rw [d1, d2, d3]
    exact ⟨unLE_LE8 _ (by omega), unLE_LE8 _ (by omega), unLE_LE4 _ (by omega)⟩
  refine ⟨archive files, main_files_out fuel argv env files hrun hfuel, ?_, ?_, ?_⟩
  · intro i hi hi1
    obtain ⟨a1, a2, a3⟩ := hfield i hi
    obtain ⟨b1, _, b3⟩ := hfield (i + 1) hi1
    rw [a1, a2, a3, b1, b3, contents_size_take_succ files i hi, names_size_take_succ files i hi]
    exact ⟨rfl, by omega⟩
  · intro i hi hlast
    obtain ⟨a1, a2, a3⟩ := hfield i hi
    have hall : files.take (i + 1) = files := List.take_of_length_le (by omega)
    have hc := contents_size_take_succ files i hi
    have hn := names_size_take_succ files i hi
    rw [hall] at hc hn
    rw [a1, a2, a3, hregion, hsts]
    exact ⟨hc.symm, by omega⟩
  · intro i hi
    obtain ⟨a1, a2, a3⟩ := hfield i hi
    have hc := contents_size_take_le files i hi
    have hn := names_size_take_le files i hi
    rw [a1, a2, a3, hregion, hsts]
    exact ⟨hc, by omega⟩

/-- Witness of C17: in the sample container the first descriptor ends where
the second begins (0 + 3 = 3 and 0 + 5 + 1 = 6), and the second ends with its
regions (3 + 2 = 5 and 6 + 5 + 1 = 12). -/
theorem C17_tiling_witness :
    Builds sample_argv sample_env (sample_files.map regular_file) ∧
    ∃ out, (main 1 sample_argv sample_env).map (fun run => run.nsp_fp)
        = some (some { bytes := out }) ∧
      unLE ((out.drop (16 + 24 * 0)).take 8) + unLE ((out.drop (16 + 24 * 0 + 8)).take 8)
        = unLE ((out.drop (16 + 24 * (0 + 1))).take 8) ∧
      unLE ((out.drop (16 + 24 * 1 + 16)).take 4) + 5 + 1 = unLE ((out.drop 8).take 4) :=
  ⟨sample_builds,
    match C17_tiling 1 sample_argv sample_env sample_files sample_builds (by decide) (by decide)
      sample_fuel with
    | ⟨out, h, h1, h2, _⟩ =>
      ⟨out, h, (h1 0 (by decide) (by decide)).1, (h2 1 (by decide) (by decide)).2⟩⟩

/-! ### The output file among the files of the run -/

/-- A stream whose file is not the output file finds it as it was opened. -/
theorem now_of_fresh (fs : FileSystem) (output_file : List Byte) (nsp_fp : ofstream_fs)
    (src : ifstream_fs) (h : fs.same_file src.path output_file = false) :
    src.now fs output_file nsp_fp = src.stream := by
  simp only [ifstream_fs.now, h, Bool.and_false, Bool.false_eq_true, if_false]

theorem write_opened (d : ofstream) (s : List Byte) (n : Nat) :
    d.opened.write s n = (d.write s n).opened := rfl

theorem FastAppend_body_fs_fresh (fs : FileSystem) (output_file p : List Byte)
    (h : fs.same_file p output_file = false) (st : CopyState) :
    FastAppend_body_fs fs output_file (st.opened p) = (FastAppend_body st).opened p := by
  simp only [FastAppend_body_fs, FastAppend_body, CopyState.opened]
  rw [now_of_fresh fs output_file _ _ h]
  rfl

theorem FastAppend_loop_fs_fresh (fs : FileSystem) (output_file p : List Byte)
    (h : fs.same_file p output_file = false) (fuel : Nat) :
    ∀ st : CopyState,
      FastAppend_loop_fs fs output_file fuel (st.opened p)
        = (FastAppend_loop fuel st).map (CopyState.opened p) := by
  induction fuel with
  | zero =>
    intro st
    by_cases he : st.src.eof = true
    · have he1 : (st.opened p).src.stream.eof = true := he
      simp only [FastAppend_loop_fs, FastAppend_loop, he, he1, if_true, Option.map_some']
    · have he1 : ¬ (st.opened p).src.stream.eof = true := he
      rw [Bool.not_eq_true] at he he1
      simp only [FastAppend_loop_fs, FastAppend_loop, he, he1, Bool.false_eq_true, if_false,
        Option.map_none']
  | succ fuel ih =>
    intro st
    by_cases he : st.src.eof = true
    · have he1 : (st.opened p).src.stream.eof = true := he
      simp only [FastAppend_loop_fs, FastAppend_loop, he, he1, if_true, Option.map_some']
    · have he1 : ¬ (st.opened p).src.stream.eof = true := he
      rw [Bool.not_eq_true] at he he1
      simp only [FastAppend_loop_fs, FastAppend_loop, he, he1, Bool.false_eq_true, if_false]
      rw [FastAppend_body_fs_fresh fs output_file p h st]
      exact ih _

theorem FastAppend_fs_fresh (fs : FileSystem) (output_file p : List Byte)
    (h : fs.same_file p output_file = false) (fuel : Nat) (d : ofstream) (s : ifstream) :
    FastAppend_fs fs output_file fuel d.opened { stream := s, path := p }
      = (FastAppend fuel d s).map
          (fun r => (r.1.opened, ({ stream := r.2, path := p } : ifstream_fs))) := by
  have hl := FastAppend_loop_fs_fresh fs output_file p h fuel
    { dst := d, src := s, memory_buffer := List.replicate buffer_size 0 }
  simp only [FastAppend_fs, FastAppend]
  simp only [CopyState.opened] at hl
  rw [hl, Option.map_map, Option.map_map]
  rfl

theorem describe_fs_fresh (fs : FileSystem) (output_file p : List Byte)
    (h : fs.same_file p output_file = false) (st : TableState) (s : ifstream)
    (name : List Byte) :
    describe_fs fs output_file st.opened ({ stream := s, path := p }, name)
      = ((describe st (s, name)).1.opened,
          ({ stream := (describe st (s, name)).2.1, path := p }, name)) := by
  simp only [describe_fs, describe, TableState.opened]
  rw [now_of_fresh fs output_file _ _ h]
  rfl

theorem describe_all_fs_fresh (fs : FileSystem) (output_file : List Byte)
    (hs : List handle_fs) :
    ∀ (st : TableState), (∀ h ∈ hs, fs.same_file h.1.path output_file = false) →
      (describe_all_fs fs output_file st.opened hs).1
          = (describe_all st (hs.map handle_fs_plain)).1.opened ∧
        (describe_all_fs fs output_file st.opened hs).2.map handle_fs_plain
          = (describe_all st (hs.map handle_fs_plain)).2 ∧
        (describe_all_fs fs output_file st.opened hs).2.map (fun h => h.1.path)
          = hs.map (fun h => h.1.path) := by
  induction hs with
  | nil =>
    intro st _
    exact ⟨rfl, rfl, rfl⟩
  | cons entry rest ih =>
    intro st hfresh
    have e := describe_fs_fresh fs output_file entry.1.path
      (hfresh entry (List.mem_cons_self _ _)) st entry.1.stream entry.2
    have e1 : describe_fs fs output_file st.opened entry
        = ((describe st (handle_fs_plain entry)).1.opened,
            ({ stream := (describe st (handle_fs_plain entry)).2.1, path := entry.1.path },
              entry.2)) := e
    obtain ⟨i1, i2, i3⟩ := ih (describe st (handle_fs_plain entry)).1
      (fun h hh => hfresh h (List.mem_cons_of_mem _ hh))
    simp only [describe_all_fs, describe_all, List.map_cons, e1]
    refine ⟨i1, ?_, ?_⟩
    · rw [i2]
      rfl
    · rw [i3]

theorem write_string_table_fs_opened (table : List (List Byte)) :
    ∀ d : ofstream, write_string_table_fs d.opened table
      = (write_string_table d table).opened := by
  induction table with
  | nil => intro d; rfl
  | cons str rest ih =>
    intro d
    simp only [write_string_table_fs, write_string_table, List.foldl_cons, write_opened]
    exact ih _

theorem append_all_fs_fresh (fs : FileSystem) (output_file : List Byte) (fuel : Nat)
    (hs : List handle_fs) :
    ∀ (st : CopyPass_fs), st.nsp_fp.failbit = false →
      (∀ h ∈ hs, fs.same_file h.1.path output_file = false) →
      (append_all_fs fs output_file fuel st hs).map CopyPass_fs.plain
          = append_all fuel st.plain (hs.map handle_fs_plain) ∧
        ∀ r, append_all_fs fs output_file fuel st hs = some r → r.nsp_fp.failbit = false := by
  induction hs with
  | nil =>
    intro st hst _
    refine ⟨rfl, ?_⟩
    intro r hr
    simp only [append_all_fs, Option.some.injEq] at hr
    rw [← hr]
    exact hst
  | cons entry rest ih =>
    intro st hst hfresh
    have hd : st.nsp_fp = st.nsp_fp.stream.opened := by
      cases hn : st.nsp_fp with
      | mk d f =>
        rw [hn] at hst
        simp only at hst
        rw [hst]
        rfl
    have e := FastAppend_fs_fresh fs output_file entry.1.path
      (hfresh entry (List.mem_cons_self _ _)) fuel st.nsp_fp.stream entry.1.stream
    rw [← hd] at e
    have e1 : FastAppend_fs fs output_file fuel st.nsp_fp entry.1
        = (FastAppend fuel st.nsp_fp.stream entry.1.stream).map
          (fun r => (r.1.opened, ({ stream := r.2, path := entry.1.path } : ifstream_fs))) := e
    cases hfa : FastAppend fuel st.nsp_fp.stream entry.1.stream with
    | none =>
      rw [hfa, Option.map_none'] at e1
      have a1 : append_all_fs fs output_file fuel st (entry :: rest) = none := by
        simp only [append_all_fs, append_entry_fs, e1]
      have a2 : append_all fuel st.plain (List.map handle_fs_plain (entry :: rest)) = none := by
        simp only [append_all, append_entry, List.map_cons, handle_fs_plain, CopyPass_fs.plain,
          hfa]
      rw [a1, a2]
      refine ⟨rfl, ?_⟩
      intro r hr
      simp at hr
    | some pair =>
      rw [hfa, Option.map_some'] at e1
      obtain ⟨i1, i2⟩ := ih
        { nsp_fp := pair.1.opened,
          cout := st.cout ++ List.replicate indentation_level 0x20 ++ entry.2 ++ ascii " ..."
            ++ ascii "done\n",
          file_handles := st.file_handles ++ [({ stream := pair.2, path := entry.1.path },
            entry.2)] }
        rfl (fun h hh => hfresh h (List.mem_cons_of_mem _ hh))
      have a1 : append_all_fs fs output_file fuel st (entry :: rest)
          = append_all_fs fs output_file fuel
              { nsp_fp := pair.1.opened,
                cout := st.cout ++ List.replicate indentation_level 0x20 ++ entry.2
                  ++ ascii " ..." ++ ascii "done\n",
                file_handles := st.file_handles ++ [({ stream := pair.2, path := entry.1.path },
                  entry.2)] } rest := by
        simp only [append_all_fs, append_entry_fs, e1]
      have a2 : append_all fuel st.plain (List.map handle_fs_plain (entry :: rest))
          = append_all fuel
              (CopyPass_fs.plain
                { nsp_fp := pair.1.opened,
                  cout := st.cout ++ List.replicate indentation_level 0x20 ++ entry.2
                    ++ ascii " ..." ++ ascii "done\n",
                  file_handles :=
                    st.file_handles ++ [({ stream := pair.2, path := entry.1.path }, entry.2)] })
              (rest.map handle_fs_plain) := by
        simp only [append_all, append_entry, List.map_cons, handle_fs_plain, CopyPass_fs.plain,
          hfa, List.map_append, List.map_nil, ofstream.opened]
      rw [a1, a2]
      exact ⟨i1, i2⟩

theorem grab_fs_plain (acc : List handle_fs × PFS0Header) (file : directory_entry) :
    grab (acc.1.map handle_fs_plain, acc.2) file
        = ((grab_fs acc file).1.map handle_fs_plain, (grab_fs acc file).2) ∧
      (grab_fs acc file).1.map (fun h => h.1.path)
        = acc.1.map (fun h => h.1.path)
          ++ ([file].filter (fun e => decide (e.type = file_type.regular))).map
              (fun e => e.path) := by
  by_cases h : file.type = file_type.regular
  · simp only [grab, grab_fs, h, if_true, List.map_append, List.map_cons, List.map_nil,
      List.filter_cons, List.filter_nil, decide_True]
    constructor <;> trivial
  · simp only [grab, grab_fs, h, if_false, List.filter_cons, List.filter_nil, decide_False,
      List.map_nil, List.append_nil, Bool.false_eq_true]
    constructor <;> trivial

theorem foldl_grab_fs (entries : List directory_entry) :
    ∀ (acc : List handle_fs × PFS0Header),
      (entries.foldl grab_fs acc).1.map handle_fs_plain
          = (entries.foldl grab (acc.1.map handle_fs_plain, acc.2)).1 ∧
        (entries.foldl grab_fs acc).2
          = (entries.foldl grab (acc.1.map handle_fs_plain, acc.2)).2 ∧
        (entries.foldl grab_fs acc).1.map (fun h => h.1.path)
          = acc.1.map (fun h => h.1.path)
            ++ (entries.filter (fun e => decide (e.type = file_type.regular))).map
                (fun e => e.path) := by
  induction entries with
  | nil =>
    intro acc
    simp only [List.foldl_nil, List.filter_nil, List.map_nil, List.append_nil, and_self]
  | cons file rest ih =>
    intro acc
    obtain ⟨s1, s2⟩ := grab_fs_plain acc file
    obtain ⟨i1, i2, i3⟩ := ih (grab_fs acc file)
    simp only [List.foldl_cons]
    rw [s1]
    refine ⟨i1, i2, ?_⟩
    rw [i3, s2, List.append_assoc, ← List.map_append, ← List.filter_append]
    rfl

/-- When the output file can be opened and is none of the regular entries of
the directory, lines 63 to 117 act on the file system as `plan` says. -/
theorem plan_fs_fresh (fs : FileSystem) (input_path output_file : List Byte)
    (hopen : fs.ofstream_opens output_file = true)
    (hfresh : ∀ e ∈ fs.env.directory_iterator input_path, e.type = file_type.regular →
      fs.same_file e.path output_file = false) :
    (plan_fs fs input_path output_file).nsp_fp = (plan fs.env input_path).nsp_fp.opened ∧
    (plan_fs fs input_path output_file).file_handles.map handle_fs_plain
      = (plan fs.env input_path).file_handles ∧
    (plan_fs fs input_path output_file).cout = (plan fs.env input_path).cout ∧
    (plan_fs fs input_path output_file).header = (plan fs.env input_path).header ∧
    ∀ h ∈ (plan_fs fs input_path output_file).file_handles,
      fs.same_file h.1.path output_file = false := by
  obtain ⟨g1, g2, g3⟩ := foldl_grab_fs (fs.env.directory_iterator input_path)
    ([], { magic := MakeMagic 0x50 0x46 0x53 0x30, file_count := 0, string_table_sz := 0,
           padding := 0 })
  simp only [List.map_nil, List.nil_append] at g1 g2 g3
  have o : ofstream_open fs output_file = ofstream.opened { bytes := [] } := by
    simp only [ofstream_open, hopen]
    rfl
  have hG : ∀ h ∈ ((fs.env.directory_iterator input_path).foldl grab_fs
      ([], { magic := MakeMagic 0x50 0x46 0x53 0x30, file_count := 0, string_table_sz := 0,
             padding := 0 })).1, fs.same_file h.1.path output_file = false := by
    intro h hh
    have hp : h.1.path ∈ (((fs.env.directory_iterator input_path).foldl grab_fs
        ([], { magic := MakeMagic 0x50 0x46 0x53 0x30, file_count := 0, string_table_sz := 0,
               padding := 0 })).1).map (fun h => h.1.path) :=
      List.mem_map.mpr ⟨h, hh, rfl⟩
    rw [g3] at hp
    obtain ⟨e, he, hpe⟩ := List.mem_map.mp hp
    obtain ⟨hmem, hreg⟩ := List.mem_filter.mp he
    rw [← hpe]
    exact hfresh e hmem (by simpa using hreg)
  obtain ⟨d1, d2, d3⟩ := describe_all_fs_fresh fs output_file
    ((fs.env.directory_iterator input_path).foldl grab_fs
      ([], { magic := MakeMagic 0x50 0x46 0x53 0x30, file_count := 0, string_table_sz := 0,
             padding := 0 })).1
    { nsp_fp := ofstream.write { bytes := [] }
        ((fs.env.directory_iterator input_path).foldl grab
          ([], { magic := MakeMagic 0x50 0x46 0x53 0x30, file_count := 0, string_table_sz := 0,
                 padding := 0 })).2.image 16,
      file_offset := 0, string_table := [], string_table_sz := 0 } hG
  rw [g1] at d1 d2
  simp only [plan_fs, plan, o, write_opened, g2]
  simp only [TableState.opened] at d1 d2 d3
  rw [d1]
  refine ⟨write_string_table_fs_opened _ _, d2, trivial, trivial, ?_⟩
  intro h hh
  have hp : h.1.path ∈ List.map (fun h => h.1.path)
      ((fs.env.directory_iterator input_path).foldl grab_fs
        ([], { magic := MakeMagic 0x50 0x46 0x53 0x30, file_count := 0, string_table_sz := 0,
               padding := 0 })).1 := by
    rw [← d3]
    exact List.mem_map.mpr ⟨h, hh, rfl⟩
  obtain ⟨h0, hh0, hp0⟩ := List.mem_map.mp hp
  rw [← hp0]
  exact hG h0 hh0

/-- When the output file can be opened and is none of the regular entries of
the input directory, a run on the file system is the run of `main` on its
surroundings, and its output stream has not failed. -/
theorem main_fs_fresh (fuel : Nat) (argv : List (List Byte)) (fs : FileSystem)
    (hopen : fs.ofstream_opens (argv.getD 2 []) = true)
    (hfresh : ∀ e ∈ fs.env.directory_iterator (argv.getD 1 []), e.type = file_type.regular →
      fs.same_file e.path (argv.getD 2 []) = false) :
    (main_fs fuel argv fs).map Run_fs.plain = main fuel argv fs.env ∧
    ∀ run fp, main_fs fuel argv fs = some run → run.nsp_fp = some fp → fp.failbit = false := by
  by_cases hargc : argv.length < 3
  · simp only [main_fs, main, hargc, if_true, Option.map_some', Option.some.injEq]
    refine ⟨rfl, ?_⟩
    intro run fp hrun hfp
    rw [← hrun] at hfp
    simp at hfp
  by_cases hex : fs_exists fs.env (argv.getD 1 []) = true
  swap
  · rw [Bool.not_eq_true] at hex
    simp only [main_fs, main, hargc, if_false, hex, Bool.not_false, if_true, Option.map_some',
      Option.some.injEq]
    refine ⟨rfl, ?_⟩
    intro run fp hrun hfp
    rw [← hrun] at hfp
    simp at hfp
  by_cases hdir : fs.env.status (argv.getD 1 []) = file_type.directory
  swap
  · simp only [main_fs, main, hargc, if_false, hex, Bool.not_true, Bool.false_eq_true, ne_eq,
      hdir, not_false_eq_true, if_true, Option.map_some', Option.some.injEq]
    refine ⟨rfl, ?_⟩
    intro run fp hrun hfp
    rw [← hrun] at hfp
    simp at hfp
  obtain ⟨p1, p2, p3, _, p5⟩ := plan_fs_fresh fs (argv.getD 1 []) (argv.getD 2 []) hopen hfresh
  obtain ⟨a1, a2⟩ := append_all_fs_fresh fs (argv.getD 2 []) fuel
    (plan_fs fs (argv.getD 1 []) (argv.getD 2 [])).file_handles
    { nsp_fp := (plan_fs fs (argv.getD 1 []) (argv.getD 2 [])).nsp_fp,
      cout := (plan_fs fs (argv.getD 1 []) (argv.getD 2 [])).cout, file_handles := [] }
    (by rw [p1]; rfl) p5
  have hst : CopyPass_fs.plain
      { nsp_fp := (plan_fs fs (argv.getD 1 []) (argv.getD 2 [])).nsp_fp,
        cout := (plan_fs fs (argv.getD 1 []) (argv.getD 2 [])).cout, file_handles := [] }
      = { nsp_fp := (plan fs.env (argv.getD 1 [])).nsp_fp,
          cout := (plan fs.env (argv.getD 1 [])).cout, file_handles := [] } := by
    simp only [CopyPass_fs.plain, p1, p3, List.map_nil]
    rfl
  rw [hst, p2] at a1
  simp only [main_fs, main, hargc, if_false, hex, Bool.not_true, Bool.false_eq_true, ne_eq,
    hdir, not_true_eq_false]
  rw [← a1]
  cases hc : append_all_fs fs (argv.getD 2 []) fuel
      { nsp_fp := (plan_fs fs (argv.getD 1 []) (argv.getD 2 [])).nsp_fp,
        cout := (plan_fs fs (argv.getD 1 []) (argv.getD 2 [])).cout, file_handles := [] }
      (plan_fs fs (argv.getD 1 []) (argv.getD 2 [])).file_handles with
  | none =>
    refine ⟨rfl, ?_⟩
    intro run fp hrun
    simp at hrun
  | some copied =>
    refine ⟨rfl, ?_⟩
    intro run fp hrun hfp
    simp only [Option.some.injEq] at hrun
    rw [← hrun] at hfp
    simp only [Option.some.injEq] at hfp
    rw [← hfp]
    exact a2 copied hc

theorem ofstream_fs_ext (a b : ofstream_fs) (h1 : a.stream = b.stream)
    (h2 : a.failbit = b.failbit) : a = b := by
  cases a
  cases b
  simp only at h1 h2
  rw [h1, h2]

/-- Two runs that return from their copy passes with output streams that have
not failed and that accepted the same bytes hold the same output stream. -/
theorem nsp_fp_eq_of_plain (run1 run2 : Run_fs) (h : run2.plain.nsp_fp = run1.plain.nsp_fp)
    (h1 : ∀ fp, run1.nsp_fp = some fp → fp.failbit = false)
    (h2 : ∀ fp, run2.nsp_fp = some fp → fp.failbit = false) :
    run2.nsp_fp = run1.nsp_fp := by
  simp only [Run_fs.plain] at h
  cases hn1 : run1.nsp_fp with
  | none =>
    cases hn2 : run2.nsp_fp with
    | none => rfl
    | some fp2 => rw [hn1, hn2] at h; simp at h
  | some fp1 =>
    cases hn2 : run2.nsp_fp with
    | none => rw [hn1, hn2] at h; simp at h
    | some fp2 =>
      rw [hn1, hn2, Option.map_some', Option.map_some', Option.some.injEq] at h
      rw [ofstream_fs_ext fp2 fp1 h ((h2 fp2 hn2).trans (h1 fp1 hn1).symm)]

/-- C12, amended: the archive bytes are determined by the enumeration alone
when the output file can be opened and is none of the enumerated regular
files. Take
two builds whose enumerations yield the same ordered sequence of regular
files, as paths with the contents the files hold when their streams are opened,
each build with an output path on which a stream can be opened and which names
none of its regular entries. Whatever the program names, the output paths, the
milliseconds read from the clock, the buffering of the output streams and the
bounds on the loop iterations: once the first build returns, its output stream
has accepted some bytes `out` without failing, every return of the second has
the same output stream, and the second does return when it is allowed at
least as many iterations. -/
theorem C12_deterministic (fuel1 : Nat) (argv1 argv2 : List (List Byte))
    (fs1 fs2 : FileSystem) (entries1 entries2 : List directory_entry) (run1 : Run_fs)
    (hb1 : Builds argv1 fs1.env entries1) (hb2 : Builds argv2 fs2.env entries2)
    (hsame : (entries1.filter (fun e => decide (e.type = file_type.regular))).map
        (fun e => (e.path, e.content))
      = (entries2.filter (fun e => decide (e.type = file_type.regular))).map
        (fun e => (e.path, e.content)))
    (hopen1 : fs1.ofstream_opens (argv1.getD 2 []) = true)
    (hopen2 : fs2.ofstream_opens (argv2.getD 2 []) = true)
    (hfresh1 : ∀ e ∈ entries1, e.type = file_type.regular →
      fs1.same_file e.path (argv1.getD 2 []) = false)
    (hfresh2 : ∀ e ∈ entries2, e.type = file_type.regular →
      fs2.same_file e.path (argv2.getD 2 []) = false)
    (h1 : main_fs fuel1 argv1 fs1 = some run1) :
    (∃ out, run1.nsp_fp = some { stream := { bytes := out }, failbit := false }) ∧
    (∀ fuel2 run2, main_fs fuel2 argv2 fs2 = some run2 → run2.nsp_fp = run1.nsp_fp) ∧
    (∀ fuel2, fuel1 ≤ fuel2 →
      ∃ run2, main_fs fuel2 argv2 fs2 = some run2 ∧ run2.nsp_fp = run1.nsp_fp) := by
  obtain ⟨hargc1, hdir1, hent1⟩ := hb1
  obtain ⟨hargc2, hdir2, hent2⟩ := hb2
  rw [← hent1] at hfresh1
  rw [← hent2] at hfresh2
  rw [← hent1, ← hent2] at hsame
  obtain ⟨pb, ph⟩ := plan_agree fs1.env fs2.env (argv1.getD 1 []) (argv2.getD 1 []) hsame
  obtain ⟨m1, f1⟩ := main_fs_fresh fuel1 argv1 fs1 hopen1 hfresh1
  rw [h1, Option.map_some'] at m1
  have key : ∀ fuel2 run2, main_fs fuel2 argv2 fs2 = some run2 → run2.nsp_fp = run1.nsp_fp := by
    intro fuel2 run2 h2
    obtain ⟨m2, f2⟩ := main_fs_fresh fuel2 argv2 fs2 hopen2 hfresh2
    rw [h2, Option.map_some'] at m2
    obtain ⟨runA, hA, _, hAn, _⟩ := main_agree fuel1 (max fuel1 fuel2) (le_max_left _ _)
      argv1 argv2 fs1.env fs2.env hargc1 hdir1 hargc2 hdir2 pb ph run1.plain m1.symm
    obtain ⟨runB, hB, _, hBn, _⟩ := main_agree fuel2 (max fuel1 fuel2) (le_max_right _ _)
      argv2 argv2 fs2.env fs2.env hargc2 hdir2 hargc2 hdir2 rfl rfl run2.plain m2.symm
    rw [hA, Option.some.injEq] at hB
    refine nsp_fp_eq_of_plain run1 run2 ?_ (fun fp => f1 run1 fp h1) (fun fp => f2 run2 fp h2)
    rw [← hBn, ← hB, hAn]
  refine ⟨?_, key, ?_⟩
  · have hb := main_build_branch fuel1 argv1 fs1.env hargc1 hdir1
    rw [← m1, Option.map_some'] at hb
    cases hn : run1.nsp_fp with
    | none =>
      cases hc : append_all fuel1
          { nsp_fp := (plan fs1.env (argv1.getD 1 [])).nsp_fp,
            cout := (plan fs1.env (argv1.getD 1 [])).cout, file_handles := [] }
          (plan fs1.env (argv1.getD 1 [])).file_handles with
      | none => rw [hc] at hb; simp at hb
      | some copied =>
        rw [hc, Option.map_some', Option.some.injEq] at hb
        have e := (Prod.mk.inj (Prod.mk.inj hb).2).1
        simp only [Run_fs.plain, hn, Option.map_none'] at e
        simp at e
    | some fp =>
      have hf := f1 run1 fp h1 hn
      refine ⟨fp.stream.bytes, ?_⟩
      rw [← hf]
  · intro fuel2 hle
    obtain ⟨runA, hA, _, _, _⟩ := main_agree fuel1 fuel2 hle
      argv1 argv2 fs1.env fs2.env hargc1 hdir1 hargc2 hdir2 pb ph run1.plain m1.symm
    obtain ⟨m2, _⟩ := main_fs_fresh fuel2 argv2 fs2 hopen2 hfresh2
    cases h2 : main_fs fuel2 argv2 fs2 with
    | none => rw [h2, hA] at m2; simp at m2
    | some run2 => exact ⟨run2, rfl, key fuel2 run2 h2⟩

theorem sample_fs_builds : Builds sample_argv sample_fs.env (sample_files.map regular_file) :=
  ⟨by decide, by decide, rfl⟩

theorem other_fs_builds :
    Builds other_argv other_fs.env
      ({ path := ascii "in/sub", type := file_type.directory, content := none }
        :: sample_files.map regular_file) :=
  ⟨by decide, by decide, rfl⟩

theorem sample_fs_run :
    (main_fs 1 sample_argv sample_fs).map (fun run => run.nsp_fp)
      = some (some { stream := { bytes := sample_archive }, failbit := false }) := by
  decide

/-- Witness of C12 as amended: the sample build, and a build of the same two files with
another program name, another output file, another clock reading, an output
stream that flushes every byte at once, another iteration bound and a
sub-directory in the listing, write the same 81 bytes. -/
theorem C12_deterministic_witness :
    Builds sample_argv sample_fs.env (sample_files.map regular_file) ∧
    Builds other_argv other_fs.env
      ({ path := ascii "in/sub", type := file_type.directory, content := none }
        :: sample_files.map regular_file) ∧
    sample_fs.ofstream_opens (sample_argv.getD 2 []) = true ∧
    other_fs.ofstream_opens (other_argv.getD 2 []) = true ∧
    (∀ e ∈ sample_files.map regular_file, e.type = file_type.regular →
      sample_fs.same_file e.path (sample_argv.getD 2 []) = false) ∧
    (∀ e ∈ ({ path := ascii "in/sub", type := file_type.directory, content := none }
        :: sample_files.map regular_file : List directory_entry),
      e.type = file_type.regular → other_fs.same_file e.path (other_argv.getD 2 []) = false) ∧
    ∃ run1 run2, main_fs 1 sample_argv sample_fs = some run1 ∧
      main_fs 7 other_argv other_fs = some run2 ∧ run2.nsp_fp = run1.nsp_fp ∧
      run1.nsp_fp = some { stream := { bytes := sample_archive }, failbit := false } :=
  ⟨sample_fs_builds, other_fs_builds, by decide, by decide, by decide, by decide,
    match hm : main_fs 1 sample_argv sample_fs, sample_fs_run with
    | some run1, h3 =>
      match (C12_deterministic 1 sample_argv other_argv sample_fs other_fs _ _ run1
        sample_fs_builds other_fs_builds (by decide) (by decide) (by decide) (by decide)
        (by decide) hm).2.2 7 (by decide) with
      | ⟨run2, h2, hn⟩ => ⟨run1, run2, rfl, h2, hn, Option.some.inj h3⟩
    | none, h3 => nomatch h3⟩

/-- Counterexample to C12 as stated: three builds of the same directory, hence
of the same enumeration, that differ in the output file name alone. With the
output `out.pfs0` the 81 bytes of the sample container are written. With the
output `in/b.bin`, the first of the two files, the open of line 83 empties the
file before line 99 measures it, and other 78 bytes are written: `b.bin` is
recorded with size 0 and contributes no content. With the output `in`, the
directory itself, the output stream cannot be opened and nothing is written,
while `main` still returns 0. -/
theorem C12_deterministic_counterexample :
    Builds sample_argv sample_fs.env (sample_files.map regular_file) ∧
    Builds overwriting_argv sample_fs.env (sample_files.map regular_file) ∧
    Builds unwritable_argv sample_fs.env (sample_files.map regular_file) ∧
    (main_fs 1 sample_argv sample_fs).map (fun run => (run.status, run.nsp_fp))
      = some (0, some { stream := { bytes := sample_archive }, failbit := false }) ∧
    (main_fs 1 overwriting_argv sample_fs).map (fun run => (run.status, run.nsp_fp))
      = some (0, some { stream := { bytes := overwriting_archive }, failbit := false }) ∧
    (main_fs 1 unwritable_argv sample_fs).map (fun run => (run.status, run.nsp_fp))
      = some (0, some { stream := { bytes := [] }, failbit := true }) ∧
    overwriting_archive ≠ sample_archive := by
  refine ⟨⟨by decide, by decide, rfl⟩, ⟨by decide, by decide, rfl⟩, ⟨by decide, by decide, rfl⟩,
    by decide, by decide, by decide, by decide⟩

end Pfs0Create
